import Mathlib

/-!
# SpartanGold: `FixedMerkleTree` (merkle.js) and `Block` (block.js)

A shallow embedding of the two source files.

* JavaScript numbers that the code uses as array indices and counters are `Nat`;
  amounts, nonces and the proof-of-work target (a `BigInt`) are `Int`.
* The sums and differences of amounts and nonces in `block.js` are embedded twice:
  with exact integers (`addTransaction`, `creditWinner`, `Block.new`) and with the
  rounding of JS numbers to 53 significant bits (`addTransactionNum`,
  `creditWinnerNum`, `Block.newNum`); the two agree while the values stay between 0
  and `2 ^ 53`.
* `undefined` is `none`: an array hole, a missing key of an object or of a `Map`,
  a missing field.
* A JavaScript exception (`v.getid()` on `undefined`) is the result `none` of the
  operation that raises it.
* `utils.hash`, `JSON.stringify` and `Transaction.sufficientFunds` are not part of
  the two files; they are parameters `hash`, `stringify` and `sufficientFunds`.
* A loop that the source does not bound (`while` in `getPath`) takes a fuel argument
  and answers `none` when the fuel is used up; the loops whose number of rounds is
  bounded by their data take that bound as their fuel.
-/

namespace SpartanGold

/-! ## JavaScript values -/

/-- The text that string concatenation makes of a value that may be `undefined`. -/
def jsStr : Option String → String
  | none => "undefined"
  | some s => s

/-- Reading `a[i]`: a hole and an index outside the array both read `undefined`. -/
def arrGet {α : Type} (a : List (Option α)) (i : Nat) : Option α :=
  (a[i]?).join

/-- Writing `a[i] = v`: an index at or beyond the length grows the array, leaving holes. -/
def arrSet {α : Type} (a : List (Option α)) (i : Nat) (v : α) : List (Option α) :=
  if i < a.length then a.set i (some v)
  else a ++ List.replicate (i - a.length) none ++ [some v]

/-- `Map.prototype.get` and the read `obj[k]` on an association list in insertion order. -/
def mapGet {β : Type} : List (String × β) → String → Option β
  | [], _ => none
  | (k', v') :: rest, k => if k' = k then some v' else mapGet rest k

/-- `Map.prototype.set` and the write `obj[k] = v`: an existing key keeps its place. -/
def mapSet {β : Type} : List (String × β) → String → β → List (String × β)
  | [], k, v => [(k, v)]
  | (k', v') :: rest, k, v =>
    if k' = k then (k', v) :: rest else (k', v') :: mapSet rest k v

/-! ## Transactions (external collaborator, seen through the members the code uses) -/

/-- One entry of `tx.outputs`. -/
structure Output where
  amount : Int
  address : String
deriving DecidableEq

/-- The members of a transaction that `merkle.js` and `block.js` read. The methods
without argument (`getid()`, `validSignature()`, `totalOutput()`) are their results;
`from_` is the field `from`. -/
structure Transaction where
  getid : String
  from_ : String
  nonce : Int
  outputs : List Output
  fee : Int
  sig : Option String
  validSignature : Bool
  totalOutput : Int
deriving DecidableEq

/-! ## merkle.js -/

/-- The fields of `FixedMerkleTree`. A slot of `transactions` is `none` for the filler
`" "` and `some tx` for a transaction; an entry of `hashes` is `none` for a hole. -/
structure FixedMerkleTree where
  maxTransactions : Nat
  transactions : List (Option Transaction)
  hashes : List (Option String)
  lookup : List (String × Nat)
deriving DecidableEq

/-- The loop `while (n < numElems) n *= 2` of `calculateSize`. -/
def calculateSizeLoop : Nat → Nat → Nat → Nat
  | 0, n, _ => n
  | fuel + 1, n, numElems =>
    if n < numElems then calculateSizeLoop fuel (n * 2) numElems else n

/-- `FixedMerkleTree.calculateSize`. -/
def calculateSize (numElems : Nat) : Nat :=
  calculateSizeLoop numElems 1 numElems * 2 - 1

/-- `FixedMerkleTree.hashToRoot`, the recursion bounded by `fuel`. For an odd `i` the
source computes a fractional `par`: the write goes to a property that is no array
element and `par % 2 === 0` fails, so the array is as before. -/
def hashToRootAux (hash : String → String) :
    Nat → List (Option String) → Nat → List (Option String)
  | 0, hashes, _ => hashes
  | fuel + 1, hashes, i =>
    if i = 0 then hashes
    else if i % 2 = 1 then hashes
    else
      let par := (i - 2) / 2
      let hashes1 :=
        arrSet hashes par (hash (jsStr (arrGet hashes (i - 1)) ++ "," ++ jsStr (arrGet hashes i)))
      if par % 2 = 0 then hashToRootAux hash fuel hashes1 par else hashes1

/-- `FixedMerkleTree.hashToRoot(hashes, i)`; every call is on a smaller index, so `i`
rounds are enough. -/
def hashToRoot (hash : String → String) (hashes : List (Option String)) (i : Nat) :
    List (Option String) :=
  hashToRootAux hash i hashes i

/-- The hash that `build` stores for a slot. -/
def leafHash (hash : String → String) : Option Transaction → String
  | none => hash " "
  | some tx => hash tx.getid

/-- The first loop of `build` over the leaf indices: `v.getid()` throws when the slot
`i - firstTransaction` does not exist. -/
def buildLeaves (hash : String → String) (transactions : List (Option Transaction))
    (firstTransaction : Nat) :
    List Nat → List (Option String) × List (String × Nat) →
      Option (List (Option String) × List (String × Nat))
  | [], s => some s
  | i :: rest, (hashes, lookup) =>
    match transactions[i - firstTransaction]? with
    | none => none
    | some v =>
      buildLeaves hash transactions firstTransaction rest
        (arrSet hashes i (leafHash hash v), mapSet lookup (leafHash hash v) i)

/-- The second loop of `build`: `for (i = ...; i < hashes.length; i += 2) hashToRoot(hashes, i)`. -/
def buildInner (hash : String → String) : Nat → Nat → List (Option String) → List (Option String)
  | 0, _, hashes => hashes
  | fuel + 1, i, hashes =>
    if i < hashes.length then buildInner hash fuel (i + 2) (hashToRoot hash hashes i)
    else hashes

/-- `FixedMerkleTree.build`. -/
def build (hash : String → String) (t : FixedMerkleTree) : Option FixedMerkleTree :=
  let numBalancedTree := calculateSize t.maxTransactions
  let firstTransaction := numBalancedTree / 2
  match buildLeaves hash t.transactions firstTransaction
      (List.range' firstTransaction (numBalancedTree - firstTransaction))
      (t.hashes, t.lookup) with
  | none => none
  | some (hashes, lookup) =>
    some { t with
      hashes := buildInner hash hashes.length (firstTransaction + 1) hashes
      lookup := lookup }

/-- The constructor `new FixedMerkleTree(maxTx)`. -/
def FixedMerkleTree.new (hash : String → String) (maxTx : Nat) : Option FixedMerkleTree :=
  build hash
    { maxTransactions := maxTx
      transactions := List.replicate maxTx none
      hashes := []
      lookup := [] }

/-- `FixedMerkleTree.isFull`: the slot `maxTransactions - 1` is not the filler. -/
def isFull (t : FixedMerkleTree) : Bool :=
  if t.maxTransactions = 0 then true
  else
    match t.transactions[t.maxTransactions - 1]? with
    | some none => false
    | _ => true

/-- The loop of `addTx` over the first `n` slots: the first filler becomes `tx`. -/
def fillFirstEmpty (tx : Transaction) :
    Nat → List (Option Transaction) → List (Option Transaction)
  | 0, l => l
  | _ + 1, [] => []
  | _ + 1, none :: rest => some tx :: rest
  | n + 1, some t :: rest => some t :: fillFirstEmpty tx n rest

/-- `FixedMerkleTree.addTx`. -/
def addTx (hash : String → String) (t : FixedMerkleTree) (tx : Transaction) :
    Option FixedMerkleTree :=
  if isFull t then some t
  else build hash { t with transactions := fillFirstEmpty tx t.maxTransactions t.transactions }

/-- `FixedMerkleTree.getTransaction`. -/
def getTransaction (t : FixedMerkleTree) (num : Nat) : Option (Option Transaction) :=
  t.transactions[num]?

/-- `FixedMerkleTree.getAllTransactions`. -/
def getAllTransactions (t : FixedMerkleTree) : List Transaction :=
  t.transactions.filterMap id

/-- `FixedMerkleTree.getroot`. -/
def getroot (t : FixedMerkleTree) : Option String :=
  arrGet t.hashes 0

/-- `FixedMerkleTree.has`. -/
def has (hash : String → String) (t : FixedMerkleTree) (tx : Transaction) : Bool :=
  (mapGet t.lookup (hash tx.getid)).isSome

/-- The object that `getPath` returns and `verify` reads. -/
structure MerklePath where
  txInd : Option Nat
  Path : List (Option Nat)
deriving DecidableEq

/-- The value `hashCheck` of `getPath` for the positions `currentPosition` and `j`;
`undefined < j` is false and `hashes[undefined]` is `undefined`. -/
def pairCheck (hash : String → String) (hashes : List (Option String))
    (currentPosition : Option Nat) (j : Nat) : String :=
  match currentPosition with
  | some c =>
    if c < j then hash (jsStr (arrGet hashes c) ++ "," ++ jsStr (arrGet hashes j))
    else hash (jsStr (arrGet hashes j) ++ "," ++ jsStr (arrGet hashes c))
  | none => hash (jsStr (arrGet hashes j) ++ "," ++ jsStr none)

/-- The `for` loop inside the `while` of `getPath`: the pair
`(tempPosition, nextPosition)` it leaves. -/
def searchStep (hash : String → String) (hashes : List (Option String))
    (currentPosition : Option Nat) : Nat × Nat :=
  match (List.range hashes.length).find?
      (fun j => hashes.contains (some (pairCheck hash hashes currentPosition j))) with
  | none => (0, 0)
  | some j => (j, hashes.indexOf (some (pairCheck hash hashes currentPosition j)))

/-- The `while (currentPosition != 0)` loop of `getPath`; `none` when the fuel is used up. -/
def getPathLoop (hash : String → String) (hashes : List (Option String)) :
    Nat → Option Nat → List (Option Nat) → Option (List (Option Nat))
  | 0, _, _ => none
  | fuel + 1, currentPosition, pseudopath =>
    if currentPosition = some 0 then some pseudopath
    else
      let step := searchStep hash hashes currentPosition
      if step.1 = 0 then some pseudopath
      else getPathLoop hash hashes fuel (some step.2) (pseudopath ++ [some step.1])

/-- `FixedMerkleTree.getPath`. -/
def getPath (hash : String → String) (fuel : Nat) (t : FixedMerkleTree) (transaction : Transaction) :
    Option MerklePath :=
  let i := mapGet t.lookup (hash transaction.getid)
  (getPathLoop hash t.hashes fuel i [i]).map (fun pseudopath => { txInd := i, Path := pseudopath })

/-- The number that `j < nodes` compares `j` with when `nodes` is an array: the array
is turned into the text of its entries joined by commas and that text into a number;
`none` is `NaN`. -/
def arrayToNumber : List (Option Nat) → Option Nat
  | [] => some 0
  | [none] => some 0
  | [some x] => some x
  | _ :: _ :: _ => none

/-- `Math.ceil(x / 2) - 1`; `none` is `NaN`. -/
def ceilHalfPred : Option Int → Option Int
  | none => none
  | some x => some ((x + 1) / 2 - 1)

/-- Reading `hashes[x]` for a number that may be negative or `NaN`. -/
def arrGetInt (hashes : List (Option String)) : Option Int → Option String
  | some (Int.ofNat n) => arrGet hashes n
  | _ => none

/-- The comparison `currentNode < nextNode`, false when a side is `undefined` or `NaN`. -/
def jsLt : Option Int → Option Int → Bool
  | some a, some b => decide (a < b)
  | _, _ => false

/-- One round of the `for` loop of `verify` on `(valid, currentNode, currentParent)`. -/
def verifyStep (hash : String → String) (hashes : List (Option String)) (nodes : List (Option Nat))
    (s : Bool × Option Int × Option Int) (j : Nat) : Bool × Option Int × Option Int :=
  let currentNode := s.2.1
  let currentParent := s.2.2
  let nextNode : Option Int := (arrGet nodes j).map Int.ofNat
  let hashCheck :=
    if jsLt currentNode nextNode then
      hash (jsStr (arrGetInt hashes currentNode) ++ "," ++ jsStr (arrGetInt hashes nextNode))
    else
      hash (jsStr (arrGetInt hashes nextNode) ++ "," ++ jsStr (arrGetInt hashes currentNode))
  let valid := if some hashCheck ≠ arrGetInt hashes currentParent then false else s.1
  (valid, currentParent, ceilHalfPred currentParent)

/-- `FixedMerkleTree.verify`. The loop `for (j = 1; j < nodes; j++)` has the array
`nodes` as its bound, not its length. -/
def verify (hash : String → String) (t : FixedMerkleTree) (_tx : Transaction) (path : MerklePath) :
    Bool :=
  let i : Option Int := path.txInd.map Int.ofNat
  let nodes := path.Path
  if ¬ nodes.contains (some 1) ∧ ¬ nodes.contains (some 2) then false
  else
    let rounds :=
      match arrayToNumber nodes with
      | none => []
      | some bound => List.range' 1 (bound - 1)
    (rounds.foldl (verifyStep hash t.hashes nodes) (true, i, ceilHalfPred i)).1

/-! ## block.js -/

/-- `MAX_BLOCK_TRANSACTIONS`. -/
def MAX_BLOCK_TRANSACTIONS : Nat := 8

/-- The fields of `Block`. `rewardAddr` and `proof` may be `undefined`. -/
structure Block where
  prevBlockHash : Option String
  balances : List (String × Int)
  nextNonce : List (String × Int)
  txMerkleTree : FixedMerkleTree
  chainLength : Nat
  target : Int
  timestamp : Nat
  rewardAddr : Option String
  coinbaseReward : Int
  proof : Option Nat
deriving DecidableEq

/-- The object that `toJSON` hands to `JSON.stringify`. -/
inductive BlockJSON where
  | genesis (chainLength timestamp : Nat) (balances : List (String × Int))
  | other (chainLength timestamp : Nat) (txMerkleTree : FixedMerkleTree)
      (prevBlockHash : Option String) (proof : Option Nat) (rewardAddr : Option String)
deriving DecidableEq

/-- `Block.isGenesisBlock`. -/
def isGenesisBlock (b : Block) : Bool :=
  b.chainLength = 0

/-- `Block.toJSON`. -/
def toJSON (b : Block) : BlockJSON :=
  if isGenesisBlock b then BlockJSON.genesis b.chainLength b.timestamp b.balances
  else BlockJSON.other b.chainLength b.timestamp b.txMerkleTree b.prevBlockHash b.proof b.rewardAddr

/-- `Block.serialize`: `JSON.stringify(this)`, which goes through `toJSON`. -/
def serialize (stringify : BlockJSON → String) (b : Block) : String :=
  stringify (toJSON b)

/-- `Block.hashVal`. -/
def hashVal (hash : String → String) (stringify : BlockJSON → String) (b : Block) : String :=
  hash (serialize stringify b)

/-- `Block.balanceOf`: `this.balances.get(addr) || 0`. -/
def balanceOf (b : Block) (addr : String) : Int :=
  (mapGet b.balances addr).getD 0

/-- `Block.totalRewards`, the sum taken with exact integers; `totalRewardsNum` has the
rounding of JS numbers, and the two agree while the sum stays between 0 and `2 ^ 53`. -/
def totalRewards (b : Block) : Int :=
  ((getAllTransactions b.txMerkleTree).map (fun tx => tx.fee)).sum + b.coinbaseReward

/-- The ledger that the constructor and `rerun` start from: the balances of
`prevBlock`, with its total reward added for its reward address when that address is
set (a truthy string). The sum is taken with exact integers; `creditWinnerNum` has the
rounding of JS numbers, and the two agree while the balance stays between 0 and
`2 ^ 53`. -/
def creditWinner (prevBlock : Block) : List (String × Int) :=
  match prevBlock.rewardAddr with
  | none => prevBlock.balances
  | some addr =>
    if addr = "" then prevBlock.balances
    else mapSet prevBlock.balances addr (balanceOf prevBlock addr + totalRewards prevBlock)

/-- The constructor `new Block(rewardAddr, prevBlock, target, coinbaseReward)`;
`now` is `Date.now()`. -/
def Block.new (hash : String → String) (stringify : BlockJSON → String)
    (rewardAddr : Option String) (prevBlock : Option Block) (target : Int) (coinbaseReward : Int)
    (now : Nat) : Option Block :=
  match FixedMerkleTree.new hash MAX_BLOCK_TRANSACTIONS with
  | none => none
  | some tree =>
    let chainLength := match prevBlock with
      | some p => p.chainLength + 1
      | none => 0
    some
      { prevBlockHash := prevBlock.map (hashVal hash stringify)
        balances := match prevBlock with
          | some p => creditWinner p
          | none => []
        nextNonce := match prevBlock with
          | some p => p.nextNonce
          | none => []
        txMerkleTree := tree
        chainLength := chainLength
        target := target >>> (chainLength / 5)
        timestamp := now
        rewardAddr := rewardAddr
        coinbaseReward := coinbaseReward
        proof := none }

/-- The callback of `tx.outputs.forEach` in `addTransaction`, the sum taken with exact
integers; `creditOutputNum` has the rounding of JS numbers. -/
def creditOutput (balances : List (String × Int)) (o : Output) : List (String × Int) :=
  mapSet balances o.address (o.amount + (mapGet balances o.address).getD 0)

/-- `Block.addTransaction`: the answer and the block afterwards, the sums taken with
exact integers; `addTransactionNum` has the rounding of JS numbers, and the two agree
while the nonce and the balances stay between 0 and `2 ^ 53`. -/
def addTransaction (hash : String → String) (sufficientFunds : Transaction → Block → Bool)
    (b : Block) (tx : Transaction) : Option (Bool × Block) :=
  if has hash b.txMerkleTree tx then some (false, b)
  else if tx.sig = none then some (false, b)
  else if ¬ tx.validSignature then some (false, b)
  else if ¬ sufficientFunds tx b then some (false, b)
  else if isFull b.txMerkleTree then some (false, b)
  else
    let nonce := (mapGet b.nextNonce tx.from_).getD 0
    if tx.nonce < nonce then some (false, b)
    else if tx.nonce > nonce then some (false, b)
    else
      let b1 := { b with nextNonce := mapSet b.nextNonce tx.from_ (nonce + 1) }
      match addTx hash b1.txMerkleTree tx with
      | none => none
      | some tree =>
        let b2 := { b1 with txMerkleTree := tree }
        let b3 := { b2 with balances := mapSet b2.balances tx.from_ (balanceOf b2 tx.from_ - tx.totalOutput) }
        some (true, { b3 with balances := tx.outputs.foldl creditOutput b3.balances })

/-- The loop of `rerun` over the transactions the block held. -/
def rerunLoop (hash : String → String) (sufficientFunds : Transaction → Block → Bool) :
    Block → List Transaction → Option (Bool × Block)
  | b, [] => some (true, b)
  | b, tx :: rest =>
    match addTransaction hash sufficientFunds b tx with
    | none => none
    | some (false, b1) => some (false, b1)
    | some (true, b1) => rerunLoop hash sufficientFunds b1 rest

/-- `Block.rerun`. -/
def rerun (hash : String → String) (sufficientFunds : Transaction → Block → Bool)
    (b : Block) (prevBlock : Block) : Option (Bool × Block) :=
  match FixedMerkleTree.new hash MAX_BLOCK_TRANSACTIONS with
  | none => none
  | some tree =>
    rerunLoop hash sufficientFunds
      { b with
        balances := creditWinner prevBlock
        nextNonce := prevBlock.nextNonce
        txMerkleTree := tree }
      (getAllTransactions b.txMerkleTree)

/-- `Block.contains`. -/
def contains (hash : String → String) (b : Block) (tx : Transaction) : Bool :=
  has hash b.txMerkleTree tx

/-- `Block.isValid`. -/
def isValid (hash : String → String) (fuel : Nat) (b : Block) (tx : Transaction) : Option Bool :=
  if contains hash b tx then
    (getPath hash fuel b.txMerkleTree tx).map (fun path => verify hash b.txMerkleTree tx path)
  else some false

/-! ## Runs of calls -/

/-- A run of `addTx` calls on a tree, in order. -/
def addTxs (hash : String → String) : FixedMerkleTree → List Transaction → Option FixedMerkleTree
  | t, [] => some t
  | t, tx :: rest =>
    match addTx hash t tx with
    | none => none
    | some t1 => addTxs hash t1 rest

/-- A run of `addTransaction` calls on a block, in order: the answers and the block
at the end. -/
def submitAll (hash : String → String) (sufficientFunds : Transaction → Block → Bool) :
    Block → List Transaction → Option (List Bool × Block)
  | b, [] => some ([], b)
  | b, tx :: rest =>
    match addTransaction hash sufficientFunds b tx with
    | none => none
    | some (r, b1) =>
      match submitAll hash sufficientFunds b1 rest with
      | none => none
      | some (rs, b2) => some (r :: rs, b2)

/-! ## Sample data -/

/-- A toy hash without collisions: the text in angle brackets. -/
def sampleHash (s : String) : String := "<" ++ s ++ ">"

/-- The check `totalOutput() <= block.balanceOf(from)`. -/
def sampleFunds (tx : Transaction) (b : Block) : Bool :=
  decide (tx.totalOutput ≤ balanceOf b tx.from_)

/-- A signed transaction of `amount` from `sender` to `receiver`. -/
def sampleTx (ident sender receiver : String) (nonce amount : Int) : Transaction :=
  { getid := ident, from_ := sender, nonce := nonce
    outputs := [{ amount := amount, address := receiver }]
    fee := 0, sig := some "sig", validSignature := true, totalOutput := amount }

/-- Two transactions with the identities `a` and `b`. -/
def sampleA : Transaction := sampleTx "a" "A" "B" 0 1

/-- See `sampleA`. -/
def sampleB : Transaction := sampleTx "b" "A" "B" 0 1

/-- The tree of capacity `cap` after `addTx` of `txs`, with the toy hash. -/
def sampleTree (cap : Nat) (txs : List Transaction) : Option FixedMerkleTree :=
  (FixedMerkleTree.new sampleHash cap).bind (fun t => addTxs sampleHash t txs)

/-- A toy `JSON.stringify`. -/
def sampleStringify : BlockJSON → String
  | BlockJSON.genesis _ _ _ => "genesis"
  | BlockJSON.other _ _ _ _ _ _ => "block"

/-- Transactions of account `A`, one coin each to `B`, with nonces 0, 1 and 2. -/
def sampleT0 : Transaction := sampleTx "t0" "A" "B" 0 1

/-- See `sampleT0`. -/
def sampleT1 : Transaction := sampleTx "t1" "A" "B" 1 1

/-- See `sampleT0`. -/
def sampleT2 : Transaction := sampleTx "t2" "A" "B" 2 1

/-- A block with an empty tree in which `A` owns 100 and has used nonce 0. -/
def sampleBlock : Block :=
  { prevBlockHash := none
    balances := [("A", 100)]
    nextNonce := [("A", 1)]
    txMerkleTree := (FixedMerkleTree.new sampleHash MAX_BLOCK_TRANSACTIONS).getD
      { maxTransactions := 0, transactions := [], hashes := [], lookup := [] }
    chainLength := 0
    target := 1000
    timestamp := 0
    rewardAddr := some "M"
    coinbaseReward := 10
    proof := none }

/-- The block constructed from `sampleBlock`. -/
def sampleChild : Block :=
  (Block.new sampleHash sampleStringify (some "N") (some sampleBlock) 1000 10 7).getD sampleBlock

/-- The block `sampleChild` after it has accepted `sampleT1` and `sampleT2`. -/
def sampleChildAfter : Block :=
  ((submitAll sampleHash sampleFunds sampleChild [sampleT1, sampleT2]).map (fun r => r.2)).getD
    sampleChild

/-- The tree of capacity 4 that holds only `sampleA`. -/
def sampleTree4 : FixedMerkleTree :=
  (sampleTree 4 [sampleA]).getD { maxTransactions := 0, transactions := [], hashes := [], lookup := [] }

/-- The block `sampleBlock` after it has accepted `sampleT1`. -/
def sampleAfterT1 : Block :=
  ((addTransaction sampleHash sampleFunds sampleBlock sampleT1).map (fun r => r.2)).getD sampleBlock

/-! ## Vocabulary of the statements -/

/-- The index reached from `p` by `j` steps to the right child. -/
def spine : Nat → Nat → Nat
  | 0, p => p
  | j + 1, p => 2 * spine j p + 2


/-- Node `p` of the array holds the hash of its two children, joined by a comma. -/
def NodeOk (hash : String → String) (hashes : List (Option String)) (p : Nat) : Prop :=
  arrGet hashes p =
    some (hash (jsStr (arrGet hashes (2 * p + 1)) ++ "," ++ jsStr (arrGet hashes (2 * p + 2))))

/-- The state of a tree of capacity `2 ^ k` that the constructor and `addTx` keep:
all slots exist and `hashes` is the Merkle tree of the slots. -/
def TreeInv (hash : String → String) (k : Nat) (t : FixedMerkleTree) : Prop :=
  t.maxTransactions = 2 ^ k ∧ t.transactions.length = 2 ^ k ∧ t.hashes.length = 2 * 2 ^ k - 1 ∧
  (∀ s, s < 2 ^ k → ∃ v, t.transactions[s]? = some v ∧
    arrGet t.hashes (2 ^ k - 1 + s) = some (leafHash hash v)) ∧
  (∀ p, p + 2 ≤ 2 ^ k → NodeOk hash t.hashes p)

/-- The slots of a tree are as the constructor makes them: as many as the capacity,
which is a power of two (for another capacity the constructor throws). -/
def SlotsOk (t : FixedMerkleTree) : Prop :=
  t.transactions.length = t.maxTransactions ∧ ∃ k, t.maxTransactions = 2 ^ k

/-- The block that `addTransaction` leaves when it accepts `tx` and `addTx` has
returned `tree`. -/
def acceptedBlock (b : Block) (tx : Transaction) (tree : FixedMerkleTree) : Block :=
  { b with
    nextNonce := mapSet b.nextNonce tx.from_ ((mapGet b.nextNonce tx.from_).getD 0 + 1)
    txMerkleTree := tree
    balances := tx.outputs.foldl creditOutput
      (mapSet b.balances tx.from_ (balanceOf b tx.from_ - tx.totalOutput)) }

/-- The checks of `addTransaction`, on the block before the call. -/
def Admissible (hash : String → String) (sufficientFunds : Transaction → Block → Bool)
    (b : Block) (tx : Transaction) : Prop :=
  has hash b.txMerkleTree tx = false ∧ tx.sig ≠ none ∧ tx.validSignature = true ∧
  sufficientFunds tx b = true ∧ isFull b.txMerkleTree = false ∧
  tx.nonce = (mapGet b.nextNonce tx.from_).getD 0


/-- Every balance of the ledger is at least 0. -/
def NonNegative (balances : List (String × Int)) : Prop :=
  ∀ e ∈ balances, 0 ≤ e.2

/-- A genesis block in which `A` owns 100 and that has no reward address. -/
def sampleGenesis : Block :=
  { sampleBlock with nextNonce := [], rewardAddr := none }

/-- A block like `sampleBlock` at chain length `c`. -/
def sampleAt (c : Nat) : Block :=
  { sampleBlock with chainLength := c }

/-- The chain length the constructor gives a block: 0 without a predecessor, that of
the predecessor plus 1 otherwise. -/
def chainLengthAfter : Option Block → Nat
  | some p => p.chainLength + 1
  | none => 0

/-- The text holds no comma. -/
def CommaFree (s : String) : Prop :=
  ',' ∉ s.data

instance (s : String) : Decidable (CommaFree s) := by
  unfold CommaFree; infer_instance

/-- Index `p` of the packed tree lies `d` levels below the root. -/
def AtDepth (d p : Nat) : Prop :=
  2 ^ d ≤ p + 1 ∧ p + 1 < 2 ^ (d + 1)

/-- The text whose hash `build` stores for a slot. -/
def leafText : Option Transaction → String
  | none => " "
  | some tx => tx.getid

/-- The hash function has no collisions and its values hold no comma (as the
hexadecimal digests that `hasValidProof` parses do). -/
def HashOk (hash : String → String) : Prop :=
  Function.Injective hash ∧ ∀ s, CommaFree (hash s)

/-- The identities of the transactions in the slots hold no comma. -/
def IdsOk (t : FixedMerkleTree) : Prop :=
  ∀ tx, some tx ∈ t.transactions → CommaFree tx.getid

/-- The state of a tree of capacity `2 ^ k` after `build`: besides `TreeInv`, every
value of `lookup` is a leaf index, and every leaf hash is a key of `lookup` whose
value is the index of a leaf with that hash. -/
def TreeReady (hash : String → String) (k : Nat) (t : FixedMerkleTree) : Prop :=
  TreeInv hash k t ∧
  (∀ key v, mapGet t.lookup key = some v → AtDepth k v) ∧
  (∀ v ∈ t.transactions, ∃ s, s < 2 ^ k ∧ ∃ v2, t.transactions[s]? = some v2 ∧
    leafHash hash v2 = leafHash hash v ∧
    mapGet t.lookup (leafHash hash v) = some (2 ^ k - 1 + s))

/-- Every comma becomes `%c` and every percent sign `%%`. -/
def escapeChars : List Char → List Char
  | [] => []
  | c :: cs =>
    (if c = ',' then ['%', 'c'] else if c = '%' then ['%', '%'] else [c]) ++ escapeChars cs

/-- A toy hash without collisions whose values hold no comma. -/
def sampleDigest (s : String) : String :=
  String.mk (escapeChars s.data)

/-- The root of the tree of capacity 8 whose first leaf hashes are `<a>` and `q`. -/
def fixRoot : String := "<<<<a>,q>,<< >,< >>>,<<< >,< >>,<< >,< >>>>"

/-- An identity that is the root joined by a comma to the leaf hash `<a>`. -/
def fixId : String := fixRoot ++ ",<a>"

/-- A hash without collisions that sends `fixId` to `q`. -/
def fixHash (s : String) : String :=
  if s = fixId then "q" else "<" ++ s ++ ">"

/-- The block constructed from `sampleBlock` with `hash` as the hash function. -/
def sampleChildOf (hash : String → String) : Option Block :=
  Block.new hash sampleStringify (some "N") (some sampleBlock) 1000 10 7

/-- A transaction of `A` with nonce 2 whose identity is `fixId`. -/
def fixTx : Transaction := sampleTx fixId "A" "B" 2 1

/-- A transaction of `A` with nonce 1 whose identity is `a`. -/
def fixA : Transaction := sampleTx "a" "A" "B" 1 1

/-- The block constructed from `sampleBlock` with the hash `sampleDigest`. -/
def digestChild : Block :=
  (sampleChildOf sampleDigest).getD sampleBlock

/-- The block `digestChild` after it has accepted `sampleT1` and `sampleT2`. -/
def digestChildAfter : Block :=
  ((submitAll sampleDigest sampleFunds digestChild [sampleT1, sampleT2]).map (fun r => r.2)).getD
    sampleBlock

/-- The index reached from `p` by `j` steps to the left child. -/
def leftSpine : Nat → Nat → Nat
  | 0, p => p
  | j + 1, p => 2 * leftSpine j p + 1

/-- The sibling of an index, in the words of the specification: `i - 1` if `i` is
even and `i + 1` if `i` is odd. -/
def sibling (i : Nat) : Nat :=
  if i % 2 = 0 then i - 1 else i + 1

/-- The authentication path by index arithmetic, in the words of the specification:
the siblings of `i`, of its parent `floor((i - 1) / 2)`, and so on for `d` levels. -/
def authPath : Nat → Nat → List Nat
  | 0, _ => []
  | d + 1, i => sibling i :: authPath d ((i - 1) / 2)

/-- The identities of the transactions are pairwise distinct, hold no comma and are
not the filler text of an empty slot. -/
def IdsDistinct (xs : List Transaction) : Prop :=
  (xs.map (fun tx => tx.getid)).Nodup ∧ ∀ tx ∈ xs, CommaFree tx.getid ∧ tx.getid ≠ " "

/-- A transaction whose identity is the leaf hash of `sampleA` joined to itself. -/
def pairTx : Transaction := sampleTx "<a>,<a>" "A" "B" 1 1

/-- The tree of capacity 2 that holds `sampleA` and `sampleB`, with the hash
`sampleDigest`. -/
def digestTree2 : FixedMerkleTree :=
  ((FixedMerkleTree.new sampleDigest (2 ^ 1)).bind
    (fun t0 => addTxs sampleDigest t0 [sampleA, sampleB])).getD
    { maxTransactions := 0, transactions := [], hashes := [], lookup := [] }

/-- A genesis block in which `A` owns 100 and is the reward address. -/
def sampleGenesisA : Block :=
  { sampleGenesis with rewardAddr := some "A" }

/-- The block at chain length 5 built from the base target 1000. -/
def targetBlock5 : Block :=
  (Block.new sampleHash sampleStringify none (some (sampleAt 4)) 1000 10 7).getD sampleBlock

/-- The block at chain length 10 built from the base target 1000. -/
def targetBlock10 : Block :=
  (Block.new sampleHash sampleStringify none (some (sampleAt 9)) 1000 10 7).getD sampleBlock

/-- The block `sampleChild` with another ledger. -/
def sampleChildOther : Block :=
  { sampleChild with balances := [], nextNonce := [("Z", 5)] }

/-- The block `sampleChildAfter` as it is received from another party: with its
transactions, without balances and nonces. -/
def sampleReceived : Block :=
  { sampleChildAfter with balances := [], nextNonce := [] }

/-! ## The arithmetic of JS numbers

The balances, amounts, fees and nonces of `block.js` are JS numbers, and `+` and `-`
round their result to 53 significant bits. The definitions above compute with exact
integers; the ones below are the same functions with the rounding. Numbers are
integral and of magnitude below `2 ^ 1024`, where JS numbers are finite. -/

/-- The number of low bits of `n` that do not fit into the 53 bits of the significand
of a JS number. -/
def excessBits : Nat → Nat → Nat
  | 0, _ => 0
  | fuel + 1, n => if n < 2 ^ 53 then 0 else excessBits fuel (n / 2) + 1

/-- The JS number nearest to the integer `x`: `x` rounded to 53 significant bits, a tie
going to the even significand. -/
def roundDouble (x : Int) : Int :=
  let n := x.natAbs
  let e := excessBits n n
  let q := n / 2 ^ e
  let r := n % 2 ^ e
  let q1 := if 2 ^ e < 2 * r ∨ (2 ^ e = 2 * r ∧ q % 2 = 1) then q + 1 else q
  x.sign * ((q1 * 2 ^ e : Nat) : Int)

/-- The JS sum `a + b` of two integral numbers. -/
def jsAdd (a b : Int) : Int := roundDouble (a + b)

/-- The JS difference `a - b` of two integral numbers. -/
def jsSub (a b : Int) : Int := roundDouble (a - b)

/-- `Block.totalRewards` with the sums of JS numbers: `sum` starts at 0, takes the
fee of every transaction in turn and then the coinbase reward. -/
def totalRewardsNum (b : Block) : Int :=
  jsAdd ((getAllTransactions b.txMerkleTree).foldl (fun sum tx => jsAdd sum tx.fee) 0)
    b.coinbaseReward

/-- The ledger that the constructor starts from, with the sums of JS numbers: the
balances of `prevBlock`, with `winnerBalance + prevBlock.totalRewards()` for its reward
address when that address is set (a truthy string). -/
def creditWinnerNum (prevBlock : Block) : List (String × Int) :=
  match prevBlock.rewardAddr with
  | none => prevBlock.balances
  | some addr =>
    if addr = "" then prevBlock.balances
    else mapSet prevBlock.balances addr
      (jsAdd (balanceOf prevBlock addr) (totalRewardsNum prevBlock))

/-- The constructor `new Block(rewardAddr, prevBlock, target, coinbaseReward)` with the
sums of JS numbers; `now` is `Date.now()`. -/
def Block.newNum (hash : String → String) (stringify : BlockJSON → String)
    (rewardAddr : Option String) (prevBlock : Option Block) (target : Int) (coinbaseReward : Int)
    (now : Nat) : Option Block :=
  match FixedMerkleTree.new hash MAX_BLOCK_TRANSACTIONS with
  | none => none
  | some tree =>
    let chainLength := match prevBlock with
      | some p => p.chainLength + 1
      | none => 0
    some
      { prevBlockHash := prevBlock.map (hashVal hash stringify)
        balances := match prevBlock with
          | some p => creditWinnerNum p
          | none => []
        nextNonce := match prevBlock with
          | some p => p.nextNonce
          | none => []
        txMerkleTree := tree
        chainLength := chainLength
        target := target >>> (chainLength / 5)
        timestamp := now
        rewardAddr := rewardAddr
        coinbaseReward := coinbaseReward
        proof := none }

/-- The callback of `tx.outputs.forEach` in `addTransaction`, with the sum of JS
numbers. -/
def creditOutputNum (balances : List (String × Int)) (o : Output) : List (String × Int) :=
  mapSet balances o.address (jsAdd o.amount ((mapGet balances o.address).getD 0))

/-- `Block.addTransaction` with the arithmetic of JS numbers: the answer and the block
afterwards. -/
def addTransactionNum (hash : String → String) (sufficientFunds : Transaction → Block → Bool)
    (b : Block) (tx : Transaction) : Option (Bool × Block) :=
  if has hash b.txMerkleTree tx then some (false, b)
  else if tx.sig = none then some (false, b)
  else if ¬ tx.validSignature then some (false, b)
  else if ¬ sufficientFunds tx b then some (false, b)
  else if isFull b.txMerkleTree then some (false, b)
  else
    let nonce := (mapGet b.nextNonce tx.from_).getD 0
    if tx.nonce < nonce then some (false, b)
    else if tx.nonce > nonce then some (false, b)
    else
      let b1 := { b with nextNonce := mapSet b.nextNonce tx.from_ (jsAdd nonce 1) }
      match addTx hash b1.txMerkleTree tx with
      | none => none
      | some tree =>
        let b2 := { b1 with txMerkleTree := tree }
        let b3 := { b2 with
          balances := mapSet b2.balances tx.from_ (jsSub (balanceOf b2 tx.from_) tx.totalOutput) }
        some (true, { b3 with balances := tx.outputs.foldl creditOutputNum b3.balances })

/-- A block in which `A` and `B` own `2 ^ 53` each and no nonce has been used. -/
def roundingBlock : Block :=
  { sampleBlock with
    balances := [("A", 9007199254740992), ("B", 9007199254740992)], nextNonce := [] }

/-- A block whose reward address `M` owns `2 ^ 53`, with the coinbase reward 1 and
no transactions. -/
def roundingWinner : Block :=
  { sampleBlock with balances := [("M", 9007199254740992)], coinbaseReward := 1 }
/-! ## Arrays and maps -/

theorem arrSet_length {α : Type} (a : List (Option α)) (i : Nat) (v : α) :
    (arrSet a i v).length = max a.length (i + 1) := by
  unfold arrSet
  split
  · simp; omega
  · simp; omega

theorem arrGet_arrSet_same {α : Type} (a : List (Option α)) (i : Nat) (v : α) :
    arrGet (arrSet a i v) i = some v := by
  unfold arrGet arrSet
  split
  · rename_i h
    simp [List.getElem?_set, h]
  · rename_i h
    have h1 : a.length ≤ i := by omega
    rw [List.append_assoc, List.getElem?_append_right h1]
    simp

theorem arrGet_arrSet_ne {α : Type} (a : List (Option α)) (i j : Nat) (v : α) (hne : j ≠ i) :
    arrGet (arrSet a i v) j = arrGet a j := by
  unfold arrGet arrSet
  split
  · rename_i h
    rw [List.getElem?_set_ne (Ne.symm hne)]
  · rename_i h
    have h1 : a.length ≤ i := by omega
    by_cases hj : j < a.length
    · rw [List.append_assoc, List.getElem?_append_left hj]
    · have hj1 : a.length ≤ j := by omega
      rw [List.append_assoc, List.getElem?_append_right hj1, List.getElem?_eq_none hj1]
      by_cases hj2 : j - a.length < i - a.length
      · rw [List.getElem?_append_left (by simpa using hj2)]
        simp [List.getElem?_replicate, hj2]
      · rw [List.getElem?_append_right (by simpa using hj2)]
        rw [List.getElem?_eq_none]
        simp; omega

theorem mapGet_mapSet_same {β : Type} (m : List (String × β)) (k : String) (v : β) :
    mapGet (mapSet m k v) k = some v := by
  induction m with
  | nil => simp [mapSet, mapGet]
  | cons e rest ih =>
    obtain ⟨k', v'⟩ := e
    by_cases h : k' = k
    · simp [mapSet, mapGet, h]
    · simp [mapSet, mapGet, h, ih]

theorem mapGet_mapSet_ne {β : Type} (m : List (String × β)) (k k2 : String) (v : β) (hne : k2 ≠ k) :
    mapGet (mapSet m k v) k2 = mapGet m k2 := by
  induction m with
  | nil => simp [mapSet, mapGet, Ne.symm hne]
  | cons e rest ih =>
    obtain ⟨k', v'⟩ := e
    by_cases h : k' = k
    · subst h
      simp [mapSet, mapGet, Ne.symm hne]
    · by_cases h2 : k' = k2
      · subst h2
        simp [mapSet, mapGet, h]
      · simp [mapSet, mapGet, h, h2, ih]


/-! ## The size of the array -/

theorem calculateSizeLoop_pow (k : Nat) : ∀ (fuel j : Nat), j ≤ k → k ≤ j + fuel →
    calculateSizeLoop fuel (2 ^ j) (2 ^ k) = 2 ^ k := by
  intro fuel
  induction fuel with
  | zero =>
    intro j h1 h2
    have : j = k := by omega
    subst this
    rfl
  | succ f ih =>
    intro j h1 h2
    unfold calculateSizeLoop
    by_cases hjk : j = k
    · subst hjk
      simp
    · have hlt : j < k := by omega
      have : 2 ^ j < 2 ^ k := Nat.pow_lt_pow_right (by norm_num) hlt
      simp only [this, if_true]
      have e : 2 ^ j * 2 = 2 ^ (j + 1) := by rw [pow_succ]
      rw [e]
      exact ih (j + 1) (by omega) (by omega)

theorem calculateSize_pow (k : Nat) : calculateSize (2 ^ k) = 2 * 2 ^ k - 1 := by
  unfold calculateSize
  have h := calculateSizeLoop_pow k (2 ^ k) 0 (Nat.zero_le _)
    (by have := @Nat.lt_two_pow k; omega)
  simp only [pow_zero] at h
  rw [h]
  omega

/-- The loop of `calculateSize` leaves a number no smaller than `numElems` whenever
its fuel is at least `numElems`: the fuel is never what ends it. -/
theorem calculateSizeLoop_ge : ∀ (fuel n numElems : Nat), 0 < n → numElems ≤ n + fuel →
    numElems ≤ calculateSizeLoop fuel n numElems := by
  intro fuel
  induction fuel with
  | zero => intro n numElems _ h; simpa [calculateSizeLoop] using h
  | succ f ih =>
    intro n numElems hn h
    unfold calculateSizeLoop
    split
    · exact ih (n * 2) numElems (by omega) (by omega)
    · omega

/-! ## The right spine of the packed tree -/

theorem spine_succ_child (j p : Nat) : spine (j + 1) p = spine j (2 * p + 2) := by
  induction j with
  | zero => rfl
  | succ j ih =>
    show 2 * spine (j + 1) p + 2 = 2 * spine j (2 * p + 2) + 2
    rw [ih]

theorem spine_mono_right (j : Nat) {p q : Nat} (h : p ≤ q) : spine j p ≤ spine j q := by
  induction j with
  | zero => exact h
  | succ j ih => simp only [spine]; omega

theorem spine_lt_right (j : Nat) {p q : Nat} (h : p < q) : spine j p < spine j q := by
  induction j with
  | zero => exact h
  | succ j ih => simp only [spine]; omega

theorem spine_le_succ (j p : Nat) : spine j p ≤ spine (j + 1) p := by
  simp only [spine]; omega

theorem spine_mono_left {j j2 : Nat} (p : Nat) (h : j ≤ j2) : spine j p ≤ spine j2 p := by
  induction h with
  | refl => exact Nat.le_refl _
  | step _ ih => exact Nat.le_trans ih (spine_le_succ _ p)

theorem spine_pos_gt (j p : Nat) (hj : 1 ≤ j) : 2 * p + 2 ≤ spine j p := by
  have h := spine_mono_left p hj
  simp only [spine] at h
  exact h

theorem spine_even (j p : Nat) (hj : 1 ≤ j) : spine j p % 2 = 0 := by
  cases j with
  | zero => omega
  | succ j => simp only [spine]; omega

/-- In a tree whose leaves all lie on one level, when the right spine of `p` has
reached the level of the leaves after `j` steps, the right spine of the left child of
`p` is below that level after `j` steps. -/
theorem spine_left_child_beyond (j : Nat) : ∀ (k p : Nat), 2 ^ k ≤ spine j p + 1 →
    2 ^ (k + 1) ≤ spine j (2 * p + 1) + 1 := by
  induction j with
  | zero =>
    intro k p h
    simp only [spine] at *
    rw [pow_succ]; omega
  | succ j ih =>
    intro k p h
    cases k with
    | zero => simp only [spine]; norm_num
    | succ k =>
      simp only [spine] at *
      have h2 : 2 ^ k ≤ spine j p + 1 := by
        rw [pow_succ] at h; omega
      have := ih k p h2
      rw [pow_succ] at this ⊢
      omega

/-- Every index of the array has a leaf on its right spine. -/
theorem spine_reaches_leaf (n : Nat) (_hn : 1 ≤ n) : ∀ (d p : Nat), 2 * n ≤ p + d + 2 → p + 2 ≤ 2 * n →
    ∃ j, n ≤ spine j p + 1 ∧ spine j p + 2 ≤ 2 * n := by
  intro d
  induction d with
  | zero =>
    intro p h1 h2
    exact ⟨0, by simp only [spine]; omega, by simp only [spine]; omega⟩
  | succ d ih =>
    intro p h1 h2
    by_cases hp : n ≤ p + 1
    · exact ⟨0, by simp only [spine]; omega, by simp only [spine]; omega⟩
    · obtain ⟨j, hj1, hj2⟩ := ih (2 * p + 2) (by omega) (by omega)
      exact ⟨j + 1, by rw [spine_succ_child]; exact hj1, by rw [spine_succ_child]; exact hj2⟩

/-! ## `hashToRoot` -/

theorem hashToRootAux_spec (hash : String → String) : ∀ (fuel i : Nat) (h : List (Option String)),
    i ≤ fuel → i % 2 = 0 → 2 ≤ i → i < h.length →
    (hashToRootAux hash fuel h i).length = h.length ∧
    (∀ q, (∀ j, 1 ≤ j → spine j q ≠ i) → arrGet (hashToRootAux hash fuel h i) q = arrGet h q) ∧
    (∀ q j, 1 ≤ j → spine j q = i → NodeOk hash (hashToRootAux hash fuel h i) q) := by
  intro fuel
  induction fuel with
  | zero => intro i h h1 _ h3; omega
  | succ f ih =>
    intro i h hfuel heven h2 hlen
    have hi0 : i ≠ 0 := by omega
    have hodd : ¬ i % 2 = 1 := by omega
    obtain ⟨par, hpar⟩ : ∃ par, par = (i - 2) / 2 := ⟨_, rfl⟩
    have hi : i = 2 * par + 2 := by omega
    obtain ⟨h1, hh1⟩ : ∃ h1, h1 = arrSet h par
        (hash (jsStr (arrGet h (i - 1)) ++ "," ++ jsStr (arrGet h i))) := ⟨_, rfl⟩
    have hlen1 : h1.length = h.length := by
      rw [hh1, arrSet_length]; omega
    have hpar_ok : NodeOk hash h1 par := by
      unfold NodeOk
      rw [hh1, arrGet_arrSet_same, arrGet_arrSet_ne _ _ _ _ (by omega),
        arrGet_arrSet_ne _ _ _ _ (by omega)]
      have e1 : i - 1 = 2 * par + 1 := by omega
      rw [e1, hi]
    -- the nodes whose right spine passes through `i` in one step: only `par`
    have hone : ∀ q, spine 1 q = i → q = par := by
      intro q hq; simp only [spine] at hq; omega
    have hmore : ∀ q j, 2 ≤ j → spine j q = i → spine (j - 1) q = par := by
      intro q j hj hq
      obtain ⟨j', rfl⟩ : ∃ j', j = j' + 1 := ⟨j - 1, by omega⟩
      simp only [spine] at hq
      simp only [Nat.add_sub_cancel]
      omega
    have hunfold : hashToRootAux hash (f + 1) h i =
        if par % 2 = 0 then hashToRootAux hash f h1 par else h1 := by
      rw [hashToRootAux]
      simp only [hi0, hodd, if_false]
      rw [← hpar, ← hh1]
    rw [hunfold]
    by_cases hpe : par % 2 = 0
    · simp only [hpe, if_true]
      by_cases hp0 : par = 0
      · -- the root has been written; the call on index 0 returns at once
        have hret : hashToRootAux hash f h1 par = h1 := by
          subst hp0
          cases f <;> simp [hashToRootAux]
        rw [hret]
        refine ⟨hlen1, ?_, ?_⟩
        · intro q hq
          have : q ≠ par := by
            intro e; apply hq 1 (le_refl _); simp only [spine]; omega
          rw [hh1, arrGet_arrSet_ne _ _ _ _ this]
        · intro q j hj hq
          by_cases hj1 : j = 1
          · subst hj1
            rw [hone q hq]; exact hpar_ok
          · have h3 := hmore q j (by omega) hq
            have h4 := spine_pos_gt (j - 1) q (by omega)
            omega
      · obtain ⟨ih1, ih2, ih3⟩ := ih par h1 (by omega) hpe (by omega) (by omega)
        refine ⟨by rw [ih1, hlen1], ?_, ?_⟩
        · intro q hq
          have hne : q ≠ par := by
            intro e; apply hq 1 (le_refl _); simp only [spine]; omega
          rw [ih2 q ?_, hh1, arrGet_arrSet_ne _ _ _ _ hne]
          intro j hj hsp
          apply hq (j + 1) (by omega)
          simp only [spine]; omega
        · intro q j hj hq
          by_cases hj1 : j = 1
          · subst hj1
            have hqp := hone q hq
            subst hqp
            unfold NodeOk
            have a0 : ∀ x, q ≤ x → ∀ j, 1 ≤ j → spine j x ≠ q := by
              intro x hx j hj
              have := spine_pos_gt j x hj
              omega
            rw [ih2 q (a0 q (le_refl _)), ih2 (2 * q + 1) (a0 _ (by omega)),
              ih2 (2 * q + 2) (a0 _ (by omega))]
            exact hpar_ok
          · exact ih3 q (j - 1) (by omega) (hmore q j (by omega) hq)
    · simp only [hpe, if_false]
      refine ⟨hlen1, ?_, ?_⟩
      · intro q hq
        have : q ≠ par := by
          intro e; apply hq 1 (le_refl _); simp only [spine]; omega
        rw [hh1, arrGet_arrSet_ne _ _ _ _ this]
      · intro q j hj hq
        by_cases hj1 : j = 1
        · subst hj1
          rw [hone q hq]; exact hpar_ok
        · have h3 := hmore q j (by omega) hq
          by_cases hj2 : j = 2
          · subst hj2
            simp only [spine] at h3
            omega
          · have h4 := spine_even (j - 1) q (by omega)
            omega

theorem hashToRoot_spec (hash : String → String) (i : Nat) (h : List (Option String))
    (heven : i % 2 = 0) (h2 : 2 ≤ i) (hlen : i < h.length) :
    (hashToRoot hash h i).length = h.length ∧
    (∀ q, (∀ j, 1 ≤ j → spine j q ≠ i) → arrGet (hashToRoot hash h i) q = arrGet h q) ∧
    (∀ q j, 1 ≤ j → spine j q = i → NodeOk hash (hashToRoot hash h i) q) :=
  hashToRootAux_spec hash i i h (le_refl _) heven h2 hlen

/-- More fuel than `i` does not change what `hashToRoot` computes. -/
theorem hashToRootAux_fuel (hash : String → String) : ∀ (fuel i : Nat) (h : List (Option String)),
    i ≤ fuel → hashToRootAux hash fuel h i = hashToRootAux hash i h i := by
  intro fuel
  induction fuel using Nat.strong_induction_on with
  | _ fuel ih =>
    intro i h hle
    cases fuel with
    | zero =>
      have : i = 0 := by omega
      subst this; rfl
    | succ f =>
      cases i with
      | zero => simp [hashToRootAux]
      | succ i =>
        rw [hashToRootAux, hashToRootAux]
        simp only [Nat.succ_ne_zero, if_false]
        by_cases hodd : (i + 1) % 2 = 1
        · simp [hodd]
        · simp only [hodd, if_false]
          by_cases hpe : (i + 1 - 2) / 2 % 2 = 0
          · simp only [hpe, if_true]
            rw [ih f (by omega) _ _ (by omega), ih i (by omega) _ _ (by omega)]
          · simp only [hpe, if_false]

/-! ## `build` -/

theorem buildLeaves_spec (hash : String → String) (txs : List (Option Transaction)) (first : Nat) :
    ∀ (is : List Nat) (h : List (Option String)) (l : List (String × Nat)),
    (∀ i ∈ is, i - first < txs.length) →
    ∃ hs lk, buildLeaves hash txs first is (h, l) = some (hs, lk) ∧
      (∀ j, j ∉ is → arrGet hs j = arrGet h j) ∧
      (∀ j ∈ is, ∃ v, txs[j - first]? = some v ∧ arrGet hs j = some (leafHash hash v)) ∧
      h.length ≤ hs.length ∧ (∀ i ∈ is, i < hs.length) ∧
      (∀ m, h.length ≤ m → (∀ i ∈ is, i < m) → hs.length ≤ m) ∧
      (∀ key, (∀ j ∈ is, ∀ v, txs[j - first]? = some v → leafHash hash v ≠ key) →
        mapGet lk key = mapGet l key) ∧
      (∀ j ∈ is, ∀ v, txs[j - first]? = some v →
        ∃ j2 ∈ is, ∃ v2, txs[j2 - first]? = some v2 ∧ leafHash hash v2 = leafHash hash v ∧
          mapGet lk (leafHash hash v) = some j2) := by
  intro is
  induction is with
  | nil =>
    intro h l _
    exact ⟨h, l, rfl, fun _ _ => rfl, by simp, le_refl _, by simp, fun m hm _ => hm,
      fun _ _ => rfl, by simp⟩
  | cons i rest ih =>
    intro h l hin
    have hi : i - first < txs.length := hin i (List.mem_cons_self _ _)
    obtain ⟨v, hv⟩ : ∃ v, txs[i - first]? = some v := ⟨txs[i - first], List.getElem?_eq_getElem hi⟩
    obtain ⟨hs, lk, e, c1, c2, c3, c4, c5, c6, c7⟩ :=
      ih (arrSet h i (leafHash hash v)) (mapSet l (leafHash hash v) i)
        (fun x hx => hin x (List.mem_cons_of_mem _ hx))
    refine ⟨hs, lk, ?_, ?_, ?_, ?_, ?_, ?_, ?_, ?_⟩
    · simp only [buildLeaves, hv]; exact e
    · intro j hj
      simp only [List.mem_cons, not_or] at hj
      rw [c1 j hj.2, arrGet_arrSet_ne _ _ _ _ hj.1]
    · intro j hj
      by_cases hjr : j ∈ rest
      · exact c2 j hjr
      · have hji : j = i := by
          simp only [List.mem_cons] at hj; tauto
        subst hji
        exact ⟨v, hv, by rw [c1 j hjr, arrGet_arrSet_same]⟩
    · have := arrSet_length h i (leafHash hash v)
      omega
    · intro x hx
      simp only [List.mem_cons] at hx
      rcases hx with rfl | hx
      · have := arrSet_length h x (leafHash hash v)
        omega
      · exact c4 x hx
    · intro m hm hall
      apply c5 m
      · have := arrSet_length h i (leafHash hash v)
        have := hall i (List.mem_cons_self _ _)
        omega
      · intro x hx; exact hall x (List.mem_cons_of_mem _ hx)
    · intro key hkey
      rw [c6 key (fun j hj v hv => hkey j (List.mem_cons_of_mem _ hj) v hv)]
      exact mapGet_mapSet_ne _ _ _ _ (fun e => hkey i (List.mem_cons_self _ _) v hv e.symm)
    · intro j hj w hw
      by_cases hex : ∃ j2 ∈ rest, ∃ v2, txs[j2 - first]? = some v2 ∧ leafHash hash v2 = leafHash hash w
      · obtain ⟨j2, hj2, v2, hv2, e2⟩ := hex
        obtain ⟨j3, hj3, v3, hv3, e3, g3⟩ := c7 j2 hj2 v2 hv2
        exact ⟨j3, List.mem_cons_of_mem _ hj3, v3, hv3, by rw [e3, e2], by rw [← e2]; exact g3⟩
      · have hnot : ∀ j2 ∈ rest, ∀ v2, txs[j2 - first]? = some v2 →
            leafHash hash v2 ≠ leafHash hash w := by
          intro j2 hj2 v2 hv2 e2
          exact hex ⟨j2, hj2, v2, hv2, e2⟩
        have hji : j = i := by
          simp only [List.mem_cons] at hj
          rcases hj with rfl | hj
          · rfl
          · exact absurd rfl (hnot j hj w hw)
        subst hji
        have hvw : v = w := by rw [hv] at hw; exact Option.some.inj hw
        subst hvw
        refine ⟨j, List.mem_cons_self _ _, v, hv, rfl, ?_⟩
        rw [c6 _ hnot, mapGet_mapSet_same]

/-- The second loop of `build` on an array of `2n - 1` entries, `n = 2 ^ k`: the
leaves stay, and every inner node whose last leaf has been passed holds the hash of
its children. -/
theorem buildInner_spec (hash : String → String) (k : Nat) (h0 : List (Option String)) :
    ∀ (fuel i : Nat) (h : List (Option String)),
    i % 2 = 0 → 2 ^ k ≤ i → 2 ≤ i → i ≤ 2 * 2 ^ k → 2 * 2 ^ k ≤ i + 2 * fuel →
    h.length = 2 * 2 ^ k - 1 →
    (∀ q, 2 ^ k ≤ q + 1 → arrGet h q = arrGet h0 q) →
    (∀ p j, p + 2 ≤ 2 ^ k → 2 ^ k ≤ spine j p + 1 → spine j p < i → NodeOk hash h p) →
    (buildInner hash fuel i h).length = 2 * 2 ^ k - 1 ∧
    (∀ q, 2 ^ k ≤ q + 1 → arrGet (buildInner hash fuel i h) q = arrGet h0 q) ∧
    (∀ p, p + 2 ≤ 2 ^ k → NodeOk hash (buildInner hash fuel i h) p) := by
  intro fuel
  induction fuel with
  | zero =>
    intro i h _ _ _ hi2 hi3 hlen hleaf hnode
    have hi : i = 2 * 2 ^ k := by omega
    refine ⟨hlen, hleaf, ?_⟩
    intro p hp
    obtain ⟨j, hj1, hj2⟩ := spine_reaches_leaf (2 ^ k) Nat.one_le_two_pow (2 * 2 ^ k) p
      (by omega) (by omega)
    exact hnode p j hp hj1 (by omega)
  | succ f ih =>
    intro i h heven hi1 hi0 hi2 hi3 hlen hleaf hnode
    rw [buildInner]
    by_cases hlt : i < h.length
    · simp only [hlt, if_true]
      obtain ⟨s1, s2, s3⟩ := hashToRoot_spec hash i h heven hi0 hlt
      apply ih (i + 2) (hashToRoot hash h i) (by omega) (by omega) (by omega) (by omega)
        (by omega) (by rw [s1, hlen])
      · intro q hq
        rw [s2 q ?_, hleaf q hq]
        intro j hj
        have := spine_pos_gt j q hj
        omega
      · intro p j hp hj1 hj2
        have hj : 1 ≤ j := by
          rcases Nat.eq_zero_or_pos j with rfl | hpos
          · simp only [spine] at hj1; omega
          · exact hpos
        have hev := spine_even j p hj
        by_cases heq : spine j p = i
        · exact s3 p j hj heq
        · have hlt2 : spine j p < i := by omega
          have hok := hnode p j hp hj1 hlt2
          have a1 : ∀ j2, 1 ≤ j2 → spine j2 p ≠ i := by
            intro j2 _ e
            by_cases hjj : j2 ≤ j
            · have := spine_mono_left p hjj
              omega
            · have h1 : spine (j + 1) p ≤ spine j2 p := spine_mono_left p (by omega)
              simp only [spine] at h1
              omega
          have a2 : ∀ j2, 1 ≤ j2 → spine j2 (2 * p + 2) ≠ i := by
            intro j2 hj2' e
            rw [← spine_succ_child] at e
            exact a1 (j2 + 1) (by omega) e
          have a3 : ∀ j2, 1 ≤ j2 → spine j2 (2 * p + 1) ≠ i := by
            intro j2 _ e
            by_cases hjj : j2 + 1 ≤ j
            · have h1 : spine j2 (2 * p + 1) < spine j2 (2 * p + 2) :=
                spine_lt_right j2 (by omega)
              rw [← spine_succ_child] at h1
              have h2 := spine_mono_left p hjj
              omega
            · have h1 : spine j (2 * p + 1) ≤ spine j2 (2 * p + 1) :=
                spine_mono_left _ (by omega)
              have h2 := spine_left_child_beyond j k p hj1
              rw [pow_succ] at h2
              omega
          unfold NodeOk
          rw [s2 p a1, s2 _ a2, s2 _ a3]
          exact hok
    · simp only [hlt, if_false]
      have hi : i = 2 * 2 ^ k := by omega
      refine ⟨hlen, hleaf, ?_⟩
      intro p hp
      obtain ⟨j, hj1, hj2⟩ := spine_reaches_leaf (2 ^ k) Nat.one_le_two_pow (2 * 2 ^ k) p
        (by omega) (by omega)
      exact hnode p j hp hj1 (by omega)

/-- What `build` does on a tree of capacity `2 ^ k` whose slots all exist: it does not
throw, keeps the slots, and leaves the Merkle tree of the slots in `hashes` and the
index of a leaf with that hash under every leaf hash in `lookup`. -/
theorem build_spec (hash : String → String) (t : FixedMerkleTree) (k : Nat)
    (hmax : t.maxTransactions = 2 ^ k) (hlen : t.transactions.length = 2 ^ k)
    (hh : t.hashes.length ≤ 2 * 2 ^ k - 1) :
    ∃ hs lk, build hash t = some { t with hashes := hs, lookup := lk } ∧
      hs.length = 2 * 2 ^ k - 1 ∧
      (∀ s, s < 2 ^ k → ∃ v, t.transactions[s]? = some v ∧
        arrGet hs (2 ^ k - 1 + s) = some (leafHash hash v)) ∧
      (∀ p, p + 2 ≤ 2 ^ k → NodeOk hash hs p) ∧
      (∀ key, (∀ v ∈ t.transactions, leafHash hash v ≠ key) → mapGet lk key = mapGet t.lookup key) ∧
      (∀ v ∈ t.transactions, ∃ s, s < 2 ^ k ∧ ∃ v2, t.transactions[s]? = some v2 ∧
        leafHash hash v2 = leafHash hash v ∧ mapGet lk (leafHash hash v) = some (2 ^ k - 1 + s)) := by
  have hn : 1 ≤ 2 ^ k := Nat.one_le_two_pow
  have hsize : calculateSize t.maxTransactions = 2 * 2 ^ k - 1 := by rw [hmax, calculateSize_pow]
  have hfirst : (2 * 2 ^ k - 1) / 2 = 2 ^ k - 1 := by omega
  have hcnt : 2 * 2 ^ k - 1 - (2 ^ k - 1) = 2 ^ k := by omega
  have hmem : ∀ i, i ∈ List.range' (2 ^ k - 1) (2 ^ k) ↔ 2 ^ k - 1 ≤ i ∧ i < 2 * 2 ^ k - 1 := by
    intro i; rw [List.mem_range'_1]; omega
  obtain ⟨hs, lk, e, c1, c2, c3, c4, c5, c6, c7⟩ :=
    buildLeaves_spec hash t.transactions (2 ^ k - 1) (List.range' (2 ^ k - 1) (2 ^ k))
      t.hashes t.lookup (by intro i hi; rw [hmem] at hi; omega)
  have hslen : hs.length = 2 * 2 ^ k - 1 := by
    apply Nat.le_antisymm
    · apply c5 _ hh
      intro i hi; rw [hmem] at hi; omega
    · have := c4 (2 * 2 ^ k - 2) (by rw [hmem]; omega)
      omega
  have hleaf : ∀ s, s < 2 ^ k → ∃ v, t.transactions[s]? = some v ∧
      arrGet hs (2 ^ k - 1 + s) = some (leafHash hash v) := by
    intro s hs'
    obtain ⟨v, hv1, hv2⟩ := c2 (2 ^ k - 1 + s) (by rw [hmem]; omega)
    have e1 : 2 ^ k - 1 + s - (2 ^ k - 1) = s := by omega
    rw [e1] at hv1
    exact ⟨v, hv1, hv2⟩
  obtain ⟨hs2, hhs2⟩ : ∃ hs2, hs2 = buildInner hash hs.length (2 ^ k - 1 + 1) hs := ⟨_, rfl⟩
  have hbuild : build hash t = some { t with hashes := hs2, lookup := lk } := by
    unfold build
    simp only [hsize, hfirst, hcnt, e, hhs2]
  have hinner : hs2.length = 2 * 2 ^ k - 1 ∧
      (∀ q, 2 ^ k ≤ q + 1 → arrGet hs2 q = arrGet hs q) ∧
      (∀ p, p + 2 ≤ 2 ^ k → NodeOk hash hs2 p) := by
    rw [hhs2]
    cases k with
    | zero =>
      have h1 : hs.length = 1 := by simpa using hslen
      rw [h1]
      have e0 : buildInner hash 1 (2 ^ 0 - 1 + 1) hs = hs := by
        unfold buildInner
        simp [h1]
      rw [e0]
      exact ⟨hslen, fun _ _ => rfl, fun p hp => by simp at hp⟩
    | succ k =>
      have hev : 2 ^ (k + 1) % 2 = 0 := by rw [pow_succ]; omega
      have h2 : 2 ≤ 2 ^ (k + 1) := by
        rw [pow_succ]; have : 1 ≤ 2 ^ k := Nat.one_le_two_pow; omega
      have e1 : 2 ^ (k + 1) - 1 + 1 = 2 ^ (k + 1) := by omega
      rw [e1]
      apply buildInner_spec hash (k + 1) hs hs.length (2 ^ (k + 1)) hs hev (le_refl _) h2
        (by omega) (by omega) hslen (fun _ _ => rfl)
      intro p j hp hj1 hj2
      exfalso
      have hj : 1 ≤ j := by
        rcases Nat.eq_zero_or_pos j with rfl | hpos
        · simp only [spine] at hj1; omega
        · exact hpos
      have := spine_even j p hj
      omega
  refine ⟨hs2, lk, hbuild, hinner.1, ?_, hinner.2.2, ?_, ?_⟩
  · intro s hs'
    obtain ⟨v, hv1, hv2⟩ := hleaf s hs'
    exact ⟨v, hv1, by rw [hinner.2.1 _ (by omega)]; exact hv2⟩
  · intro key hkey
    apply c6
    intro j _ v hv
    exact hkey v (List.getElem?_mem hv)
  · intro v hv
    obtain ⟨s, hs', hsv⟩ := List.getElem_of_mem hv
    have hs'' : s < 2 ^ k := by omega
    have hv' : t.transactions[2 ^ k - 1 + s - (2 ^ k - 1)]? = some v := by
      have e1 : 2 ^ k - 1 + s - (2 ^ k - 1) = s := by omega
      rw [e1, List.getElem?_eq_getElem hs', hsv]
    obtain ⟨j2, hj2, v2, hv2, e2, g2⟩ := c7 (2 ^ k - 1 + s) (by rw [hmem]; omega) v hv'
    rw [hmem] at hj2
    refine ⟨j2 - (2 ^ k - 1), by omega, v2, hv2, e2, ?_⟩
    rw [g2]
    congr 1
    omega

/-! ## The constructor and `addTx` -/

theorem fillFirstEmpty_length (tx : Transaction) : ∀ (n : Nat) (l : List (Option Transaction)),
    (fillFirstEmpty tx n l).length = l.length := by
  intro n
  induction n with
  | zero => intro l; rfl
  | succ n ih =>
    intro l
    match l with
    | [] => rfl
    | none :: rest => rfl
    | some t :: rest => simp [fillFirstEmpty, ih]

theorem new_inv (hash : String → String) (k : Nat) :
    ∃ t, FixedMerkleTree.new hash (2 ^ k) = some t ∧ TreeInv hash k t ∧
      t.transactions = List.replicate (2 ^ k) none := by
  obtain ⟨hs, lk, e, c1, c2, c3, _, _⟩ := build_spec hash
    { maxTransactions := 2 ^ k, transactions := List.replicate (2 ^ k) none, hashes := [],
      lookup := [] } k rfl (by simp) (by simp)
  exact ⟨_, e, ⟨rfl, by simp, c1, c2, c3⟩, rfl⟩

theorem addTx_inv (hash : String → String) (k : Nat) (t : FixedMerkleTree) (tx : Transaction)
    (h : TreeInv hash k t) : ∃ t1, addTx hash t tx = some t1 ∧ TreeInv hash k t1 := by
  obtain ⟨h1, h2, h3, h4, h5⟩ := h
  unfold addTx
  by_cases hf : isFull t = true
  · simp only [hf, if_true]
    exact ⟨t, rfl, h1, h2, h3, h4, h5⟩
  · simp only [hf]
    obtain ⟨hs, lk, e, c1, c2, c3, _, _⟩ := build_spec hash
      { t with transactions := fillFirstEmpty tx t.maxTransactions t.transactions } k h1
      (by simp [fillFirstEmpty_length, h2]) (by simp [h3])
    exact ⟨_, e, ⟨h1, by simp [fillFirstEmpty_length, h2], c1, c2, c3⟩⟩

theorem addTxs_inv (hash : String → String) (k : Nat) : ∀ (txs : List Transaction)
    (t : FixedMerkleTree), TreeInv hash k t →
    ∃ t1, addTxs hash t txs = some t1 ∧ TreeInv hash k t1 := by
  intro txs
  induction txs with
  | nil => intro t h; exact ⟨t, rfl, h⟩
  | cons tx rest ih =>
    intro t h
    obtain ⟨t1, e1, h1⟩ := addTx_inv hash k t tx h
    obtain ⟨t2, e2, h2⟩ := ih t1 h1
    exact ⟨t2, by simp only [addTxs, e1]; exact e2, h2⟩

/-- C1. For every capacity `2 ^ k` and every run of `addTx` calls on a freshly
constructed tree, the run ends without an exception and afterwards every leaf index
`i` from `n - 1` to `2n - 2` holds the hash of the identity of the transaction in slot
`i - (n - 1)`, or the hash of the filler `" "` when the slot is empty, and every inner
index `p` from `0` to `n - 2` holds the hash of `hashes[2p+1] + "," + hashes[2p+2]`.
The run is arbitrary, so this is the state after each call. -/
theorem C1_hashes_form_merkle_tree (hash : String → String) (k : Nat) (txs : List Transaction) :
    ∃ t, (FixedMerkleTree.new hash (2 ^ k)).bind (fun t0 => addTxs hash t0 txs) = some t ∧
      (∀ i, 2 ^ k - 1 ≤ i → i ≤ 2 * 2 ^ k - 2 →
        ∃ v, t.transactions[i - (2 ^ k - 1)]? = some v ∧
          arrGet t.hashes i = some (match v with
            | some tx => hash tx.getid
            | none => hash " ")) ∧
      (∀ p, p + 2 ≤ 2 ^ k →
        arrGet t.hashes p =
          some (hash (jsStr (arrGet t.hashes (2 * p + 1)) ++ "," ++
            jsStr (arrGet t.hashes (2 * p + 2))))) := by
  obtain ⟨t0, e0, h0, _⟩ := new_inv hash k
  obtain ⟨t, e, _, _, _, h4, h5⟩ := addTxs_inv hash k txs t0 h0
  refine ⟨t, by rw [e0]; exact e, ?_, h5⟩
  intro i hi1 hi2
  have hn : 1 ≤ 2 ^ k := Nat.one_le_two_pow
  obtain ⟨v, hv1, hv2⟩ := h4 (i - (2 ^ k - 1)) (by omega)
  have e1 : 2 ^ k - 1 + (i - (2 ^ k - 1)) = i := by omega
  rw [e1] at hv2
  refine ⟨v, hv1, ?_⟩
  rw [hv2]
  cases v <;> rfl

theorem build_fields (hash : String → String) (t t1 : FixedMerkleTree) (h : build hash t = some t1) :
    t1.maxTransactions = t.maxTransactions ∧ t1.transactions = t.transactions := by
  unfold build at h
  dsimp only at h
  split at h
  · exact absurd h (by simp)
  · simp only [Option.some.injEq] at h
    subst h
    exact ⟨rfl, rfl⟩

/-- On a tree whose slots are as the constructor makes them, `build` does not throw;
it keeps the keys of `lookup` and gives a key to every leaf hash. -/
theorem build_some (hash : String → String) (t : FixedMerkleTree) (hs : SlotsOk t) :
    ∃ t1, build hash t = some t1 ∧
      (∀ key, (∀ v ∈ t.transactions, leafHash hash v ≠ key) →
        mapGet t1.lookup key = mapGet t.lookup key) ∧
      (∀ v ∈ t.transactions, (mapGet t1.lookup (leafHash hash v)).isSome = true) := by
  obtain ⟨hlen, k, hmax⟩ := hs
  have hn : 1 ≤ 2 ^ k := Nat.one_le_two_pow
  have hsize : calculateSize t.maxTransactions = 2 * 2 ^ k - 1 := by rw [hmax, calculateSize_pow]
  have hfirst : (2 * 2 ^ k - 1) / 2 = 2 ^ k - 1 := by omega
  have hcnt : 2 * 2 ^ k - 1 - (2 ^ k - 1) = 2 ^ k := by omega
  have hmem : ∀ i, i ∈ List.range' (2 ^ k - 1) (2 ^ k) ↔ 2 ^ k - 1 ≤ i ∧ i < 2 * 2 ^ k - 1 := by
    intro i; rw [List.mem_range'_1]; omega
  obtain ⟨hs, lk, e, _, _, _, _, _, c6, c7⟩ :=
    buildLeaves_spec hash t.transactions (2 ^ k - 1) (List.range' (2 ^ k - 1) (2 ^ k))
      t.hashes t.lookup (by intro i hi; rw [hmem] at hi; omega)
  refine ⟨{ t with hashes := buildInner hash hs.length (2 ^ k - 1 + 1) hs, lookup := lk },
    by unfold build; simp only [hsize, hfirst, hcnt, e], ?_, ?_⟩
  · intro key hkey
    apply c6
    intro j _ v hv
    exact hkey v (List.getElem?_mem hv)
  · intro v hv
    obtain ⟨s, hs', hsv⟩ := List.getElem_of_mem hv
    have hv' : t.transactions[2 ^ k - 1 + s - (2 ^ k - 1)]? = some v := by
      have e1 : 2 ^ k - 1 + s - (2 ^ k - 1) = s := by omega
      rw [e1, List.getElem?_eq_getElem hs', hsv]
    obtain ⟨j2, _, v2, _, _, g2⟩ := c7 (2 ^ k - 1 + s) (by rw [hmem]; omega) v hv'
    simp [g2]

/-- The loop of `addTx` puts `tx` into the first empty slot among the first `n`. -/
theorem fillFirstEmpty_spec (tx : Transaction) : ∀ (n : Nat) (l : List (Option Transaction)) (s0 : Nat),
    s0 < n → l[s0]? = some none →
    ∃ s, s ≤ s0 ∧ l[s]? = some none ∧ (∀ j, j < s → l[j]? ≠ some none) ∧
      fillFirstEmpty tx n l = l.set s (some tx) := by
  intro n
  induction n with
  | zero => intro l s0 h; omega
  | succ n ih =>
    intro l s0 hs0 hl
    match l with
    | [] => simp at hl
    | none :: rest =>
      exact ⟨0, Nat.zero_le _, by simp, fun j hj => by omega, rfl⟩
    | some t :: rest =>
      cases s0 with
      | zero => simp at hl
      | succ s0 =>
        obtain ⟨s, h1, h2, h3, h4⟩ := ih rest s0 (by omega) (by simpa using hl)
        refine ⟨s + 1, by omega, by simpa using h2, ?_, by simp [fillFirstEmpty, h4]⟩
        intro j hj
        cases j with
        | zero => simp
        | succ j => simpa using h3 j (by omega)

theorem isFull_false_iff (t : FixedMerkleTree) :
    isFull t = false ↔ t.maxTransactions ≠ 0 ∧ t.transactions[t.maxTransactions - 1]? = some none := by
  unfold isFull
  by_cases h0 : t.maxTransactions = 0
  · simp [h0]
  · simp only [h0, if_false]
    constructor
    · intro h
      refine ⟨h0, ?_⟩
      split at h
      · assumption
      · exact absurd h (by simp)
    · intro h
      rw [h.2]

/-- What `addTx` does on a tree that is not full and whose slots are as the
constructor makes them. -/
theorem addTx_not_full (hash : String → String) (t : FixedMerkleTree) (tx : Transaction)
    (hs : SlotsOk t) (hf : isFull t = false) :
    ∃ t1, addTx hash t tx = some t1 ∧ SlotsOk t1 := by
  unfold addTx
  simp only [hf]
  have hs1 : SlotsOk { t with transactions := fillFirstEmpty tx t.maxTransactions t.transactions } :=
    ⟨by simp [fillFirstEmpty_length, hs.1], hs.2⟩
  obtain ⟨t1, e, _, _⟩ := build_some hash _ hs1
  obtain ⟨f1, f2⟩ := build_fields hash _ _ e
  refine ⟨t1, e, ?_, ?_⟩
  · rw [f1, f2]; exact hs1.1
  · rw [f1]; exact hs1.2

/-- After `addTx` has returned on a tree that was not full, `tx` sits in the first
slot that was empty and `has(tx)` holds. -/
theorem addTx_effect (hash : String → String) (t t1 : FixedMerkleTree) (tx : Transaction)
    (hf : isFull t = false) (h : addTx hash t tx = some t1) :
    t1.maxTransactions = t.maxTransactions ∧
    ∃ s, s < t.maxTransactions ∧ t.transactions[s]? = some none ∧
      (∀ j, j < s → t.transactions[j]? ≠ some none) ∧
      t1.transactions = t.transactions.set s (some tx) := by
  unfold addTx at h
  simp only [hf] at h
  obtain ⟨f1, f2⟩ := build_fields hash _ _ h
  obtain ⟨h0, hlast⟩ := (isFull_false_iff t).1 hf
  obtain ⟨s, s1, s2, s3, s4⟩ :=
    fillFirstEmpty_spec tx t.maxTransactions t.transactions (t.maxTransactions - 1) (by omega) hlast
  exact ⟨f1, s, by omega, s2, s3, by rw [f2]; exact s4⟩

theorem calculateSizeLoop_ge_start : ∀ (fuel n numElems : Nat),
    n ≤ calculateSizeLoop fuel n numElems := by
  intro fuel
  induction fuel with
  | zero => intro n numElems; exact le_refl _
  | succ f ih =>
    intro n numElems
    unfold calculateSizeLoop
    split
    · exact le_trans (by omega) (ih (n * 2) numElems)
    · exact le_refl _

theorem buildLeaves_some_bound (hash : String → String) (txs : List (Option Transaction)) (first : Nat) :
    ∀ (is : List Nat) (s r : List (Option String) × List (String × Nat)),
    buildLeaves hash txs first is s = some r → ∀ i ∈ is, i - first < txs.length := by
  intro is
  induction is with
  | nil => intro s r _ i hi; simp at hi
  | cons a rest ih =>
    intro s r h i hi
    obtain ⟨hs, lk⟩ := s
    simp only [buildLeaves] at h
    split at h
    · exact absurd h (by simp)
    · rename_i v hv
      simp only [List.mem_cons] at hi
      rcases hi with rfl | hi
      · by_contra hcon
        rw [List.getElem?_eq_none (by omega)] at hv
        exact absurd hv (by simp)
      · exact ih _ r h i hi

/-- Whenever `build` returns, every slot below the capacity has its leaf hash as a key
of `lookup`. -/
theorem build_lookup (hash : String → String) (t t1 : FixedMerkleTree) (h : build hash t = some t1)
    (s : Nat) (hs : s < t.maxTransactions) (v : Option Transaction) (hv : t.transactions[s]? = some v) :
    (mapGet t1.lookup (leafHash hash v)).isSome = true := by
  unfold build at h
  dsimp only at h
  obtain ⟨m, hm⟩ : ∃ m, m = calculateSizeLoop t.maxTransactions 1 t.maxTransactions := ⟨_, rfl⟩
  have hm1 : 1 ≤ m := by rw [hm]; exact calculateSizeLoop_ge_start _ _ _
  have hm2 : t.maxTransactions ≤ m := by
    rw [hm]; exact calculateSizeLoop_ge _ _ _ (by norm_num) (by omega)
  have hsize : calculateSize t.maxTransactions = 2 * m - 1 := by
    unfold calculateSize; rw [← hm]; omega
  rw [hsize] at h
  have hfirst : (2 * m - 1) / 2 = m - 1 := by omega
  have hcnt : 2 * m - 1 - (m - 1) = m := by omega
  rw [hfirst, hcnt] at h
  split at h
  · exact absurd h (by simp)
  · rename_i hs' lk e
    simp only [Option.some.injEq] at h
    subst h
    have hb := buildLeaves_some_bound hash _ _ _ _ _ e
    obtain ⟨hs2, lk2, e2, _, _, _, _, _, _, c7⟩ :=
      buildLeaves_spec hash t.transactions (m - 1) (List.range' (m - 1) m) t.hashes t.lookup hb
    rw [e] at e2
    simp only [Option.some.injEq, Prod.mk.injEq] at e2
    obtain ⟨_, rfl⟩ := e2
    have hv' : t.transactions[m - 1 + s - (m - 1)]? = some v := by
      have e1 : m - 1 + s - (m - 1) = s := by omega
      rw [e1]; exact hv
    obtain ⟨j2, _, v2, _, _, g2⟩ := c7 (m - 1 + s) (by rw [List.mem_range'_1]; omega) v hv'
    simp [g2]

/-- After `addTx` has returned on a tree that was not full, `has(tx)` holds. -/
theorem addTx_has (hash : String → String) (t t1 : FixedMerkleTree) (tx : Transaction)
    (hf : isFull t = false) (h : addTx hash t tx = some t1) : has hash t1 tx = true := by
  obtain ⟨h0, hlast⟩ := (isFull_false_iff t).1 hf
  obtain ⟨s, s1, s2, _, s4⟩ :=
    fillFirstEmpty_spec tx t.maxTransactions t.transactions (t.maxTransactions - 1) (by omega) hlast
  unfold addTx at h
  simp only [hf] at h
  have hslot : (fillFirstEmpty tx t.maxTransactions t.transactions)[s]? = some (some tx) := by
    rw [s4]
    have hlt : s < t.transactions.length := by
      by_contra hcon
      rw [List.getElem?_eq_none (by omega)] at s2
      exact absurd s2 (by simp)
    rw [List.getElem?_set_self hlt]
  have := build_lookup hash _ t1 h s (by show s < t.maxTransactions; omega) (some tx) hslot
  simpa [has, leafHash] using this

/-! ## `addTransaction` -/

theorem foldl_creditOutput_get (a : String) : ∀ (outputs : List Output) (bal : List (String × Int)),
    (mapGet (outputs.foldl creditOutput bal) a).getD 0 =
      (mapGet bal a).getD 0 + ((outputs.filter (fun o => o.address = a)).map (fun o => o.amount)).sum := by
  intro outputs
  induction outputs with
  | nil => intro bal; simp
  | cons o rest ih =>
    intro bal
    simp only [List.foldl_cons]
    rw [ih]
    by_cases ha : o.address = a
    · subst ha
      simp only [creditOutput, mapGet_mapSet_same, Option.getD_some, List.filter_cons, decide_True,
        if_true, List.map_cons, List.sum_cons]
      ring
    · simp only [creditOutput, mapGet_mapSet_ne _ _ _ _ (Ne.symm ha), List.filter_cons, ha,
        decide_False]
      simp

theorem addTransaction_of_admissible (hash : String → String)
    (sufficientFunds : Transaction → Block → Bool) (b : Block) (tx : Transaction)
    (h : Admissible hash sufficientFunds b tx) :
    addTransaction hash sufficientFunds b tx =
      (addTx hash b.txMerkleTree tx).map (fun tree => (true, acceptedBlock b tx tree)) := by
  obtain ⟨h1, h2, h3, h4, h5, h6⟩ := h
  unfold addTransaction
  simp only [h1, h2, h3, h4, h5, h6, lt_irrefl, gt_iff_lt, if_false, not_true_eq_false,
    Bool.false_eq_true]
  cases addTx hash b.txMerkleTree tx with
  | none => rfl
  | some tree => rfl

theorem addTransaction_of_not_admissible (hash : String → String)
    (sufficientFunds : Transaction → Block → Bool) (b : Block) (tx : Transaction)
    (h : ¬ Admissible hash sufficientFunds b tx) :
    addTransaction hash sufficientFunds b tx = some (false, b) := by
  unfold addTransaction
  dsimp only
  split_ifs with h1 h2 h3 h4 h5 h6 h7
  all_goals first | rfl | skip
  exfalso
  apply h
  refine ⟨by simpa using h1, h2, by simpa using h3, by simpa using h4, by simpa using h5, ?_⟩
  omega

/-- C5. On a block whose tree has its slots as the constructor makes them,
`addTransaction(tx)` returns without an exception, and it returns true exactly when,
on the block before the call, the tree does not contain `tx`, `tx.sig` is defined,
`tx.validSignature()` and `tx.sufficientFunds(block)` hold, the tree is not full and
`tx.nonce` is `nextNonce[tx.from]`, taken as 0 when absent; otherwise it returns
false. -/
theorem C5_addTransaction_accepts_iff (hash : String → String)
    (sufficientFunds : Transaction → Block → Bool) (b : Block) (tx : Transaction)
    (hs : SlotsOk b.txMerkleTree) :
    ∃ r b1, addTransaction hash sufficientFunds b tx = some (r, b1) ∧
      (r = true ↔
        (has hash b.txMerkleTree tx = false ∧ tx.sig ≠ none ∧ tx.validSignature = true ∧
          sufficientFunds tx b = true ∧ isFull b.txMerkleTree = false ∧
          tx.nonce = (mapGet b.nextNonce tx.from_).getD 0)) := by
  by_cases h : Admissible hash sufficientFunds b tx
  · obtain ⟨t1, e, _⟩ := addTx_not_full hash b.txMerkleTree tx hs h.2.2.2.2.1
    refine ⟨true, acceptedBlock b tx t1, ?_, ?_⟩
    · rw [addTransaction_of_admissible hash sufficientFunds b tx h, e]; rfl
    · exact ⟨fun _ => h, fun _ => rfl⟩
  · refine ⟨false, b, addTransaction_of_not_admissible hash sufficientFunds b tx h, ?_⟩
    exact ⟨fun e => absurd e (by simp), fun e => absurd e h⟩

theorem addTransaction_false_eq (hash : String → String)
    (sufficientFunds : Transaction → Block → Bool) (b b1 : Block) (tx : Transaction)
    (h : addTransaction hash sufficientFunds b tx = some (false, b1)) :
    b1 = b ∧ ¬ Admissible hash sufficientFunds b tx := by
  by_cases ha : Admissible hash sufficientFunds b tx
  · rw [addTransaction_of_admissible hash sufficientFunds b tx ha] at h
    cases hx : addTx hash b.txMerkleTree tx with
    | none => rw [hx] at h; exact absurd h (by simp)
    | some tree => rw [hx] at h; simp at h
  · rw [addTransaction_of_not_admissible hash sufficientFunds b tx ha] at h
    simp only [Option.some.injEq, Prod.mk.injEq, true_and] at h
    exact ⟨h.symm, ha⟩

theorem addTransaction_true_eq (hash : String → String)
    (sufficientFunds : Transaction → Block → Bool) (b b1 : Block) (tx : Transaction)
    (h : addTransaction hash sufficientFunds b tx = some (true, b1)) :
    Admissible hash sufficientFunds b tx ∧
      ∃ tree, addTx hash b.txMerkleTree tx = some tree ∧ b1 = acceptedBlock b tx tree := by
  by_cases ha : Admissible hash sufficientFunds b tx
  · rw [addTransaction_of_admissible hash sufficientFunds b tx ha] at h
    cases hx : addTx hash b.txMerkleTree tx with
    | none => rw [hx] at h; exact absurd h (by simp)
    | some tree =>
      rw [hx] at h
      simp only [Option.map_some', Option.some.injEq, Prod.mk.injEq, true_and] at h
      exact ⟨ha, tree, rfl, h.symm⟩
  · rw [addTransaction_of_not_admissible hash sufficientFunds b tx ha] at h
    simp at h

/-- C6. When `addTransaction(tx)` returns false, the balances, the nonces and the
Merkle tree (slots, hashes, lookup table) are what they were before the call. -/
theorem C6_rejection_changes_nothing (hash : String → String)
    (sufficientFunds : Transaction → Block → Bool) (b b1 : Block) (tx : Transaction)
    (h : addTransaction hash sufficientFunds b tx = some (false, b1)) :
    b1.balances = b.balances ∧ b1.nextNonce = b.nextNonce ∧
      b1.txMerkleTree.transactions = b.txMerkleTree.transactions ∧
      b1.txMerkleTree.hashes = b.txMerkleTree.hashes ∧
      b1.txMerkleTree.lookup = b.txMerkleTree.lookup ∧ b1 = b := by
  obtain ⟨e, _⟩ := addTransaction_false_eq hash sufficientFunds b b1 tx h
  subst e
  exact ⟨rfl, rfl, rfl, rfl, rfl, rfl⟩

/-- C8. When `addTransaction(tx)` has returned true, the same call made again at
once returns false and leaves the block, with its balances, nonces and tree, as the
first call left it. -/
theorem C8_second_submission_rejected (hash : String → String)
    (sufficientFunds : Transaction → Block → Bool) (b b1 : Block) (tx : Transaction)
    (h : addTransaction hash sufficientFunds b tx = some (true, b1)) :
    addTransaction hash sufficientFunds b1 tx = some (false, b1) := by
  obtain ⟨ha, tree, e, hb⟩ := addTransaction_true_eq hash sufficientFunds b b1 tx h
  have hhas : has hash tree tx = true := addTx_has hash b.txMerkleTree tree tx ha.2.2.2.2.1 e
  apply addTransaction_of_not_admissible
  intro hadm
  have h1 := hadm.1
  rw [hb] at h1
  have h2 : has hash tree tx = false := h1
  rw [hhas] at h2
  exact absurd h2 (by simp)

/-! ## `rerun` -/

/-- Filling the first empty slot of slots that hold `xs` followed by fillers appends
to `xs`. -/
theorem set_first_empty (xs : List Transaction) (m s : Nat) (tx : Transaction)
    (h1 : (xs.map some ++ List.replicate m none)[s]? = some none)
    (h2 : ∀ j, j < s → (xs.map some ++ List.replicate m none)[j]? ≠ some none) :
    (xs.map some ++ List.replicate m none).set s (some tx) =
      (xs ++ [tx]).map some ++ List.replicate (m - 1) none := by
  have hs : s = xs.length := by
    rcases Nat.lt_trichotomy s xs.length with hlt | heq | hgt
    · rw [List.getElem?_append_left (by simpa using hlt)] at h1
      simp at h1
    · exact heq
    · exfalso
      have hm : 1 ≤ m := by
        by_contra hcon
        have : m = 0 := by omega
        subst this
        rw [List.getElem?_eq_none (by simp; omega)] at h1
        exact absurd h1 (by simp)
      apply h2 xs.length hgt
      rw [List.getElem?_append_right (by simp)]
      simp [List.getElem?_replicate]
      omega
  subst hs
  have hm : 1 ≤ m := by
    by_contra hcon
    have : m = 0 := by omega
    subst this
    rw [List.getElem?_eq_none (by simp)] at h1
    exact absurd h1 (by simp)
  obtain ⟨m', rfl⟩ : ∃ m', m = m' + 1 := ⟨m - 1, by omega⟩
  rw [List.set_append_right _ _ (by simp)]
  simp [List.replicate_succ]

theorem getAllTransactions_of_slots (t : FixedMerkleTree) (xs : List Transaction) (m : Nat)
    (h : t.transactions = xs.map some ++ List.replicate m none) : getAllTransactions t = xs := by
  unfold getAllTransactions
  rw [h, List.filterMap_append, List.filterMap_map]
  simp

/-- A run of `addTransaction` calls that are all accepted appends the transactions
to the slots, is what the loop of `rerun` does, and keeps the fields of the block
that are neither ledger nor tree. -/
theorem submitAll_accepted (hash : String → String) (sufficientFunds : Transaction → Block → Bool) :
    ∀ (txs : List Transaction) (b b1 : Block) (xs : List Transaction) (m : Nat),
    submitAll hash sufficientFunds b txs = some (List.replicate txs.length true, b1) →
    b.txMerkleTree.transactions = xs.map some ++ List.replicate m none →
    rerunLoop hash sufficientFunds b txs = some (true, b1) ∧
    b1.txMerkleTree.transactions = (xs ++ txs).map some ++ List.replicate (m - txs.length) none ∧
    b1.prevBlockHash = b.prevBlockHash ∧ b1.chainLength = b.chainLength ∧ b1.target = b.target ∧
    b1.timestamp = b.timestamp ∧ b1.rewardAddr = b.rewardAddr ∧
    b1.coinbaseReward = b.coinbaseReward ∧ b1.proof = b.proof := by
  intro txs
  induction txs with
  | nil =>
    intro b b1 xs m h hsl
    simp only [submitAll, List.length_nil, List.replicate_zero, Option.some.injEq, Prod.mk.injEq,
      true_and] at h
    subst h
    simp [rerunLoop, hsl]
  | cons tx rest ih =>
    intro b b1 xs m h hsl
    simp only [submitAll] at h
    cases hx : addTransaction hash sufficientFunds b tx with
    | none => rw [hx] at h; exact absurd h (by simp)
    | some p =>
      obtain ⟨r, b2⟩ := p
      rw [hx] at h
      dsimp only at h
      cases hy : submitAll hash sufficientFunds b2 rest with
      | none => rw [hy] at h; exact absurd h (by simp)
      | some q =>
        obtain ⟨rs, b3⟩ := q
        rw [hy] at h
        simp only [List.length_cons, List.replicate_succ, Option.some.injEq, Prod.mk.injEq,
          List.cons.injEq] at h
        obtain ⟨⟨hr, hrs⟩, hb3⟩ := h
        subst hr hrs hb3
        obtain ⟨ha, tree, e, hb⟩ := addTransaction_true_eq hash sufficientFunds b b2 tx hx
        obtain ⟨_, s, _, s2, s3, s4⟩ := addTx_effect hash b.txMerkleTree tree tx ha.2.2.2.2.1 e
        rw [hsl] at s2 s3 s4
        rw [set_first_empty xs m s tx s2 s3] at s4
        have hsl2 : b2.txMerkleTree.transactions =
            (xs ++ [tx]).map some ++ List.replicate (m - 1) none := by
          rw [hb]; exact s4
        obtain ⟨i1, i2, i3, i4, i5, i6, i7, i8, i9⟩ := ih b2 b3 (xs ++ [tx]) (m - 1) hy hsl2
        refine ⟨?_, ?_, ?_, ?_, ?_, ?_, ?_, ?_, ?_⟩
        · simp only [rerunLoop, hx]; exact i1
        · rw [i2]
          simp only [List.append_assoc, List.singleton_append, List.length_cons]
          congr 2
          omega
        · rw [i3, hb]; rfl
        · rw [i4, hb]; rfl
        · rw [i5, hb]; rfl
        · rw [i6, hb]; rfl
        · rw [i7, hb]; rfl
        · rw [i8, hb]; rfl
        · rw [i9, hb]; rfl

/-- C10. When a block is constructed from a predecessor `P` and `addTransaction` then
accepts `T1..Tn` in that order, `rerun(P)` on the resulting block returns true and
leaves `balances` and `nextNonce` (indeed the whole block) as they were before the
rerun. -/
theorem C10_rerun_reproduces_ledger (hash : String → String) (stringify : BlockJSON → String)
    (sufficientFunds : Transaction → Block → Bool) (P : Block) (rewardAddr : Option String)
    (target coinbaseReward : Int) (now : Nat) (txs : List Transaction) (B0 B : Block)
    (h0 : Block.new hash stringify rewardAddr (some P) target coinbaseReward now = some B0)
    (hadd : submitAll hash sufficientFunds B0 txs = some (List.replicate txs.length true, B)) :
    ∃ B1, rerun hash sufficientFunds B P = some (true, B1) ∧
      B1.balances = B.balances ∧ B1.nextNonce = B.nextNonce ∧ B1 = B := by
  obtain ⟨tree, et, _, hslots⟩ := new_inv hash 3
  have et8 : FixedMerkleTree.new hash MAX_BLOCK_TRANSACTIONS = some tree := et
  unfold Block.new at h0
  rw [et8] at h0
  simp only [Option.some.injEq] at h0
  have hsl0 : B0.txMerkleTree.transactions = ([] : List Transaction).map some ++
      List.replicate (2 ^ 3) none := by
    rw [← h0]; simpa using hslots
  obtain ⟨i1, i2, i3, i4, i5, i6, i7, i8, i9⟩ :=
    submitAll_accepted hash sufficientFunds txs B0 B [] (2 ^ 3) hadd hsl0
  have hall : getAllTransactions B.txMerkleTree = txs :=
    getAllTransactions_of_slots _ txs _ (by simpa using i2)
  have hstart : ({ B with
      balances := creditWinner P
      nextNonce := P.nextNonce
      txMerkleTree := tree } : Block) = B0 := by
    rw [← h0] at i3 i4 i5 i6 i7 i8 i9 ⊢
    cases B
    simp only at i3 i4 i5 i6 i7 i8 i9
    simp only [Block.mk.injEq, true_and]
    exact ⟨i3, i4, i5, i6, i7, i8, i9⟩
  refine ⟨B, ?_, rfl, rfl, rfl⟩
  unfold rerun
  rw [et8]
  dsimp only
  rw [hstart, hall]
  exact i1

/-! ## Nonce order -/

/-- C9, as the code has it. Let the nonce expected from `A` be `k` and let `t1`, `t2`,
`t3` be transactions of `A` with nonces `k - 1`, `k`, `k + 1`, the last two signed, not
yet contained, funded and meeting a tree that is not full when they are submitted.
Submitted in the order `t1, t2, t3` the answers are rejected, accepted, accepted: once
`t2` is accepted the expected nonce is `k + 1`. The transaction `t3` is rejected as
out of order when it is submitted before `t2`: in the order `t1, t3, t2` the answers
are rejected, rejected, accepted. -/
theorem C9_nonce_order (hash : String → String) (sufficientFunds : Transaction → Block → Bool)
    (b : Block) (A : String) (k : Int) (t1 t2 t3 : Transaction)
    (hs : SlotsOk b.txMerkleTree)
    (hk : (mapGet b.nextNonce A).getD 0 = k)
    (hfrom : t1.from_ = A ∧ t2.from_ = A ∧ t3.from_ = A)
    (hnonce : t1.nonce = k - 1 ∧ t2.nonce = k ∧ t3.nonce = k + 1)
    (hsigned : t2.sig ≠ none ∧ t2.validSignature = true ∧ t3.sig ≠ none ∧ t3.validSignature = true)
    (h2 : has hash b.txMerkleTree t2 = false ∧ sufficientFunds t2 b = true ∧
      isFull b.txMerkleTree = false)
    (h3 : ∀ b2, addTransaction hash sufficientFunds b t2 = some (true, b2) →
      has hash b2.txMerkleTree t3 = false ∧ sufficientFunds t3 b2 = true ∧
      isFull b2.txMerkleTree = false) :
    (∃ b3, submitAll hash sufficientFunds b [t1, t2, t3] = some ([false, true, true], b3)) ∧
    (∃ b2, submitAll hash sufficientFunds b [t1, t3, t2] = some ([false, false, true], b2)) := by
  obtain ⟨f1, f2, f3⟩ := hfrom
  obtain ⟨n1, n2, n3⟩ := hnonce
  obtain ⟨g1, g2, g3, g4⟩ := hsigned
  have r1 : addTransaction hash sufficientFunds b t1 = some (false, b) := by
    apply addTransaction_of_not_admissible
    intro ha
    have := ha.2.2.2.2.2
    rw [f1, hk, n1] at this
    omega
  have r3 : addTransaction hash sufficientFunds b t3 = some (false, b) := by
    apply addTransaction_of_not_admissible
    intro ha
    have := ha.2.2.2.2.2
    rw [f3, hk, n3] at this
    omega
  have a2 : Admissible hash sufficientFunds b t2 :=
    ⟨h2.1, g1, g2, h2.2.1, h2.2.2, by rw [f2, hk, n2]⟩
  obtain ⟨tree2, e2, hs2⟩ := addTx_not_full hash b.txMerkleTree t2 hs h2.2.2
  have r2 : addTransaction hash sufficientFunds b t2 = some (true, acceptedBlock b t2 tree2) := by
    rw [addTransaction_of_admissible hash sufficientFunds b t2 a2, e2]; rfl
  obtain ⟨h31, h32, h33⟩ := h3 _ r2
  have a3 : Admissible hash sufficientFunds (acceptedBlock b t2 tree2) t3 := by
    refine ⟨h31, g3, g4, h32, h33, ?_⟩
    show t3.nonce = (mapGet (mapSet b.nextNonce t2.from_ _) t3.from_).getD 0
    rw [f2, f3, mapGet_mapSet_same, hk, n3]
    rfl
  obtain ⟨tree3, e3, _⟩ := addTx_not_full hash (acceptedBlock b t2 tree2).txMerkleTree t3 hs2 h33
  have r23 : addTransaction hash sufficientFunds (acceptedBlock b t2 tree2) t3 =
      some (true, acceptedBlock (acceptedBlock b t2 tree2) t3 tree3) := by
    rw [addTransaction_of_admissible hash sufficientFunds _ t3 a3, e3]; rfl
  constructor
  · exact ⟨acceptedBlock (acceptedBlock b t2 tree2) t3 tree3,
      by simp only [submitAll, r1, r2, r23]⟩
  · exact ⟨acceptedBlock b t2 tree2, by simp only [submitAll, r1, r2, r3]⟩

/-- C9, as stated, fails: with expected nonce 1 for `A` and the signed, funded
transactions `sampleT0`, `sampleT1`, `sampleT2` of `A` with nonces 0, 1, 2 submitted in
that order to a block with an empty tree of capacity 8, the answers are rejected,
accepted, accepted, not rejected, accepted, rejected. -/
theorem C9_third_is_accepted :
    (mapGet sampleBlock.nextNonce "A").getD 0 = 1 ∧
    (sampleT0.nonce, sampleT1.nonce, sampleT2.nonce) = (0, 1, 2) ∧
    (submitAll sampleHash sampleFunds sampleBlock [sampleT0, sampleT1, sampleT2]).map
      (fun r => (r.1, isFull r.2.txMerkleTree, balanceOf r.2 "A")) =
        some ([false, true, true], false, 98) ∧
    (submitAll sampleHash sampleFunds sampleBlock [sampleT0, sampleT1, sampleT2]).map
      (fun r => r.1) ≠ some [false, true, false] := by
  decide

/-! ## `getPath` and `verify` -/

/-- On a path of two or more entries the loop of `verify` makes no round, its bound
`j < nodes` being `NaN`: the answer is whether 1 or 2 is among the entries, whatever
the transaction, the index and the hashes. -/
theorem verify_two_entries (hash : String → String) (t : FixedMerkleTree) (tx : Transaction)
    (i : Option Nat) (x y : Option Nat) (rest : List (Option Nat)) :
    verify hash t tx { txInd := i, Path := x :: y :: rest } =
      ((x :: y :: rest).contains (some 1) || (x :: y :: rest).contains (some 2)) := by
  unfold verify
  dsimp only
  by_cases h1 : (x :: y :: rest).contains (some 1) = true
  · simp [h1, arrayToNumber]
  · by_cases h2 : (x :: y :: rest).contains (some 2) = true
    · simp [h1, h2, arrayToNumber]
    · simp only [h1, h2, not_false_eq_true, and_self, if_true]
      simp at h1 h2
      simp [h1, h2]

/-- C2, at the input where the code fails: in a tree of capacity 1 that holds `tx`,
whatever the hash function, `has(tx)` is true, `getPath(tx)` returns the index 0 with
the path `[0]`, and `verify` answers false on it, the path holding neither 1 nor 2. -/
theorem C2_single_slot_tree_rejects_own_path (hash : String → String) (tx : Transaction) :
    ∃ t, (FixedMerkleTree.new hash 1).bind (fun t0 => addTx hash t0 tx) = some t ∧
      t.transactions = [some tx] ∧ has hash t tx = true ∧
      (∀ fuel, getPath hash (fuel + 1) t tx = some { txInd := some 0, Path := [some 0] }) ∧
      verify hash t tx { txInd := some 0, Path := [some 0] } = false := by
  have e0 : FixedMerkleTree.new hash 1 =
      some ⟨1, [none], [some (hash " ")], [(hash " ", 0)]⟩ := rfl
  have e1 : build hash ⟨1, [some tx], [some (hash " ")], [(hash " ", 0)]⟩ =
      some ⟨1, [some tx], [some (hash tx.getid)], mapSet [(hash " ", 0)] (hash tx.getid) 0⟩ := by
    unfold build
    simp only [show calculateSize 1 = 1 from rfl]
    rfl
  have e2 : addTx hash ⟨1, [none], [some (hash " ")], [(hash " ", 0)]⟩ tx =
      some ⟨1, [some tx], [some (hash tx.getid)], mapSet [(hash " ", 0)] (hash tx.getid) 0⟩ := by
    unfold addTx
    simp only [show isFull ⟨1, [none], [some (hash " ")], [(hash " ", 0)]⟩ = false from rfl]
    exact e1
  refine ⟨⟨1, [some tx], [some (hash tx.getid)], mapSet [(hash " ", 0)] (hash tx.getid) 0⟩,
    by rw [e0]; exact e2, rfl, ?_, ?_, ?_⟩
  · simp [has, mapGet_mapSet_same]
  · intro fuel
    simp [getPath, mapGet_mapSet_same, getPathLoop]
  · simp [verify]

/-- C3, at an input where the code fails: in the tree of capacity 2 that holds only
`sampleA`, `verify` answers true for the transaction `sampleB`, which the tree does not
contain, with the path of `sampleA`, although the hash recomputed from `sampleB` and
the sibling is not the root; and it answers true for `sampleA` on the path with its
sibling entry changed from 2 to 0. -/
theorem C3_verify_accepts_wrong_transaction_and_path :
    (sampleTree 2 [sampleA]).map (fun t =>
      (has sampleHash t sampleB,
       getPath sampleHash 3 t sampleA,
       verify sampleHash t sampleB { txInd := some 1, Path := [some 1, some 2] },
       decide (some (sampleHash (sampleHash sampleB.getid ++ "," ++ jsStr (arrGet t.hashes 2)))
         = getroot t),
       verify sampleHash t sampleA { txInd := some 1, Path := [some 1, some 0] })) =
    some (false, some { txInd := some 1, Path := [some 1, some 2] }, true, false, true) := by
  decide

/-- C4, as the code has it. For a transaction that the tree does not contain,
`getPath` raises no error: it returns a path object whose `txInd` is `undefined` and
whose path is `[undefined]`, provided that no entry of `hashes` past the root position
finds a partner, that is, for no index `j >= 1` the hash of `hashes[j] + ",undefined"`
is among the hashes. -/
theorem C4_getPath_of_absent_transaction (hash : String → String) (t : FixedMerkleTree)
    (tx : Transaction) (fuel : Nat) (habsent : has hash t tx = false)
    (hfresh : ∀ j, 1 ≤ j → j < t.hashes.length →
      some (hash (jsStr (arrGet t.hashes j) ++ "," ++ jsStr none)) ∉ t.hashes) :
    getPath hash (fuel + 1) t tx = some { txInd := none, Path := [none] } := by
  have hi : mapGet t.lookup (hash tx.getid) = none := by
    unfold has at habsent
    cases h : mapGet t.lookup (hash tx.getid) with
    | none => rfl
    | some v => rw [h] at habsent; simp at habsent
  have hstep : (searchStep hash t.hashes none).1 = 0 := by
    unfold searchStep
    cases hf : (List.range t.hashes.length).find?
        (fun j => t.hashes.contains (some (pairCheck hash t.hashes none j))) with
    | none => rfl
    | some j =>
      have hp := List.find?_some hf
      have hm := List.mem_of_find?_eq_some hf
      rw [List.mem_range] at hm
      by_cases hj : j = 0
      · simpa using hj
      · exfalso
        apply hfresh j (by omega) hm
        simpa [pairCheck] using hp
  unfold getPath
  simp only [hi]
  unfold getPathLoop
  simp [hstep]

/-- C4, as stated, fails: in the tree of capacity 4 that holds only `sampleA`,
`getPath` of `sampleB`, which the tree does not contain, returns a path object. -/
theorem C4_absent_transaction_gets_path :
    (sampleTree 4 [sampleA]).map (fun t => (has sampleHash t sampleB, getPath sampleHash 1 t sampleB)) =
      some (false, some { txInd := none, Path := [none] }) := by
  decide

/-! ## The fuel of the loops is never what ends them -/

theorem hashToRootAux_length (hash : String → String) : ∀ (fuel i : Nat) (h : List (Option String)),
    i < h.length → (hashToRootAux hash fuel h i).length = h.length := by
  intro fuel
  induction fuel with
  | zero => intro i h _; rfl
  | succ f ih =>
    intro i h hlt
    rw [hashToRootAux]
    dsimp only
    have hl : (arrSet h ((i - 2) / 2)
        (hash (jsStr (arrGet h (i - 1)) ++ "," ++ jsStr (arrGet h i)))).length = h.length := by
      rw [arrSet_length]; omega
    split_ifs with h1 h2 h3
    · rfl
    · rfl
    · rw [ih _ _ (by rw [hl]; omega), hl]
    · exact hl

/-- The second loop of `build` with more fuel than the length of the array computes
what it computes with that length as fuel. -/
theorem buildInner_fuel (hash : String → String) : ∀ (fuel extra i : Nat) (h : List (Option String)),
    h.length ≤ i + 2 * fuel →
    buildInner hash (fuel + extra) i h = buildInner hash fuel i h := by
  intro fuel
  induction fuel with
  | zero =>
    intro extra i h hle
    cases extra with
    | zero => rfl
    | succ e =>
      rw [Nat.zero_add, buildInner, buildInner]
      simp only [show ¬ i < h.length by omega, if_false]
  | succ f ih =>
    intro extra i h hle
    have e1 : f + 1 + extra = (f + extra) + 1 := by omega
    rw [e1, buildInner, buildInner]
    by_cases hlt : i < h.length
    · simp only [hlt, if_true]
      apply ih
      unfold hashToRoot
      rw [hashToRootAux_length hash i i h hlt]
      omega
    · simp only [hlt, if_false]

/-! ## The hypothesis on the slots holds in every block the code makes -/

theorem slotsOk_of_new (hash : String → String) (stringify : BlockJSON → String)
    (rewardAddr : Option String) (prevBlock : Option Block) (target coinbaseReward : Int)
    (now : Nat) :
    ∃ b, Block.new hash stringify rewardAddr prevBlock target coinbaseReward now = some b ∧
      SlotsOk b.txMerkleTree := by
  obtain ⟨tree, et, hinv, _⟩ := new_inv hash 3
  have et8 : FixedMerkleTree.new hash MAX_BLOCK_TRANSACTIONS = some tree := et
  refine ⟨_, by unfold Block.new; rw [et8], ?_⟩
  exact ⟨by rw [hinv.2.1, hinv.1], 3, hinv.1⟩

theorem slotsOk_of_addTransaction (hash : String → String)
    (sufficientFunds : Transaction → Block → Bool) (b b1 : Block) (tx : Transaction) (r : Bool)
    (hs : SlotsOk b.txMerkleTree) (h : addTransaction hash sufficientFunds b tx = some (r, b1)) :
    SlotsOk b1.txMerkleTree := by
  cases r with
  | false =>
    obtain ⟨e, _⟩ := addTransaction_false_eq hash sufficientFunds b b1 tx h
    rw [e]; exact hs
  | true =>
    obtain ⟨ha, tree, e, hb⟩ := addTransaction_true_eq hash sufficientFunds b b1 tx h
    obtain ⟨t1, e1, hs1⟩ := addTx_not_full hash b.txMerkleTree tx hs ha.2.2.2.2.1
    rw [e] at e1
    simp only [Option.some.injEq] at e1
    subst e1
    rw [hb]; exact hs1


/-! ## The constructor of `Block` -/

/-- The constructor returns, and this is the block it makes. -/
theorem new_block_eq (hash : String → String) (stringify : BlockJSON → String)
    (rewardAddr : Option String) (prevBlock : Option Block) (target coinbaseReward : Int)
    (now : Nat) :
    ∃ tree, FixedMerkleTree.new hash MAX_BLOCK_TRANSACTIONS = some tree ∧
      Block.new hash stringify rewardAddr prevBlock target coinbaseReward now =
        some
          { prevBlockHash := prevBlock.map (hashVal hash stringify)
            balances := match prevBlock with
              | some p => creditWinner p
              | none => []
            nextNonce := match prevBlock with
              | some p => p.nextNonce
              | none => []
            txMerkleTree := tree
            chainLength := chainLengthAfter prevBlock
            target := target >>> (chainLengthAfter prevBlock / 5)
            timestamp := now
            rewardAddr := rewardAddr
            coinbaseReward := coinbaseReward
            proof := none } := by
  obtain ⟨tree, et, _, _⟩ := new_inv hash 3
  have et8 : FixedMerkleTree.new hash MAX_BLOCK_TRANSACTIONS = some tree := et
  refine ⟨tree, et8, ?_⟩
  unfold Block.new
  rw [et8]
  cases prevBlock <;> rfl

/-- C12, as the code has it. A block constructed from a genesis block whose balances
are `A: 100` and whose tree is empty has `balanceOf(A)` equal to 100 plus the coinbase
reward of the genesis block when the reward address of the genesis block is `A` (110
when that reward is 10), and equal to 100 when the genesis block has no reward
address; the reward address and the coinbase reward of the new block play no part. -/
theorem C12_child_of_genesis_balance (hash : String → String) (stringify : BlockJSON → String)
    (G : Block) (A : String) (rewardAddr : Option String) (target coinbaseReward : Int) (now : Nat)
    (hbal : G.balances = [(A, 100)]) (hA : A ≠ "")
    (htx : getAllTransactions G.txMerkleTree = []) :
    ∃ b, Block.new hash stringify rewardAddr (some G) target coinbaseReward now = some b ∧
      (G.rewardAddr = some A → balanceOf b A = 100 + G.coinbaseReward) ∧
      (G.rewardAddr = some A → G.coinbaseReward = 10 → balanceOf b A = 110) ∧
      (G.rewardAddr = none → balanceOf b A = 100) := by
  obtain ⟨tree, _, e⟩ := new_block_eq hash stringify rewardAddr (some G) target coinbaseReward now
  have hG : balanceOf G A = 100 := by
    unfold balanceOf; rw [hbal]; simp [mapGet]
  have h1 : G.rewardAddr = some A →
      (mapGet (creditWinner G) A).getD 0 = 100 + G.coinbaseReward := by
    intro h
    unfold creditWinner
    simp only [h, hA, if_false, mapGet_mapSet_same, Option.getD_some, hG]
    unfold totalRewards
    rw [htx]
    simp
  refine ⟨_, e, h1, ?_, ?_⟩
  · intro h hc
    have := h1 h
    rw [hc] at this
    exact this
  · intro h
    show (mapGet (creditWinner G) A).getD 0 = 100
    unfold creditWinner
    simp only [h]
    exact hG

/-- C12, as stated, fails: the block constructed from `sampleGenesis`, whose balances
are `A: 100` and which has no reward address, with the reward address `A` and the
coinbase reward 10 for the new block, has `balanceOf(A)` equal to 100, not 110. -/
theorem C12_child_balance_is_100 :
    isGenesisBlock sampleGenesis = true ∧ sampleGenesis.balances = [("A", 100)] ∧
    (Block.new sampleHash sampleStringify (some "A") (some sampleGenesis) 1000 10 7).map
      (fun b => (b.rewardAddr, b.coinbaseReward, getAllTransactions b.txMerkleTree, balanceOf b "A")) =
        some (some "A", 10, [], 100) := by
  decide

/-- C15. The target of a constructed block is the base target shifted right by
`floor(chainLength / 5)` bits, which is the floor of the base target divided by 2 to
that power, where the chain length is 0 without a predecessor and that of the
predecessor plus 1 otherwise; at chain length 5 it is `T >> 1` and at 10 it is
`T >> 2`. This holds for every integer base target. -/
theorem C15_target_is_shifted (hash : String → String) (stringify : BlockJSON → String)
    (rewardAddr : Option String) (prevBlock : Option Block) (T coinbaseReward : Int) (now : Nat) :
    ∃ b, Block.new hash stringify rewardAddr prevBlock T coinbaseReward now = some b ∧
      b.chainLength = chainLengthAfter prevBlock ∧
      chainLengthAfter none = 0 ∧ (∀ p, chainLengthAfter (some p) = p.chainLength + 1) ∧
      b.target = T >>> (b.chainLength / 5) ∧
      b.target = T / 2 ^ (b.chainLength / 5) ∧
      (b.chainLength = 5 → b.target = T >>> (1 : Nat)) ∧
      (b.chainLength = 10 → b.target = T >>> (2 : Nat)) := by
  obtain ⟨tree, _, e⟩ := new_block_eq hash stringify rewardAddr prevBlock T coinbaseReward now
  refine ⟨_, e, ?_⟩
  dsimp only
  refine ⟨rfl, rfl, fun _ => rfl, rfl, ?_, ?_, ?_⟩
  · rw [Int.shiftRight_eq_div_pow]
    push_cast
    rfl
  · intro h
    rw [h]
  · intro h
    rw [h]

theorem shiftRight_nonneg_le (T : Int) (hT : 0 ≤ T) (a b : Nat) (hab : a ≤ b) :
    T >>> b ≤ T >>> a := by
  obtain ⟨t, rfl⟩ := Int.eq_ofNat_of_zero_le hT
  show ((t >>> b : Nat) : Int) ≤ ((t >>> a : Nat) : Int)
  rw [Nat.shiftRight_eq_div_pow, Nat.shiftRight_eq_div_pow]
  exact_mod_cast Nat.div_le_div_left (Nat.pow_le_pow_right (by norm_num) hab) (by positivity)

theorem shiftRight_succ_lt (T : Int) (a : Nat) (hpos : 0 < T >>> a) :
    T >>> (a + 1) < T >>> a := by
  rw [Int.shiftRight_add]
  generalize T >>> a = x at hpos ⊢
  rw [Int.shiftRight_eq_div_pow]
  norm_num
  omega

theorem shiftRight_zero_stays (T : Int) (a b : Nat) (hab : a ≤ b) (hz : T >>> a = 0) :
    T >>> b = 0 := by
  obtain ⟨d, rfl⟩ : ∃ d, b = a + d := ⟨b - a, by omega⟩
  rw [Int.shiftRight_add, hz]
  rw [Int.shiftRight_eq_div_pow]
  simp

/-- C16, as the code has it. For a base target that is not negative, a block at chain
length `5(k+1)` has a strictly smaller target than a block at chain length `5k` built
from the same base target as long as the latter target is positive; once the target
is 0 it stays 0; and for chain lengths `c <= c'` the target at `c'` is never larger
than the target at `c`. -/
theorem C16_target_decreases (hash : String → String) (stringify : BlockJSON → String)
    (T : Int) (hT : 0 ≤ T) (r1 r2 : Option String) (prev1 prev2 : Option Block) (cr1 cr2 : Int)
    (now1 now2 : Nat) (b1 b2 : Block)
    (h1 : Block.new hash stringify r1 prev1 T cr1 now1 = some b1)
    (h2 : Block.new hash stringify r2 prev2 T cr2 now2 = some b2) :
    (∀ k, b1.chainLength = 5 * k → b2.chainLength = 5 * (k + 1) → 0 < b1.target →
      b2.target < b1.target) ∧
    (b1.chainLength ≤ b2.chainLength → b1.target = 0 → b2.target = 0) ∧
    (b1.chainLength ≤ b2.chainLength → b2.target ≤ b1.target) := by
  obtain ⟨_, _, e1⟩ := new_block_eq hash stringify r1 prev1 T cr1 now1
  obtain ⟨_, _, e2⟩ := new_block_eq hash stringify r2 prev2 T cr2 now2
  rw [e1] at h1
  rw [e2] at h2
  simp only [Option.some.injEq] at h1 h2
  subst h1 h2
  dsimp only
  refine ⟨?_, ?_, ?_⟩
  · intro k hk1 hk2 hpos
    rw [hk1, hk2]
    rw [hk1] at hpos
    have e5 : 5 * k / 5 = k := by omega
    have e6 : 5 * (k + 1) / 5 = k + 1 := by omega
    rw [e5] at hpos ⊢
    rw [e6]
    exact shiftRight_succ_lt T k hpos
  · intro hle hz
    exact shiftRight_zero_stays T _ _ (Nat.div_le_div_right hle) hz
  · intro hle
    exact shiftRight_nonneg_le T hT _ _ (Nat.div_le_div_right hle)

/-- C16, as stated, fails: with the base target 1 the blocks at chain lengths 5 and 10
both have the target 0, so the later one is not strictly smaller; and with the
negative base target -4 the block at chain length 5 has the target -2, larger than
the target -4 at chain length 0. -/
theorem C16_target_not_strictly_smaller :
    (Block.new sampleHash sampleStringify none (some (sampleAt 4)) 1 10 7).map
      (fun b => (b.chainLength, b.target)) = some (5, 0) ∧
    (Block.new sampleHash sampleStringify none (some (sampleAt 9)) 1 10 7).map
      (fun b => (b.chainLength, b.target)) = some (10, 0) ∧
    (Block.new sampleHash sampleStringify none none (-4) 10 7).map
      (fun b => (b.chainLength, b.target)) = some (0, -4) ∧
    (Block.new sampleHash sampleStringify none (some (sampleAt 4)) (-4) 10 7).map
      (fun b => (b.chainLength, b.target)) = some (5, -2) := by
  decide

/-- C17. Two blocks that are not genesis blocks and agree on `chainLength`,
`timestamp`, `txMerkleTree`, `prevBlockHash`, `proof` and `rewardAddr` have the same
`serialize()` and the same `hashVal()`, whatever their balances and nonces (and
targets and coinbase rewards) are. -/
theorem C17_hash_ignores_ledger (hash : String → String) (stringify : BlockJSON → String)
    (b1 b2 : Block) (hg : isGenesisBlock b1 = false)
    (hc : b1.chainLength = b2.chainLength) (ht : b1.timestamp = b2.timestamp)
    (hm : b1.txMerkleTree = b2.txMerkleTree) (hp : b1.prevBlockHash = b2.prevBlockHash)
    (hpr : b1.proof = b2.proof) (hr : b1.rewardAddr = b2.rewardAddr) :
    serialize stringify b1 = serialize stringify b2 ∧
      hashVal hash stringify b1 = hashVal hash stringify b2 := by
  have hg2 : isGenesisBlock b2 = false := by
    unfold isGenesisBlock at hg ⊢
    rw [← hc]; exact hg
  have e : toJSON b1 = toJSON b2 := by
    unfold toJSON
    rw [hg, hg2, hc, ht, hm, hp, hpr, hr]
    simp
  unfold hashVal serialize
  rw [e]
  exact ⟨rfl, rfl⟩

/-! ## Balances stay non-negative -/

theorem nonNegative_mapSet (m : List (String × Int)) (k : String) (v : Int)
    (hm : NonNegative m) (hv : 0 ≤ v) : NonNegative (mapSet m k v) := by
  induction m with
  | nil =>
    intro e he
    simp only [mapSet, List.mem_singleton] at he
    rw [he]; exact hv
  | cons x rest ih =>
    obtain ⟨k', v'⟩ := x
    have hrest : NonNegative rest := fun e he => hm e (List.mem_cons_of_mem _ he)
    intro e he
    by_cases hk : k' = k
    · simp only [mapSet, hk, if_true, List.mem_cons] at he
      rcases he with rfl | he
      · exact hv
      · exact hrest e he
    · simp only [mapSet, hk, if_false, List.mem_cons] at he
      rcases he with rfl | he
      · exact hm (k', v') (List.mem_cons_self _ _)
      · exact ih hrest e he

theorem nonNegative_getD (m : List (String × Int)) (k : String) (hm : NonNegative m) :
    0 ≤ (mapGet m k).getD 0 := by
  induction m with
  | nil => simp [mapGet]
  | cons x rest ih =>
    obtain ⟨k', v'⟩ := x
    by_cases hk : k' = k
    · simp only [mapGet, hk, if_true, Option.getD_some]
      exact hm (k', v') (List.mem_cons_self _ _)
    · simp only [mapGet, hk, if_false]
      exact ih (fun e he => hm e (List.mem_cons_of_mem _ he))

theorem nonNegative_foldl_creditOutput : ∀ (outputs : List Output) (bal : List (String × Int)),
    NonNegative bal → (∀ o ∈ outputs, 0 ≤ o.amount) →
    NonNegative (outputs.foldl creditOutput bal) := by
  intro outputs
  induction outputs with
  | nil => intro bal hb _; exact hb
  | cons o rest ih =>
    intro bal hb ho
    simp only [List.foldl_cons]
    apply ih
    · unfold creditOutput
      apply nonNegative_mapSet _ _ _ hb
      have h1 := ho o (List.mem_cons_self _ _)
      have h2 := nonNegative_getD bal o.address hb
      omega
    · intro o' ho'
      exact ho o' (List.mem_cons_of_mem _ ho')

/-- C18. Take a block whose balances are all at least 0 and whose tree has its slots
as the constructor makes them, and let `sufficientFunds` hold only when
`tx.totalOutput()` is at most `balanceOf(tx.from)`. Then `addTransaction(tx)` of a
transaction whose output amounts are not negative returns, accepted or rejected, with
all balances at least 0; and when the coinbase reward and the fees of the contained
transactions are not negative, the block constructed from this one has all
balances at least 0. -/
theorem C18_balances_stay_nonnegative (hash : String → String) (stringify : BlockJSON → String)
    (sufficientFunds : Transaction → Block → Bool) (b : Block)
    (hsf : ∀ tx, sufficientFunds tx b = true → tx.totalOutput ≤ balanceOf b tx.from_)
    (hb : NonNegative b.balances) (hs : SlotsOk b.txMerkleTree) :
    (∀ tx, (∀ o ∈ tx.outputs, 0 ≤ o.amount) →
      ∃ r b1, addTransaction hash sufficientFunds b tx = some (r, b1) ∧
        NonNegative b1.balances) ∧
    (0 ≤ b.coinbaseReward → (∀ tx ∈ getAllTransactions b.txMerkleTree, 0 ≤ tx.fee) →
      ∀ rewardAddr target coinbaseReward now,
        ∃ b2, Block.new hash stringify rewardAddr (some b) target coinbaseReward now = some b2 ∧
          NonNegative b2.balances) := by
  constructor
  · intro tx hout
    by_cases ha : Admissible hash sufficientFunds b tx
    · obtain ⟨t1, e, _⟩ := addTx_not_full hash b.txMerkleTree tx hs ha.2.2.2.2.1
      refine ⟨true, acceptedBlock b tx t1, ?_, ?_⟩
      · rw [addTransaction_of_admissible hash sufficientFunds b tx ha, e]; rfl
      · show NonNegative (tx.outputs.foldl creditOutput
          (mapSet b.balances tx.from_ (balanceOf b tx.from_ - tx.totalOutput)))
        apply nonNegative_foldl_creditOutput _ _ _ hout
        apply nonNegative_mapSet _ _ _ hb
        have := hsf tx ha.2.2.2.1
        omega
    · exact ⟨false, b, addTransaction_of_not_admissible hash sufficientFunds b tx ha, hb⟩
  · intro hcb hfee rewardAddr target coinbaseReward now
    obtain ⟨tree, _, e⟩ := new_block_eq hash stringify rewardAddr (some b) target coinbaseReward now
    refine ⟨_, e, ?_⟩
    show NonNegative (creditWinner b)
    unfold creditWinner
    split
    · exact hb
    · split
      · exact hb
      · rename_i addr _ _
        apply nonNegative_mapSet _ _ _ hb
        have h1 : 0 ≤ balanceOf b addr := nonNegative_getD b.balances addr hb
        have h2 : 0 ≤ ((getAllTransactions b.txMerkleTree).map (fun tx => tx.fee)).sum := by
          apply List.sum_nonneg
          intro x hx
          simp only [List.mem_map] at hx
          obtain ⟨tx, htx, rfl⟩ := hx
          exact hfee tx htx
        unfold totalRewards
        omega

/-! ## Slots of a tree that is filled by `addTx` -/

theorem isFull_of_slots (t : FixedMerkleTree) (xs : List Transaction) (m : Nat)
    (hmax : t.maxTransactions = xs.length + m) (hpos : 0 < xs.length + m)
    (hsl : t.transactions = xs.map some ++ List.replicate m none) :
    isFull t = true ↔ m = 0 := by
  constructor
  · intro hf
    by_contra hm
    have : isFull t = false := by
      rw [isFull_false_iff]
      refine ⟨by omega, ?_⟩
      rw [hsl, hmax, List.getElem?_append_right (by simp; omega)]
      simp [List.getElem?_replicate]
      omega
    rw [this] at hf
    exact absurd hf (by simp)
  · intro hm
    subst hm
    by_contra hf
    have hf2 : isFull t = false := by simpa using hf
    rw [isFull_false_iff] at hf2
    obtain ⟨_, h2⟩ := hf2
    rw [hsl, hmax] at h2
    simp only [List.replicate_zero, List.append_nil, Nat.add_zero, List.getElem?_map] at h2
    cases h : xs[xs.length - 1]? with
    | none => rw [h] at h2; simp at h2
    | some v => rw [h] at h2; simp at h2

/-- A run of `addTx` on a tree whose slots hold `xs` and then `m` fillers: the first
`m` transactions of the run are appended; the transactions after them change nothing. -/
theorem addTxs_slots (hash : String → String) (k : Nat) : ∀ (txs : List Transaction)
    (t : FixedMerkleTree) (xs : List Transaction) (m : Nat),
    TreeInv hash k t → xs.length + m = 2 ^ k →
    t.transactions = xs.map some ++ List.replicate m none →
    ∃ t1, addTxs hash t txs = some t1 ∧ TreeInv hash k t1 ∧
      t1.transactions = (xs ++ txs.take m).map some ++ List.replicate (m - txs.length) none ∧
      addTxs hash t (txs.take m) = some t1 := by
  intro txs
  induction txs with
  | nil =>
    intro t xs m hinv _ hsl
    exact ⟨t, rfl, hinv, by simpa using hsl, by simp [addTxs]⟩
  | cons tx rest ih =>
    intro t xs m hinv hlen hsl
    have hpos : 0 < xs.length + m := by
      rw [hlen]; exact Nat.one_le_two_pow
    have hfull := isFull_of_slots t xs m (by rw [hinv.1, hlen]) hpos hsl
    by_cases hm : m = 0
    · have hf : isFull t = true := hfull.2 hm
      have e : addTx hash t tx = some t := by unfold addTx; simp [hf]
      obtain ⟨t1, e1, i1, s1, r1⟩ := ih t xs m hinv hlen hsl
      subst hm
      refine ⟨t1, by simp only [addTxs, e]; exact e1, i1, by simpa using s1, ?_⟩
      simpa using r1
    · have hf : isFull t = false := by
        cases h : isFull t with
        | false => rfl
        | true => exact absurd (hfull.1 h) hm
      obtain ⟨t2, e2, i2⟩ := addTx_inv hash k t tx hinv
      obtain ⟨_, s, _, s2, s3, s4⟩ := addTx_effect hash t t2 tx hf e2
      rw [hsl] at s2 s3 s4
      rw [set_first_empty xs m s tx s2 s3] at s4
      obtain ⟨t1, e1, i1, s1, r1⟩ := ih t2 (xs ++ [tx]) (m - 1) i2
        (by simp; omega) s4
      obtain ⟨m', rfl⟩ : ∃ m', m = m' + 1 := ⟨m - 1, by omega⟩
      refine ⟨t1, by simp only [addTxs, e2]; exact e1, i1, ?_, ?_⟩
      · rw [s1]
        simp
      · simp only [List.take_succ_cons, addTxs, e2]
        simpa using r1

/-- C13. For every capacity `n = 2 ^ k` and every run `t1..tm` of `addTx` calls on a
freshly constructed tree, the slots afterwards hold the first `min(m, n)` transactions
in order, followed by empty slots; `getAllTransactions()` returns exactly these;
`isFull()` is true exactly when `m >= n`; and `addTx` on a full tree returns the tree
unchanged (slots, hashes and lookup table). -/
theorem C13_slots_fill_in_order (hash : String → String) (k : Nat) (txs : List Transaction) :
    ∃ t, (FixedMerkleTree.new hash (2 ^ k)).bind (fun t0 => addTxs hash t0 txs) = some t ∧
      t.transactions =
        (txs.take (2 ^ k)).map some ++ List.replicate (2 ^ k - txs.length) none ∧
      getAllTransactions t = txs.take (2 ^ k) ∧
      (isFull t = true ↔ 2 ^ k ≤ txs.length) ∧
      (isFull t = true → ∀ tx, addTx hash t tx = some t) := by
  obtain ⟨t0, e0, h0, hs0⟩ := new_inv hash k
  obtain ⟨t, e, hinv, hsl, _⟩ := addTxs_slots hash k txs t0 [] (2 ^ k) h0 (by simp)
    (by simpa using hs0)
  simp only [List.nil_append] at hsl
  have hn : 0 < 2 ^ k := Nat.one_le_two_pow
  refine ⟨t, by rw [e0]; exact e, hsl, getAllTransactions_of_slots t _ _ hsl, ?_, ?_⟩
  · rw [isFull_of_slots t (txs.take (2 ^ k)) (2 ^ k - txs.length)
      (by rw [hinv.1, List.length_take]; omega) (by rw [List.length_take]; omega) hsl]
    omega
  · intro hf tx
    unfold addTx
    simp [hf]

/-- The example of C13: capacity 4; after two insertions the tree is not full, after
four it is full, and a fifth insertion changes nothing. -/
theorem slots_example_capacity_four :
    (sampleTree 4 [sampleA, sampleB]).map isFull = some false ∧
    (sampleTree 4 [sampleA, sampleB, sampleT0, sampleT1]).map isFull = some true ∧
    sampleTree 4 [sampleA, sampleB, sampleT0, sampleT1, sampleT2] =
      sampleTree 4 [sampleA, sampleB, sampleT0, sampleT1] := by
  decide

/-! ## Capacities that are not a power of two -/

theorem calculateSizeLoop_is_pow : ∀ (fuel j numElems : Nat),
    ∃ i, calculateSizeLoop fuel (2 ^ j) numElems = 2 ^ i := by
  intro fuel
  induction fuel with
  | zero => intro j _; exact ⟨j, rfl⟩
  | succ f ih =>
    intro j numElems
    unfold calculateSizeLoop
    split
    · have e : 2 ^ j * 2 = 2 ^ (j + 1) := by rw [pow_succ]
      rw [e]
      exact ih (j + 1) numElems
    · exact ⟨j, rfl⟩

/-- The constructor returns only for a capacity that is a power of two. -/
theorem new_some_is_pow (hash : String → String) (c : Nat) (t : FixedMerkleTree)
    (h : FixedMerkleTree.new hash c = some t) : ∃ k, c = 2 ^ k := by
  unfold FixedMerkleTree.new build at h
  dsimp only at h
  obtain ⟨m, hm⟩ : ∃ m, m = calculateSizeLoop c 1 c := ⟨_, rfl⟩
  have hm1 : 1 ≤ m := by rw [hm]; exact calculateSizeLoop_ge_start _ _ _
  have hm2 : c ≤ m := by
    rw [hm]; exact calculateSizeLoop_ge _ _ _ (by norm_num) (by omega)
  have hsize : calculateSize c = 2 * m - 1 := by
    unfold calculateSize; rw [← hm]; omega
  rw [hsize] at h
  have hfirst : (2 * m - 1) / 2 = m - 1 := by omega
  have hcnt : 2 * m - 1 - (m - 1) = m := by omega
  rw [hfirst, hcnt] at h
  split at h
  · exact absurd h (by simp)
  · rename_i hs lk e
    have hb := buildLeaves_some_bound hash _ _ _ _ _ e (2 * m - 2)
      (by rw [List.mem_range'_1]; omega)
    simp only [List.length_replicate] at hb
    have hcm : c = m := by omega
    obtain ⟨i, hi⟩ := calculateSizeLoop_is_pow c 0 c
    simp only [pow_zero] at hi
    exact ⟨i, by rw [hcm, hm, hi]⟩

/-- C14, at the inputs where the code fails: the constructor throws for the capacity 3
and for every capacity that is not a power of two, whatever the hash function; the
last slots that `build` reads do not exist. For a capacity `2 ^ k` it returns a tree
of that capacity with `2n - 1` hashes, all slots empty and every leaf hash equal to
the hash of the filler. -/
theorem C14_constructor_throws_unless_power_of_two (hash : String → String) :
    FixedMerkleTree.new hash 3 = none ∧
    (∀ c, (∀ k, c ≠ 2 ^ k) → FixedMerkleTree.new hash c = none) ∧
    (∀ k, ∃ t, FixedMerkleTree.new hash (2 ^ k) = some t ∧ t.maxTransactions = 2 ^ k ∧
      t.hashes.length = 2 * 2 ^ k - 1 ∧ t.transactions = List.replicate (2 ^ k) none ∧
      ∀ s, s < 2 ^ k → arrGet t.hashes (2 ^ k - 1 + s) = some (hash " ")) := by
  have hgen : ∀ c, (∀ k, c ≠ 2 ^ k) → FixedMerkleTree.new hash c = none := by
    intro c hc
    cases h : FixedMerkleTree.new hash c with
    | none => rfl
    | some t =>
      obtain ⟨k, hk⟩ := new_some_is_pow hash c t h
      exact absurd hk (hc k)
  refine ⟨?_, hgen, ?_⟩
  · apply hgen
    intro k h3
    have h1 : k ≤ 1 := by
      by_contra hcon
      have : 2 ^ 2 ≤ 2 ^ k := Nat.pow_le_pow_right (by norm_num) (by omega)
      omega
    interval_cases k <;> simp at h3
  · intro k
    obtain ⟨t, e, hinv, hsl⟩ := new_inv hash k
    refine ⟨t, e, hinv.1, hinv.2.2.1, hsl, ?_⟩
    intro s hs
    obtain ⟨v, hv1, hv2⟩ := hinv.2.2.2.1 s hs
    rw [hsl, List.getElem?_replicate] at hv1
    simp only [hs, if_true, Option.some.injEq] at hv1
    rw [hv2, ← hv1]
    rfl

/-! ## The tree after `rerun` -/

/-- When the loop of `rerun` answers true, the tree at its end is the tree after the
same run of `addTx` calls, and the fields that `toJSON` reads besides the tree are
untouched. -/
theorem rerunLoop_true_tree (hash : String → String) (sufficientFunds : Transaction → Block → Bool) :
    ∀ (txs : List Transaction) (b b1 : Block),
    rerunLoop hash sufficientFunds b txs = some (true, b1) →
    addTxs hash b.txMerkleTree txs = some b1.txMerkleTree ∧
    b1.prevBlockHash = b.prevBlockHash ∧ b1.chainLength = b.chainLength ∧
    b1.timestamp = b.timestamp ∧ b1.rewardAddr = b.rewardAddr ∧ b1.proof = b.proof := by
  intro txs
  induction txs with
  | nil =>
    intro b b1 h
    simp only [rerunLoop, Option.some.injEq, Prod.mk.injEq, true_and] at h
    subst h
    exact ⟨rfl, rfl, rfl, rfl, rfl, rfl⟩
  | cons tx rest ih =>
    intro b b1 h
    simp only [rerunLoop] at h
    cases hx : addTransaction hash sufficientFunds b tx with
    | none => rw [hx] at h; exact absurd h (by simp)
    | some p =>
      obtain ⟨r, b2⟩ := p
      rw [hx] at h
      cases r with
      | false => simp at h
      | true =>
        dsimp only at h
        obtain ⟨_, tree, e, hb⟩ := addTransaction_true_eq hash sufficientFunds b b2 tx hx
        obtain ⟨i1, i2, i3, i4, i5, i6⟩ := ih b2 b1 h
        have ht : b2.txMerkleTree = tree := by rw [hb]; rfl
        refine ⟨?_, ?_, ?_, ?_, ?_, ?_⟩
        · simp only [addTxs, e]
          rw [← ht]; exact i1
        · rw [i2, hb]; rfl
        · rw [i3, hb]; rfl
        · rw [i4, hb]; rfl
        · rw [i5, hb]; rfl
        · rw [i6, hb]; rfl

/-- C21. Take a block whose tree is what a run of `addTx` calls makes of a fresh tree
of capacity 8, and any block `P`. When `rerun(P)` returns true, the tree of the block
afterwards is the tree before the call: the same slots in the same order, the same
hashes, the same root, the same lookup table; and for a block that is not a genesis
block `serialize()` and `hashVal()` are unchanged. -/
theorem C21_rerun_keeps_tree (hash : String → String) (stringify : BlockJSON → String)
    (sufficientFunds : Transaction → Block → Bool) (b P b1 : Block) (txs : List Transaction)
    (htree : (FixedMerkleTree.new hash MAX_BLOCK_TRANSACTIONS).bind
      (fun t0 => addTxs hash t0 txs) = some b.txMerkleTree)
    (hr : rerun hash sufficientFunds b P = some (true, b1)) :
    b1.txMerkleTree.transactions = b.txMerkleTree.transactions ∧
    b1.txMerkleTree.hashes = b.txMerkleTree.hashes ∧
    getroot b1.txMerkleTree = getroot b.txMerkleTree ∧
    b1.txMerkleTree = b.txMerkleTree ∧
    (isGenesisBlock b = false →
      serialize stringify b1 = serialize stringify b ∧
      hashVal hash stringify b1 = hashVal hash stringify b) := by
  obtain ⟨t0, e0, h0, hs0⟩ := new_inv hash 3
  have e8 : FixedMerkleTree.new hash MAX_BLOCK_TRANSACTIONS = some t0 := e0
  rw [e8] at htree
  have htree2 : addTxs hash t0 txs = some b.txMerkleTree := htree
  obtain ⟨t, e, _, hsl, etake⟩ := addTxs_slots hash 3 txs t0 [] (2 ^ 3) h0 (by simp)
    (by simpa using hs0)
  rw [htree2] at e
  simp only [Option.some.injEq] at e
  subst e
  simp only [List.nil_append] at hsl
  have hall : getAllTransactions b.txMerkleTree = txs.take (2 ^ 3) :=
    getAllTransactions_of_slots _ _ _ hsl
  unfold rerun at hr
  rw [e8] at hr
  dsimp only at hr
  rw [hall] at hr
  obtain ⟨i1, i2, i3, i4, i5, i6⟩ := rerunLoop_true_tree hash sufficientFunds _ _ _ hr
  dsimp only at i1 i2 i3 i4 i5 i6
  rw [etake] at i1
  simp only [Option.some.injEq] at i1
  refine ⟨by rw [← i1], by rw [← i1], by rw [← i1], i1.symm, ?_⟩
  intro hg
  have hg1 : isGenesisBlock b1 = false := by
    unfold isGenesisBlock at hg ⊢
    rw [i3]; exact hg
  have ej : toJSON b1 = toJSON b := by
    unfold toJSON
    rw [hg, hg1, i2, i3, i4, i5, i6, ← i1]
    simp
  unfold hashVal serialize
  rw [ej]
  exact ⟨rfl, rfl⟩

/-! ## Texts joined by a comma -/

theorem list_split_at_first {α : Type} (c : α) : ∀ (xs xs2 ys ys2 : List α),
    c ∉ xs → c ∉ xs2 → xs ++ c :: ys = xs2 ++ c :: ys2 → xs = xs2 ∧ ys = ys2 := by
  intro xs
  induction xs with
  | nil =>
    intro xs2 ys ys2 _ h2 h
    cases xs2 with
    | nil => simpa using h
    | cons a rest =>
      simp only [List.nil_append, List.cons_append, List.cons.injEq] at h
      exact absurd (List.mem_cons.2 (Or.inl h.1)) h2
  | cons x rest ih =>
    intro xs2 ys ys2 h1 h2 h
    cases xs2 with
    | nil =>
      simp only [List.nil_append, List.cons_append, List.cons.injEq] at h
      exact absurd (List.mem_cons.2 (Or.inl h.1.symm)) h1
    | cons a rest2 =>
      simp only [List.cons_append, List.cons.injEq] at h
      obtain ⟨e1, e2⟩ := ih rest2 ys ys2 (fun hm => h1 (List.mem_cons_of_mem _ hm))
        (fun hm => h2 (List.mem_cons_of_mem _ hm)) h.2
      exact ⟨by rw [h.1, e1], e2⟩

/-- Two texts without comma joined by a comma determine both texts. -/
theorem pair_text_inj (a b c d : String) (ha : CommaFree a) (hc : CommaFree c)
    (h : a ++ "," ++ b = c ++ "," ++ d) : a = c ∧ b = d := by
  have h2 : a.data ++ ',' :: b.data = c.data ++ ',' :: d.data := by
    have := congrArg String.data h
    simpa using this
  obtain ⟨e1, e2⟩ := list_split_at_first ',' _ _ _ _ ha hc h2
  exact ⟨String.ext e1, String.ext e2⟩

/-- A text without comma is not two texts joined by a comma. -/
theorem commaFree_ne_pair (x a b : String) (hx : CommaFree x) : x ≠ a ++ "," ++ b := by
  intro h
  apply hx
  rw [h]
  simp

/-! ## Levels of the packed tree -/

theorem atDepth_left (d p : Nat) (h : AtDepth d p) : AtDepth (d + 1) (2 * p + 1) := by
  unfold AtDepth at *
  rw [pow_succ, pow_succ (n := d + 1)]
  omega

theorem atDepth_right (d p : Nat) (h : AtDepth d p) : AtDepth (d + 1) (2 * p + 2) := by
  unfold AtDepth at *
  rw [pow_succ, pow_succ (n := d + 1)]
  omega

theorem atDepth_unique (d d2 p : Nat) (h1 : AtDepth d p) (h2 : AtDepth d2 p) : d = d2 := by
  unfold AtDepth at *
  rcases Nat.lt_trichotomy d d2 with h | h | h
  · have : 2 ^ (d + 1) ≤ 2 ^ d2 := Nat.pow_le_pow_right (by norm_num) h
    omega
  · exact h
  · have : 2 ^ (d2 + 1) ≤ 2 ^ d := Nat.pow_le_pow_right (by norm_num) h
    omega

theorem atDepth_exists : ∀ (p : Nat), ∃ d, AtDepth d p := by
  intro p
  induction p using Nat.strong_induction_on with
  | _ p ih =>
    by_cases hp : p = 0
    · subst hp
      exact ⟨0, by unfold AtDepth; norm_num⟩
    · obtain ⟨d, hd⟩ := ih ((p - 1) / 2) (by omega)
      by_cases hodd : p % 2 = 1
      · have e : p = 2 * ((p - 1) / 2) + 1 := by omega
        exact ⟨d + 1, by rw [e]; exact atDepth_left d _ hd⟩
      · have e : p = 2 * ((p - 1) / 2) + 2 := by omega
        exact ⟨d + 1, by rw [e]; exact atDepth_right d _ hd⟩

theorem atDepth_le_of_valid (k d p : Nat) (h : AtDepth d p) (hp : p + 2 ≤ 2 * 2 ^ k) : d ≤ k := by
  unfold AtDepth at h
  by_contra hcon
  have : 2 ^ (k + 1) ≤ 2 ^ d := Nat.pow_le_pow_right (by norm_num) (by omega)
  rw [pow_succ] at this
  omega

theorem atDepth_leaf_iff (k p : Nat) : AtDepth k p ↔ 2 ^ k ≤ p + 1 ∧ p + 2 ≤ 2 * 2 ^ k := by
  unfold AtDepth
  rw [pow_succ]
  omega

theorem atDepth_inner (k d p : Nat) (h : AtDepth d p) (hd : d < k) : p + 2 ≤ 2 ^ k := by
  unfold AtDepth at h
  have : 2 ^ (d + 1) ≤ 2 ^ k := Nat.pow_le_pow_right (by norm_num) hd
  omega

theorem atDepth_zero (p : Nat) : AtDepth 0 p ↔ p = 0 := by
  unfold AtDepth
  norm_num
  omega

theorem atDepth_one (p : Nat) : AtDepth 1 p ↔ p = 1 ∨ p = 2 := by
  unfold AtDepth
  norm_num
  omega

/-- The parent of an index below the root lies one level higher. -/
theorem atDepth_parent (d p : Nat) (h : AtDepth (d + 1) p) : AtDepth d ((p - 1) / 2) := by
  unfold AtDepth at *
  rw [pow_succ] at h
  rw [pow_succ (n := d + 1)] at h
  rw [pow_succ]
  omega

/-! ## The hashes of a tree that `build` has made -/

theorem leafHash_eq (hash : String → String) (v : Option Transaction) :
    leafHash hash v = hash (leafText v) := by
  cases v <;> rfl

theorem leafText_commaFree (t : FixedMerkleTree) (hids : IdsOk t) (v : Option Transaction)
    (hv : v ∈ t.transactions) : CommaFree (leafText v) := by
  cases v with
  | none => unfold leafText CommaFree; decide
  | some tx => exact hids tx hv

/-- A leaf entry of the array is the hash of the text of its slot. -/
theorem leaf_entry (hash : String → String) (k : Nat) (t : FixedMerkleTree)
    (hinv : TreeInv hash k t) (p : Nat) (hp : AtDepth k p) :
    ∃ v, v ∈ t.transactions ∧ t.transactions[p - (2 ^ k - 1)]? = some v ∧
      arrGet t.hashes p = some (hash (leafText v)) := by
  rw [atDepth_leaf_iff] at hp
  obtain ⟨v, hv1, hv2⟩ := hinv.2.2.2.1 (p - (2 ^ k - 1)) (by omega)
  have e : 2 ^ k - 1 + (p - (2 ^ k - 1)) = p := by omega
  rw [e, leafHash_eq] at hv2
  exact ⟨v, List.getElem?_mem hv1, hv1, hv2⟩

/-- An inner entry of the array is the hash of its children joined by a comma. -/
theorem inner_entry (hash : String → String) (k : Nat) (t : FixedMerkleTree)
    (hinv : TreeInv hash k t) (d p : Nat) (hp : AtDepth d p) (hd : d < k) :
    arrGet t.hashes p = some (hash (jsStr (arrGet t.hashes (2 * p + 1)) ++ "," ++
      jsStr (arrGet t.hashes (2 * p + 2)))) :=
  hinv.2.2.2.2 p (atDepth_inner k d p hp hd)

/-- Every entry of the array is a value of the hash function. -/
theorem entry_is_hash (hash : String → String) (k : Nat) (t : FixedMerkleTree)
    (hinv : TreeInv hash k t) (d p : Nat) (hp : AtDepth d p) (hd : d ≤ k) :
    ∃ s, arrGet t.hashes p = some (hash s) := by
  by_cases hk : d = k
  · subst hk
    obtain ⟨v, _, _, hv⟩ := leaf_entry hash d t hinv p hp
    exact ⟨_, hv⟩
  · exact ⟨_, inner_entry hash k t hinv d p hp (by omega)⟩

theorem entry_commaFree (hash : String → String) (k : Nat) (t : FixedMerkleTree)
    (hinv : TreeInv hash k t) (hok : HashOk hash) (d p : Nat) (hp : AtDepth d p) (hd : d ≤ k) :
    CommaFree (jsStr (arrGet t.hashes p)) := by
  obtain ⟨s, hs⟩ := entry_is_hash hash k t hinv d p hp hd
  rw [hs]
  exact hok.2 s

theorem entry_eq_of_jsStr (hash : String → String) (k : Nat) (t : FixedMerkleTree)
    (hinv : TreeInv hash k t) (d d2 p q : Nat) (hp : AtDepth d p) (hd : d ≤ k)
    (hq : AtDepth d2 q) (hd2 : d2 ≤ k)
    (h : jsStr (arrGet t.hashes p) = jsStr (arrGet t.hashes q)) :
    arrGet t.hashes p = arrGet t.hashes q := by
  obtain ⟨s, hs⟩ := entry_is_hash hash k t hinv d p hp hd
  obtain ⟨s2, hs2⟩ := entry_is_hash hash k t hinv d2 q hq hd2
  rw [hs, hs2] at h ⊢
  simp only [jsStr] at h
  rw [h]

/-- An entry that is the hash of two texts joined by a comma belongs to an inner node
whose children hold these two texts. -/
theorem node_of_pair_hash (hash : String → String) (k : Nat) (t : FixedMerkleTree)
    (hinv : TreeInv hash k t) (hok : HashOk hash) (hids : IdsOk t) (d q : Nat)
    (hq : AtDepth d q) (hd : d ≤ k) (a b : String) (ha : CommaFree a)
    (h : arrGet t.hashes q = some (hash (a ++ "," ++ b))) :
    d < k ∧ jsStr (arrGet t.hashes (2 * q + 1)) = a ∧ jsStr (arrGet t.hashes (2 * q + 2)) = b := by
  by_cases hk : d = k
  · subst hk
    exfalso
    obtain ⟨v, hv, _, hv2⟩ := leaf_entry hash d t hinv q hq
    rw [hv2] at h
    have := hok.1 (Option.some.inj h)
    exact commaFree_ne_pair _ a b (leafText_commaFree t hids v hv) this
  · have hlt : d < k := by omega
    refine ⟨hlt, ?_⟩
    have h2 := inner_entry hash k t hinv d q hq hlt
    rw [h2] at h
    have h3 := hok.1 (Option.some.inj h)
    exact pair_text_inj _ _ _ _
      (entry_commaFree hash k t hinv hok (d + 1) _ (atDepth_left d q hq) (by omega)) ha h3

/-- Entries with the same hash lie on the same level. -/
theorem depth_of_equal_hash (hash : String → String) (k : Nat) (t : FixedMerkleTree)
    (hinv : TreeInv hash k t) (hok : HashOk hash) (hids : IdsOk t) :
    ∀ (h : Nat), h ≤ k → ∀ (p q d2 : Nat), AtDepth (k - h) p → AtDepth d2 q → d2 ≤ k →
    arrGet t.hashes p = arrGet t.hashes q → d2 = k - h := by
  intro h
  induction h with
  | zero =>
    intro _ p q d2 hp hq hd2 he
    simp only [Nat.sub_zero] at hp ⊢
    obtain ⟨v, hv, _, hv2⟩ := leaf_entry hash k t hinv p hp
    by_contra hne
    have hlt : d2 < k := by omega
    have h2 := inner_entry hash k t hinv d2 q hq hlt
    rw [hv2, h2] at he
    have := hok.1 (Option.some.inj he)
    exact commaFree_ne_pair _ _ _ (leafText_commaFree t hids v hv) this
  | succ h ih =>
    intro hk p q d2 hp hq hd2 he
    have hp2 := inner_entry hash k t hinv (k - (h + 1)) p hp (by omega)
    rw [he] at hp2
    obtain ⟨hlt, e1, _⟩ := node_of_pair_hash hash k t hinv hok hids d2 q hq hd2 _ _
      (entry_commaFree hash k t hinv hok (k - (h + 1) + 1) _ (atDepth_left _ p hp) (by omega)) hp2
    have hpl : AtDepth (k - h) (2 * p + 1) := by
      have e : k - h = k - (h + 1) + 1 := by omega
      rw [e]; exact atDepth_left _ p hp
    have hql : AtDepth (d2 + 1) (2 * q + 1) := atDepth_left _ q hq
    have he2 : arrGet t.hashes (2 * p + 1) = arrGet t.hashes (2 * q + 1) :=
      (entry_eq_of_jsStr hash k t hinv _ _ _ _ hql (by omega) hpl (by omega) e1).symm
    have := ih (by omega) (2 * p + 1) (2 * q + 1) (d2 + 1) hpl hql (by omega) he2
    omega

theorem same_depth_of_equal_hash (hash : String → String) (k : Nat) (t : FixedMerkleTree)
    (hinv : TreeInv hash k t) (hok : HashOk hash) (hids : IdsOk t) (d d2 p q : Nat)
    (hp : AtDepth d p) (hd : d ≤ k) (hq : AtDepth d2 q) (hd2 : d2 ≤ k)
    (he : arrGet t.hashes p = arrGet t.hashes q) : d2 = d := by
  have := depth_of_equal_hash hash k t hinv hok hids (k - d) (by omega) p q d2
    (by have e : k - (k - d) = d := by omega
        rw [e]; exact hp) hq hd2 he
  omega

/-! ## The search of `getPath` -/

theorem contains_iff_mem (hashes : List (Option String)) (a : Option String) :
    hashes.contains a = true ↔ a ∈ hashes := by
  simp

theorem contains_entry (hashes : List (Option String)) (x : String) :
    hashes.contains (some x) = true ↔ ∃ q, q < hashes.length ∧ arrGet hashes q = some x := by
  rw [contains_iff_mem, List.mem_iff_getElem?]
  constructor
  · rintro ⟨q, hq⟩
    have hlt : q < hashes.length := by
      by_contra hcon
      rw [List.getElem?_eq_none (by omega)] at hq
      exact absurd hq (by simp)
    exact ⟨q, hlt, by unfold arrGet; rw [hq]; rfl⟩
  · rintro ⟨q, _, hq⟩
    refine ⟨q, ?_⟩
    unfold arrGet at hq
    cases h : hashes[q]? with
    | none => rw [h] at hq; simp at hq
    | some v =>
      rw [h] at hq
      simp at hq
      rw [hq]

theorem arrGet_cons_zero (y : Option String) (rest : List (Option String)) :
    arrGet (y :: rest) 0 = y := by
  unfold arrGet
  simp

theorem arrGet_cons_succ (y : Option String) (rest : List (Option String)) (q : Nat) :
    arrGet (y :: rest) (q + 1) = arrGet rest q := by
  unfold arrGet
  simp

/-- The position that `indexOf` returns is the first one that holds the value. -/
theorem indexOf_entry : ∀ (hashes : List (Option String)) (x : String),
    hashes.contains (some x) = true →
    hashes.indexOf (some x) < hashes.length ∧
    arrGet hashes (hashes.indexOf (some x)) = some x ∧
    ∀ q, q < hashes.indexOf (some x) → arrGet hashes q ≠ some x := by
  intro hashes
  induction hashes with
  | nil => intro x h; simp at h
  | cons y rest ih =>
    intro x h
    rw [List.indexOf_cons]
    by_cases hy : y = some x
    · subst hy
      simp only [beq_self_eq_true, cond_true]
      exact ⟨by simp, arrGet_cons_zero _ _, fun q hq => by omega⟩
    · have hb : (y == some x) = false := by simpa using hy
      simp only [hb, cond_false]
      have hrest : rest.contains (some x) = true := by
        rw [contains_iff_mem] at h ⊢
        simp only [List.mem_cons] at h
        rcases h with h | h
        · exact absurd h.symm hy
        · exact h
      obtain ⟨i1, i2, i3⟩ := ih x hrest
      refine ⟨by simp; omega, by rw [arrGet_cons_succ]; exact i2, ?_⟩
      intro q hq
      cases q with
      | zero => rw [arrGet_cons_zero]; exact hy
      | succ q => rw [arrGet_cons_succ]; exact i3 q (by omega)

/-- The search of `getPath` from an index below the root of a tree that `build` has
made: it ends after as many rounds as the index lies below the root, every round
adds one entry, and the last entry added is 1 or 2. -/
theorem getPathLoop_reaches_root (hash : String → String) (k : Nat) (t : FixedMerkleTree)
    (hinv : TreeInv hash k t) (hok : HashOk hash) (hids : IdsOk t) :
    ∀ (d : Nat), d ≤ k → ∀ (c fuel : Nat) (path : List (Option Nat)), AtDepth d c → d + 1 ≤ fuel →
    ∃ temps, getPathLoop hash t.hashes fuel (some c) path = some (path ++ temps) ∧
      temps.length = d ∧ (1 ≤ d → some 1 ∈ temps ∨ some 2 ∈ temps) := by
  have hlen : t.hashes.length = 2 * 2 ^ k - 1 := hinv.2.2.1
  have hn : 1 ≤ 2 ^ k := Nat.one_le_two_pow
  -- an index with an entry is valid and lies on a level of the tree
  have hvalid : ∀ q, q < t.hashes.length → ∃ dq, AtDepth dq q ∧ dq ≤ k := by
    intro q hq
    obtain ⟨dq, hdq⟩ := atDepth_exists q
    exact ⟨dq, hdq, atDepth_le_of_valid k dq q hdq (by omega)⟩
  intro d
  induction d with
  | zero =>
    intro _ c fuel path hc hf
    rw [atDepth_zero] at hc
    subst hc
    obtain ⟨f, rfl⟩ : ∃ f, fuel = f + 1 := ⟨fuel - 1, by omega⟩
    exact ⟨[], by simp [getPathLoop], rfl, fun h => absurd h (by norm_num)⟩
  | succ d ih =>
    intro hd c fuel path hc hf
    obtain ⟨f, rfl⟩ : ∃ f, fuel = f + 1 := ⟨fuel - 1, by omega⟩
    have hc1 : 1 ≤ c := by
      unfold AtDepth at hc
      have : 2 ^ 1 ≤ 2 ^ (d + 1) := Nat.pow_le_pow_right (by norm_num) (by omega)
      omega
    have hcv : c < t.hashes.length := by
      rw [hlen]
      have h1 := hc.2
      have : 2 ^ (d + 1 + 1) ≤ 2 ^ (k + 1) := Nat.pow_le_pow_right (by norm_num) (by omega)
      rw [pow_succ (n := k)] at this
      omega
    have hpar : AtDepth d ((c - 1) / 2) := atDepth_parent d c hc
    have hparent := inner_entry hash k t hinv d ((c - 1) / 2) hpar (by omega)
    have hcf : ∀ q dq, AtDepth dq q → dq ≤ k → CommaFree (jsStr (arrGet t.hashes q)) :=
      fun q dq h1 h2 => entry_commaFree hash k t hinv hok dq q h1 h2
    -- the sibling is a partner
    have hsib : ∃ s, s < t.hashes.length ∧
        t.hashes.contains (some (pairCheck hash t.hashes (some c) s)) = true := by
      by_cases hodd : c % 2 = 1
      · refine ⟨c + 1, ?_, ?_⟩
        · have := hc.2
          unfold AtDepth at hpar
          have h2 : 2 ^ (d + 1 + 1) ≤ 2 ^ (k + 1) :=
            Nat.pow_le_pow_right (by norm_num) (by omega)
          rw [pow_succ (n := k)] at h2
          rw [hlen]
          have h3 : (c + 1) % 2 = 0 := by omega
          have h4 : 2 ^ (d + 1 + 1) % 2 = 0 := by rw [pow_succ]; omega
          omega
        · rw [contains_entry]
          refine ⟨(c - 1) / 2, by omega, ?_⟩
          rw [hparent]
          have e1 : 2 * ((c - 1) / 2) + 1 = c := by omega
          have e2 : 2 * ((c - 1) / 2) + 2 = c + 1 := by omega
          simp only [pairCheck, e1, e2, show c < c + 1 by omega, if_true]
      · refine ⟨c - 1, by omega, ?_⟩
        rw [contains_entry]
        refine ⟨(c - 1) / 2, by omega, ?_⟩
        rw [hparent]
        have e1 : 2 * ((c - 1) / 2) + 1 = c - 1 := by omega
        have e2 : 2 * ((c - 1) / 2) + 2 = c := by omega
        simp only [pairCheck, e1, e2, show ¬ c < c - 1 by omega, if_false]
    -- what a partner `j` tells about the node whose hash was found
    have hpartner : ∀ j, j < t.hashes.length →
        t.hashes.contains (some (pairCheck hash t.hashes (some c) j)) = true →
        j ≠ 0 ∧ AtDepth d (t.hashes.indexOf (some (pairCheck hash t.hashes (some c) j))) ∧
        (d = 0 → j = 1 ∨ j = 2) := by
      intro j hj hcont
      obtain ⟨i1, i2, _⟩ := indexOf_entry t.hashes _ hcont
      obtain ⟨q0, hq0⟩ : ∃ q0, q0 = t.hashes.indexOf (some (pairCheck hash t.hashes (some c) j)) :=
        ⟨_, rfl⟩
      rw [← hq0] at i1 i2 ⊢
      obtain ⟨dq, hdq, hdqk⟩ := hvalid q0 i1
      obtain ⟨dj, hdj, hdjk⟩ := hvalid j hj
      by_cases hlt : c < j
      · simp only [pairCheck, hlt, if_true] at i2
        obtain ⟨n1, n2, n3⟩ := node_of_pair_hash hash k t hinv hok hids dq q0 hdq hdqk _ _
          (hcf c (d + 1) hc hd) i2
        have e1 := entry_eq_of_jsStr hash k t hinv _ _ _ _ (atDepth_left dq q0 hdq) (by omega)
          hc hd n2
        have e2 := entry_eq_of_jsStr hash k t hinv _ _ _ _ (atDepth_right dq q0 hdq) (by omega)
          hdj hdjk n3
        have s1 := same_depth_of_equal_hash hash k t hinv hok hids _ _ _ _
          (atDepth_left dq q0 hdq) (by omega) hc hd e1
        have s2 := same_depth_of_equal_hash hash k t hinv hok hids _ _ _ _
          (atDepth_right dq q0 hdq) (by omega) hdj hdjk e2
        have hdqd : dq = d := by omega
        subst hdqd
        refine ⟨by omega, hdq, ?_⟩
        intro h0
        subst h0
        rw [show dj = 1 by omega] at hdj
        exact (atDepth_one j).1 hdj
      · simp only [pairCheck, hlt, if_false] at i2
        obtain ⟨n1, n2, n3⟩ := node_of_pair_hash hash k t hinv hok hids dq q0 hdq hdqk _ _
          (hcf j dj hdj hdjk) i2
        have e1 := entry_eq_of_jsStr hash k t hinv _ _ _ _ (atDepth_left dq q0 hdq) (by omega)
          hdj hdjk n2
        have e2 := entry_eq_of_jsStr hash k t hinv _ _ _ _ (atDepth_right dq q0 hdq) (by omega)
          hc hd n3
        have s1 := same_depth_of_equal_hash hash k t hinv hok hids _ _ _ _
          (atDepth_left dq q0 hdq) (by omega) hdj hdjk e1
        have s2 := same_depth_of_equal_hash hash k t hinv hok hids _ _ _ _
          (atDepth_right dq q0 hdq) (by omega) hc hd e2
        have hdqd : dq = d := by omega
        subst hdqd
        refine ⟨?_, hdq, ?_⟩
        · intro hj0
          subst hj0
          have : dj = 0 := atDepth_unique _ _ _ hdj ((atDepth_zero 0).2 rfl)
          omega
        · intro h0
          subst h0
          rw [show dj = 1 by omega] at hdj
          exact (atDepth_one j).1 hdj
    -- the round of the loop
    obtain ⟨s, hs1, hs2⟩ := hsib
    cases hfind : (List.range t.hashes.length).find?
        (fun j => t.hashes.contains (some (pairCheck hash t.hashes (some c) j))) with
    | none =>
      exfalso
      rw [List.find?_eq_none] at hfind
      exact hfind s (List.mem_range.2 hs1) hs2
    | some j =>
      obtain ⟨p1, p2, _⟩ := List.find?_range_eq_some.1 hfind
      rw [List.mem_range] at p2
      obtain ⟨j0, jd, j12⟩ := hpartner j p2 p1
      obtain ⟨temps, ht1, ht2, ht3⟩ := ih (by omega)
        (t.hashes.indexOf (some (pairCheck hash t.hashes (some c) j))) f
        (path ++ [some j]) jd (by omega)
      refine ⟨some j :: temps, ?_, by simp [ht2], ?_⟩
      · rw [getPathLoop]
        have hne : (some c : Option Nat) ≠ some 0 := by
          intro h; simp at h; omega
        simp only [hne, if_false, searchStep, hfind, j0]
        rw [ht1]
        simp
      · intro _
        by_cases hd0 : d = 0
        · rcases j12 hd0 with h | h
          · left; rw [h]; exact List.mem_cons_self _ _
          · right; rw [h]; exact List.mem_cons_self _ _
        · rcases ht3 (by omega) with h | h
          · left; exact List.mem_cons_of_mem _ h
          · right; exact List.mem_cons_of_mem _ h

/-! ## The lookup table of a tree that `build` has made -/

/-- What `build` leaves, on a tree whose lookup table holds leaf indices only. -/
theorem build_ready (hash : String → String) (t : FixedMerkleTree) (k : Nat)
    (hmax : t.maxTransactions = 2 ^ k) (hlen : t.transactions.length = 2 ^ k)
    (hh : t.hashes.length ≤ 2 * 2 ^ k - 1)
    (hl : ∀ key v, mapGet t.lookup key = some v → AtDepth k v) :
    ∃ t1, build hash t = some t1 ∧ TreeReady hash k t1 ∧ t1.transactions = t.transactions ∧
      (∀ key, (mapGet t.lookup key).isSome = true → (mapGet t1.lookup key).isSome = true) := by
  obtain ⟨hs, lk, e, c1, c2, c3, c4, c5⟩ := build_spec hash t k hmax hlen hh
  have hn : 1 ≤ 2 ^ k := Nat.one_le_two_pow
  have hkey : ∀ key, (∃ v ∈ t.transactions, leafHash hash v = key) ∨
      (∀ v ∈ t.transactions, leafHash hash v ≠ key) := by
    intro key
    by_cases h : ∃ v ∈ t.transactions, leafHash hash v = key
    · exact Or.inl h
    · right
      intro v hv hcon
      exact h ⟨v, hv, hcon⟩
  refine ⟨_, e, ⟨⟨hmax, hlen, c1, c2, c3⟩, ?_, c5⟩, rfl, ?_⟩
  · intro key v hv
    rcases hkey key with ⟨w, hw, rfl⟩ | hno
    · obtain ⟨s, hs1, _, _, _, hs2⟩ := c5 w hw
      have hv2 : mapGet lk (leafHash hash w) = some v := hv
      rw [hs2] at hv2
      have := Option.some.inj hv2
      rw [atDepth_leaf_iff]
      omega
    · have hv2 : mapGet lk key = some v := hv
      rw [c4 key hno] at hv2
      exact hl key v hv2
  · intro key hk
    rcases hkey key with ⟨w, hw, rfl⟩ | hno
    · obtain ⟨s, _, _, _, _, hs2⟩ := c5 w hw
      show (mapGet lk (leafHash hash w)).isSome = true
      rw [hs2]; rfl
    · show (mapGet lk key).isSome = true
      rw [c4 key hno]; exact hk

theorem new_ready (hash : String → String) (k : Nat) :
    ∃ t, FixedMerkleTree.new hash (2 ^ k) = some t ∧ TreeReady hash k t ∧
      t.transactions = List.replicate (2 ^ k) none := by
  obtain ⟨t1, e, hr, hs, _⟩ := build_ready hash
    { maxTransactions := 2 ^ k, transactions := List.replicate (2 ^ k) none, hashes := [],
      lookup := [] } k rfl (by simp) (by simp) (by intro key v h; simp [mapGet] at h)
  exact ⟨t1, e, hr, hs⟩

/-- What `addTx` does to a tree that `build` has made: it returns a tree that `build`
has made, keeps the keys of the lookup table and keeps the identities without comma
when the new identity has none. -/
theorem addTx_ready (hash : String → String) (k : Nat) (t : FixedMerkleTree) (tx : Transaction)
    (h : TreeReady hash k t) :
    ∃ t1, addTx hash t tx = some t1 ∧ TreeReady hash k t1 ∧
      (∀ key, (mapGet t.lookup key).isSome = true → (mapGet t1.lookup key).isSome = true) ∧
      (IdsOk t → CommaFree tx.getid → IdsOk t1) := by
  obtain ⟨⟨h1, h2, h3, h4, h5⟩, hl, hx⟩ := h
  unfold addTx
  by_cases hf : isFull t = true
  · simp only [hf, if_true]
    exact ⟨t, rfl, ⟨⟨h1, h2, h3, h4, h5⟩, hl, hx⟩, fun _ hk => hk, fun hi _ => hi⟩
  · simp only [hf]
    obtain ⟨t1, e, hr, hs, hk⟩ := build_ready hash
      { t with transactions := fillFirstEmpty tx t.maxTransactions t.transactions } k h1
      (by simp [fillFirstEmpty_length, h2]) (by simp [h3]) hl
    refine ⟨t1, e, hr, hk, ?_⟩
    intro hids hcf
    have hf2 : isFull t = false := by simpa using hf
    obtain ⟨h0, hlast⟩ := (isFull_false_iff t).1 hf2
    obtain ⟨s, _, _, _, s4⟩ :=
      fillFirstEmpty_spec tx t.maxTransactions t.transactions (t.maxTransactions - 1)
        (by omega) hlast
    intro tx2 hmem
    rw [hs] at hmem
    have hmem2 : some tx2 ∈ t.transactions.set s (some tx) := by rw [← s4]; exact hmem
    rcases List.mem_or_eq_of_mem_set hmem2 with hm | hm
    · exact hids tx2 hm
    · rw [Option.some.inj hm]; exact hcf

/-! ## `isValid` -/

/-- In a tree that `build` has made, with a hash function without collisions whose
values hold no comma and identities without comma, `getPath` of a transaction that the
tree has under its hash returns a path of `k + 1` entries that holds 1 or 2, and
`verify` accepts it. -/
theorem verify_getPath_of_has (hash : String → String) (k : Nat) (hk : 1 ≤ k)
    (t : FixedMerkleTree) (hr : TreeReady hash k t) (hok : HashOk hash) (hids : IdsOk t)
    (tx : Transaction) (hhas : has hash t tx = true) (fuel : Nat) (hfuel : k + 1 ≤ fuel) :
    ∃ path, getPath hash fuel t tx = some path ∧ verify hash t tx path = true := by
  unfold has at hhas
  cases hi : mapGet t.lookup (hash tx.getid) with
  | none => rw [hi] at hhas; simp at hhas
  | some i =>
    have hdi : AtDepth k i := hr.2.1 _ _ hi
    obtain ⟨temps, e, hlen, hlast⟩ := getPathLoop_reaches_root hash k t hr.1 hok hids k (le_refl _)
      i fuel [some i] hdi hfuel
    refine ⟨{ txInd := some i, Path := [some i] ++ temps }, by simp [getPath, hi, e], ?_⟩
    match temps, hlen, hlast with
    | [], hlen, _ => simp at hlen; omega
    | y :: rest, _, hlast =>
      simp only [List.singleton_append]
      rw [verify_two_entries]
      rcases hlast hk with h | h
      · have : (some i :: y :: rest).contains (some 1) = true := by
          rw [List.contains_iff_exists_mem_beq]
          exact ⟨some 1, List.mem_cons_of_mem _ h, by simp⟩
        rw [this]
        rfl
      · have : (some i :: y :: rest).contains (some 2) = true := by
          rw [List.contains_iff_exists_mem_beq]
          exact ⟨some 2, List.mem_cons_of_mem _ h, by simp⟩
        rw [this]
        simp

/-- A run of `addTransaction` calls on a block whose tree `build` has made, with
identities without comma: the tree at the end is one that `build` has made, what the
tree had under its hash it still has, and every accepted transaction is in it. -/
theorem submitAll_ready (hash : String → String) (sufficientFunds : Transaction → Block → Bool)
    (k : Nat) : ∀ (txs : List Transaction) (b b1 : Block) (rs : List Bool),
    TreeReady hash k b.txMerkleTree → IdsOk b.txMerkleTree →
    (∀ tx ∈ txs, CommaFree tx.getid) →
    submitAll hash sufficientFunds b txs = some (rs, b1) →
    TreeReady hash k b1.txMerkleTree ∧ IdsOk b1.txMerkleTree ∧
    (∀ tx, has hash b.txMerkleTree tx = true → has hash b1.txMerkleTree tx = true) ∧
    (∀ i : Nat, rs[i]? = some true →
      ∃ tx, txs[i]? = some tx ∧ has hash b1.txMerkleTree tx = true) := by
  intro txs
  induction txs with
  | nil =>
    intro b b1 rs hr hi _ h
    simp only [submitAll, Option.some.injEq, Prod.mk.injEq] at h
    obtain ⟨h1, h2⟩ := h
    subst h1 h2
    exact ⟨hr, hi, fun _ h => h, fun i h => by simp at h⟩
  | cons tx rest ih =>
    intro b b1 rs hr hi hcf h
    simp only [submitAll] at h
    cases hx : addTransaction hash sufficientFunds b tx with
    | none => rw [hx] at h; exact absurd h (by simp)
    | some p =>
      obtain ⟨r, b2⟩ := p
      rw [hx] at h
      dsimp only at h
      cases hy : submitAll hash sufficientFunds b2 rest with
      | none => rw [hy] at h; exact absurd h (by simp)
      | some q =>
        obtain ⟨rs2, b3⟩ := q
        rw [hy] at h
        simp only [Option.some.injEq, Prod.mk.injEq] at h
        obtain ⟨h1, h2⟩ := h
        subst h1 h2
        have hstep : TreeReady hash k b2.txMerkleTree ∧ IdsOk b2.txMerkleTree ∧
            (∀ tx2, has hash b.txMerkleTree tx2 = true → has hash b2.txMerkleTree tx2 = true) ∧
            (r = true → has hash b2.txMerkleTree tx = true) := by
          cases r with
          | false =>
            obtain ⟨e, _⟩ := addTransaction_false_eq hash sufficientFunds b b2 tx hx
            subst e
            exact ⟨hr, hi, fun _ h => h, fun h => absurd h (by simp)⟩
          | true =>
            obtain ⟨ha, tree, e, hb⟩ := addTransaction_true_eq hash sufficientFunds b b2 tx hx
            obtain ⟨t1, e1, r1, k1, i1⟩ := addTx_ready hash k b.txMerkleTree tx hr
            rw [e] at e1
            simp only [Option.some.injEq] at e1
            subst e1
            have ht : b2.txMerkleTree = tree := by rw [hb]; rfl
            rw [ht]
            exact ⟨r1, i1 hi (hcf tx (List.mem_cons_self _ _)), fun tx2 h => k1 _ h,
              fun _ => addTx_has hash b.txMerkleTree tree tx ha.2.2.2.2.1 e⟩
        obtain ⟨s1, s2, s3, s4⟩ := hstep
        obtain ⟨j1, j2, j3, j4⟩ := ih b2 b3 rs2 s1 s2
          (fun tx2 h => hcf tx2 (List.mem_cons_of_mem _ h)) hy
        refine ⟨j1, j2, fun tx2 h => j3 tx2 (s3 tx2 h), ?_⟩
        intro i hi2
        cases i with
        | zero =>
          simp only [List.getElem?_cons_zero, Option.some.injEq] at hi2
          exact ⟨tx, by simp, j3 tx (s4 hi2)⟩
        | succ i =>
          simp only [List.getElem?_cons_succ] at hi2 ⊢
          exact j4 i hi2

/-- C19, as the code has it. Let the hash function have no collisions and values
without comma, and let a block be constructed and then be offered transactions whose
identities hold no comma. Then for every transaction `tx` whatever, `isValid(tx)` is
`contains(tx)`: a transaction under whose hash the tree has an entry gets a path
from `getPath` that `verify` accepts, and any other transaction gets false; and every
transaction that `addTransaction` accepted is contained and valid. -/
theorem C19_isValid_is_contains (hash : String → String) (stringify : BlockJSON → String)
    (sufficientFunds : Transaction → Block → Bool) (hok : HashOk hash)
    (rewardAddr : Option String) (prevBlock : Option Block) (target coinbaseReward : Int)
    (now : Nat) (txs : List Transaction) (hcf : ∀ tx ∈ txs, CommaFree tx.getid)
    (b0 b : Block) (rs : List Bool)
    (h0 : Block.new hash stringify rewardAddr prevBlock target coinbaseReward now = some b0)
    (hrun : submitAll hash sufficientFunds b0 txs = some (rs, b))
    (fuel : Nat) (hfuel : 4 ≤ fuel) :
    (∀ tx, isValid hash fuel b tx = some (contains hash b tx)) ∧
    (∀ i : Nat, rs[i]? = some true →
      ∃ tx, txs[i]? = some tx ∧ contains hash b tx = true ∧ isValid hash fuel b tx = some true) := by
  obtain ⟨t0, e0, hr0, hs0⟩ := new_ready hash 3
  obtain ⟨tree, et, enew⟩ := new_block_eq hash stringify rewardAddr prevBlock target
    coinbaseReward now
  have e8 : FixedMerkleTree.new hash MAX_BLOCK_TRANSACTIONS = some t0 := e0
  rw [e8] at et
  simp only [Option.some.injEq] at et
  subst et
  rw [enew] at h0
  simp only [Option.some.injEq] at h0
  have htree : b0.txMerkleTree = t0 := by rw [← h0]
  have hi0 : IdsOk b0.txMerkleTree := by
    intro tx hmem
    rw [htree, hs0] at hmem
    simp [List.mem_replicate] at hmem
  obtain ⟨j1, j2, _, j4⟩ := submitAll_ready hash sufficientFunds 3 txs b0 b rs
    (by rw [htree]; exact hr0) hi0 hcf hrun
  have hvalid : ∀ tx, isValid hash fuel b tx = some (contains hash b tx) := by
    intro tx
    unfold isValid
    by_cases hc : contains hash b tx = true
    · simp only [hc, if_true]
      obtain ⟨path, e1, e2⟩ := verify_getPath_of_has hash 3 (by norm_num) b.txMerkleTree j1 hok j2
        tx hc fuel hfuel
      rw [e1]
      simp [e2]
    · simp only [hc]
      simp at hc
      simp [hc]
  refine ⟨hvalid, ?_⟩
  intro i hi
  obtain ⟨tx, htx, hhas⟩ := j4 i hi
  have hc : contains hash b tx = true := hhas
  exact ⟨tx, htx, hc, by rw [hvalid tx, hc]⟩

/-! ## The toy hash functions -/

theorem escapeChars_commaFree : ∀ (l : List Char), ',' ∉ escapeChars l := by
  intro l
  induction l with
  | nil => simp [escapeChars]
  | cons c cs ih =>
    unfold escapeChars
    by_cases h1 : c = ','
    · simp [h1, ih]
    · by_cases h2 : c = '%'
      · simp [h2, ih]
      · simp only [h1, h2, if_false, List.singleton_append, List.mem_cons, not_or]
        exact ⟨fun h => h1 h.symm, ih⟩

theorem escapeChars_injective : ∀ (xs ys : List Char), escapeChars xs = escapeChars ys → xs = ys := by
  intro xs
  induction xs with
  | nil =>
    intro ys h
    cases ys with
    | nil => rfl
    | cons y ys =>
      unfold escapeChars at h
      split_ifs at h <;> simp at h
  | cons x xs ih =>
    intro ys h
    cases ys with
    | nil =>
      unfold escapeChars at h
      split_ifs at h <;> simp at h
    | cons y ys =>
      have hx : escapeChars (x :: xs) =
          (if x = ',' then ['%', 'c'] else if x = '%' then ['%', '%'] else [x]) ++ escapeChars xs := rfl
      have hy : escapeChars (y :: ys) =
          (if y = ',' then ['%', 'c'] else if y = '%' then ['%', '%'] else [y]) ++ escapeChars ys := rfl
      rw [hx, hy] at h
      by_cases x1 : x = ','
      · by_cases y1 : y = ','
        · simp only [x1, y1, if_true, List.cons_append, List.nil_append, List.cons.injEq,
            true_and] at h
          rw [x1, y1, ih ys h]
        · by_cases y2 : y = '%'
          · simp [x1, y2] at h
          · simp [x1, y1, y2] at h
            exact absurd h.1.symm y2
      · by_cases x2 : x = '%'
        · by_cases y1 : y = ','
          · simp [x2, y1] at h
          · by_cases y2 : y = '%'
            · simp only [x2, y2, if_true, List.cons_append, List.nil_append, List.cons.injEq,
                true_and, show ¬ ('%' : Char) = ',' by decide, if_false] at h
              rw [x2, y2, ih ys h]
            · simp [x2, y1, y2] at h
              exact absurd h.1.symm y2
        · by_cases y1 : y = ','
          · simp [x1, x2, y1] at h
          · by_cases y2 : y = '%'
            · simp [x1, x2, y2] at h
            · simp only [x1, x2, y1, y2, if_false, List.singleton_append, List.cons.injEq] at h
              rw [h.1, ih ys h.2]

theorem sampleDigest_ok : HashOk sampleDigest := by
  constructor
  · intro a b h
    unfold sampleDigest at h
    have h2 : escapeChars a.data = escapeChars b.data := by
      have := congrArg String.data h
      simpa using this
    exact String.ext (escapeChars_injective _ _ h2)
  · intro s
    unfold CommaFree sampleDigest
    exact escapeChars_commaFree _

theorem fixHash_injective : Function.Injective fixHash := by
  intro a b h
  unfold fixHash at h
  by_cases ha : a = fixId
  · by_cases hb : b = fixId
    · rw [ha, hb]
    · simp only [ha, hb, if_true, if_false] at h
      have := congrArg String.data h
      simp at this
  · by_cases hb : b = fixId
    · simp only [ha, hb, if_true, if_false] at h
      have := congrArg String.data h
      simp at this
    · simp only [ha, hb, if_false] at h
      have := congrArg String.data h
      simp only [String.data_append] at this
      have h2 : a.data = b.data := by
        simpa using this
      exact String.ext h2


/-- C19, as stated, fails: `fixHash` has no collisions; the block constructed from
`sampleBlock` accepts `fixA`, whose identity is `a`, and `fixTx`, whose identity is the
root of the resulting tree joined by a comma to the leaf hash of `fixA`; the block
contains `fixA`, and `isValid(fixA)` is false, the search of `getPath` ending at once
with the root as partner. -/
theorem C19_accepted_transaction_not_valid :
    Function.Injective fixHash ∧
    ((sampleChildOf fixHash).bind
      (fun b0 => submitAll fixHash sampleFunds b0 [fixA, fixTx])).map
        (fun r => (r.1, contains fixHash r.2 fixA, getPath fixHash 4 r.2.txMerkleTree fixA,
          isValid fixHash 4 r.2 fixA)) =
      some ([true, true], true, some { txInd := some 7, Path := [some 7] }, some false) :=
  ⟨fixHash_injective, by decide⟩

/-! ## The path of `getPath` in a tree of distinct transactions -/

theorem leftSpine_succ_child (j p : Nat) : leftSpine (j + 1) p = leftSpine j (2 * p + 1) := by
  induction j with
  | zero => rfl
  | succ j ih =>
    show 2 * leftSpine (j + 1) p + 1 = 2 * leftSpine j (2 * p + 1) + 1
    rw [ih]

theorem leftSpine_mono (j : Nat) {p q : Nat} (h : p ≤ q) : leftSpine j p ≤ leftSpine j q := by
  induction j with
  | zero => exact h
  | succ j ih => simp only [leftSpine]; omega

theorem atDepth_leftSpine (j : Nat) : ∀ (d p : Nat), AtDepth d p → AtDepth (d + j) (leftSpine j p) := by
  induction j with
  | zero => intro d p h; exact h
  | succ j ih =>
    intro d p h
    rw [leftSpine_succ_child]
    have := ih (d + 1) (2 * p + 1) (atDepth_left d p h)
    have e : d + (j + 1) = d + 1 + j := by omega
    rw [e]; exact this

theorem nodup_index (xs : List Transaction) (hn : (xs.map (fun tx => tx.getid)).Nodup)
    (a b : Nat) (x y : Transaction) (ha : xs[a]? = some x) (hb : xs[b]? = some y)
    (he : x.getid = y.getid) : a = b := by
  have hla : a < xs.length := by
    by_contra hcon
    rw [List.getElem?_eq_none (by omega)] at ha
    exact absurd ha (by simp)
  have hlb : b < xs.length := by
    by_contra hcon
    rw [List.getElem?_eq_none (by omega)] at hb
    exact absurd hb (by simp)
  rw [List.getElem?_eq_getElem hla] at ha
  rw [List.getElem?_eq_getElem hlb] at hb
  have hma : a < (xs.map (fun tx => tx.getid)).length := by simpa using hla
  have hmb : b < (xs.map (fun tx => tx.getid)).length := by simpa using hlb
  have ha2 : (xs.map (fun tx => tx.getid))[a] = x.getid := by
    simp [Option.some.inj ha]
  have hb2 : (xs.map (fun tx => tx.getid))[b] = y.getid := by
    simp [Option.some.inj hb]
  exact (List.Nodup.getElem_inj_iff hn).1 (by rw [ha2, hb2, he])

/-- A slot whose text is an identity other than the filler holds a transaction of the
filled part of the slots. -/
theorem slot_of_leafText (t : FixedMerkleTree) (xs : List Transaction) (m : Nat)
    (hsl : t.transactions = xs.map some ++ List.replicate m none) (a : Nat)
    (v : Option Transaction) (hv : t.transactions[a]? = some v) (hne : leafText v ≠ " ") :
    ∃ tx, v = some tx ∧ xs[a]? = some tx := by
  cases v with
  | none => exact absurd rfl hne
  | some tx =>
    refine ⟨tx, rfl, ?_⟩
    rw [hsl] at hv
    by_cases ha : a < xs.length
    · rw [List.getElem?_append_left (by simpa using ha)] at hv
      simp only [List.getElem?_map] at hv
      cases h : xs[a]? with
      | none => rw [h] at hv; simp at hv
      | some y =>
        rw [h] at hv
        simp only [Option.map_some', Option.some.injEq] at hv
        rw [hv]
    · rw [List.getElem?_append_right (by simp; omega)] at hv
      rw [List.getElem?_replicate] at hv
      split_ifs at hv
      simp at hv

/-- The entry of the leaf of a filled slot. -/
theorem filled_leaf_entry (hash : String → String) (k : Nat) (t : FixedMerkleTree)
    (hinv : TreeInv hash k t) (xs : List Transaction) (m : Nat)
    (hsl : t.transactions = xs.map some ++ List.replicate m none) (s : Nat) (tx : Transaction)
    (hs : xs[s]? = some tx) :
    s < 2 ^ k ∧ arrGet t.hashes (2 ^ k - 1 + s) = some (hash tx.getid) := by
  have hlt : s < xs.length := by
    by_contra hcon
    rw [List.getElem?_eq_none (by omega)] at hs
    exact absurd hs (by simp)
  have hlen : xs.length + m = 2 ^ k := by
    have := hinv.2.1
    rw [hsl] at this
    simpa using this
  have hsk : s < 2 ^ k := by omega
  obtain ⟨v, hv1, hv2⟩ := hinv.2.2.2.1 s hsk
  rw [hsl, List.getElem?_append_left (by simpa using hlt), List.getElem?_map, hs] at hv1
  simp only [Option.map_some', Option.some.injEq] at hv1
  rw [← hv1] at hv2
  exact ⟨hsk, hv2⟩

/-- The leaf of a filled slot is the only leaf with its hash. -/
theorem leaf_unique (hash : String → String) (k : Nat) (t : FixedMerkleTree)
    (hinv : TreeInv hash k t) (hok : HashOk hash) (xs : List Transaction) (m : Nat)
    (hsl : t.transactions = xs.map some ++ List.replicate m none) (hd : IdsDistinct xs)
    (s : Nat) (tx : Transaction) (hs : xs[s]? = some tx) (q : Nat) (hq : AtDepth k q)
    (he : arrGet t.hashes q = arrGet t.hashes (2 ^ k - 1 + s)) : q = 2 ^ k - 1 + s := by
  obtain ⟨_, hleaf⟩ := filled_leaf_entry hash k t hinv xs m hsl s tx hs
  obtain ⟨v, _, hv1, hv2⟩ := leaf_entry hash k t hinv q hq
  rw [hv2, hleaf] at he
  have htext : leafText v = tx.getid := hok.1 (Option.some.inj he)
  have hmem : tx ∈ xs := List.getElem?_mem hs
  obtain ⟨tx2, rfl, h2⟩ := slot_of_leafText t xs m hsl _ v hv1
    (by rw [htext]; exact (hd.2 tx hmem).2)
  have := nodup_index xs hd.1 _ _ _ _ h2 hs htext
  rw [atDepth_leaf_iff] at hq
  omega

/-- A node whose leftmost leaf belongs to a filled slot is the only node with its
hash. -/
theorem unique_of_leftSpine (hash : String → String) (k : Nat) (t : FixedMerkleTree)
    (hinv : TreeInv hash k t) (hok : HashOk hash) (hids : IdsOk t) (xs : List Transaction)
    (m : Nat) (hsl : t.transactions = xs.map some ++ List.replicate m none)
    (hd : IdsDistinct xs) :
    ∀ (h : Nat), h ≤ k → ∀ (p : Nat), AtDepth (k - h) p →
    leftSpine h p + 1 < 2 ^ k + xs.length →
    ∀ (q dq : Nat), AtDepth dq q → dq ≤ k → arrGet t.hashes q = arrGet t.hashes p → q = p := by
  intro h
  induction h with
  | zero =>
    intro _ p hp hl q dq hq hdq he
    simp only [Nat.sub_zero] at hp
    simp only [leftSpine] at hl
    have hdk : dq = k := by
      have := same_depth_of_equal_hash hash k t hinv hok hids _ _ _ _ hp (le_refl _) hq hdq he.symm
      omega
    subst hdk
    have hp2 := (atDepth_leaf_iff dq p).1 hp
    have hslot : p - (2 ^ dq - 1) < xs.length := by omega
    have hs : xs[p - (2 ^ dq - 1)]? = some (xs[p - (2 ^ dq - 1)]) := List.getElem?_eq_getElem hslot
    have e : 2 ^ dq - 1 + (p - (2 ^ dq - 1)) = p := by omega
    have := leaf_unique hash dq t hinv hok xs m hsl hd _ _ hs q hq (by rw [e]; exact he)
    omega
  | succ h ih =>
    intro hk p hp hl q dq hq hdq he
    have hdk : dq = k - (h + 1) := by
      have := same_depth_of_equal_hash hash k t hinv hok hids _ _ _ _ hp (by omega) hq hdq he.symm
      omega
    subst hdk
    have hp2 := inner_entry hash k t hinv _ p hp (by omega)
    have hq2 := inner_entry hash k t hinv _ q hq (by omega)
    rw [hp2, hq2] at he
    have hpl : AtDepth (k - h) (2 * p + 1) := by
      have e : k - h = k - (h + 1) + 1 := by omega
      rw [e]; exact atDepth_left _ p hp
    have hql : AtDepth (k - h) (2 * q + 1) := by
      have e : k - h = k - (h + 1) + 1 := by omega
      rw [e]; exact atDepth_left _ q hq
    obtain ⟨e1, _⟩ := pair_text_inj _ _ _ _
      (entry_commaFree hash k t hinv hok _ _ hql (by omega))
      (entry_commaFree hash k t hinv hok _ _ hpl (by omega)) (hok.1 (Option.some.inj he))
    have e2 := entry_eq_of_jsStr hash k t hinv _ _ _ _ hql (by omega) hpl (by omega) e1
    have := ih (by omega) (2 * p + 1) hpl (by rw [← leftSpine_succ_child]; exact hl)
      (2 * q + 1) (k - h) hql (by omega) e2
    omega

/-- The search of `getPath` from a node whose leftmost leaf belongs to a filled slot:
every round finds the sibling of the node as partner and goes on to the parent. -/
theorem getPathLoop_exact (hash : String → String) (k : Nat) (t : FixedMerkleTree)
    (hinv : TreeInv hash k t) (hok : HashOk hash) (hids : IdsOk t) (xs : List Transaction)
    (m : Nat) (hsl : t.transactions = xs.map some ++ List.replicate m none)
    (hdist : IdsDistinct xs) :
    ∀ (d : Nat), d ≤ k → ∀ (c fuel : Nat) (path : List (Option Nat)), AtDepth d c →
    leftSpine (k - d) c + 1 < 2 ^ k + xs.length → d + 1 ≤ fuel →
    getPathLoop hash t.hashes fuel (some c) path = some (path ++ (authPath d c).map some) := by
  have hlen : t.hashes.length = 2 * 2 ^ k - 1 := hinv.2.2.1
  have hn : 1 ≤ 2 ^ k := Nat.one_le_two_pow
  have hvalid : ∀ q, q < t.hashes.length → ∃ dq, AtDepth dq q ∧ dq ≤ k := by
    intro q hq
    obtain ⟨dq, hdq⟩ := atDepth_exists q
    exact ⟨dq, hdq, atDepth_le_of_valid k dq q hdq (by omega)⟩
  have huniq := unique_of_leftSpine hash k t hinv hok hids xs m hsl hdist
  intro d
  induction d with
  | zero =>
    intro _ c fuel path hc _ hf
    rw [atDepth_zero] at hc
    subst hc
    obtain ⟨f, rfl⟩ : ∃ f, fuel = f + 1 := ⟨fuel - 1, by omega⟩
    simp [getPathLoop, authPath]
  | succ d ih =>
    intro hd c fuel path hc hl hf
    obtain ⟨f, rfl⟩ : ∃ f, fuel = f + 1 := ⟨fuel - 1, by omega⟩
    have hc1 : 1 ≤ c := by
      unfold AtDepth at hc
      have : 2 ^ 1 ≤ 2 ^ (d + 1) := Nat.pow_le_pow_right (by norm_num) (by omega)
      omega
    have hcv : c < t.hashes.length := by
      rw [hlen]
      have h1 := hc.2
      have : 2 ^ (d + 1 + 1) ≤ 2 ^ (k + 1) := Nat.pow_le_pow_right (by norm_num) (by omega)
      rw [pow_succ (n := k)] at this
      omega
    have hpar : AtDepth d ((c - 1) / 2) := atDepth_parent d c hc
    have hparent := inner_entry hash k t hinv d ((c - 1) / 2) hpar (by omega)
    have hcf : ∀ q, q < t.hashes.length → CommaFree (jsStr (arrGet t.hashes q)) := by
      intro q hq
      obtain ⟨dq, h1, h2⟩ := hvalid q hq
      exact entry_commaFree hash k t hinv hok dq q h1 h2
    -- the node itself and its parent are the only nodes with their hashes
    have hkd : k - (d + 1) + 1 = k - d := by omega
    have hcu : ∀ q, q < t.hashes.length → arrGet t.hashes q = arrGet t.hashes c → q = c := by
      intro q hq he
      obtain ⟨dq, h1, h2⟩ := hvalid q hq
      exact huniq (k - (d + 1)) (by omega) c
        (by rw [show k - (k - (d + 1)) = d + 1 by omega]; exact hc) hl q dq h1 h2 he
    have hlpar : leftSpine (k - d) ((c - 1) / 2) + 1 < 2 ^ k + xs.length := by
      rw [← hkd, leftSpine_succ_child]
      have := leftSpine_mono (k - (d + 1)) (show 2 * ((c - 1) / 2) + 1 ≤ c by omega)
      omega
    have hpu : ∀ q, q < t.hashes.length →
        arrGet t.hashes q = arrGet t.hashes ((c - 1) / 2) → q = (c - 1) / 2 := by
      intro q hq he
      obtain ⟨dq, h1, h2⟩ := hvalid q hq
      exact huniq (k - d) (by omega) ((c - 1) / 2)
        (by rw [show k - (k - d) = d by omega]; exact hpar) hlpar q dq h1 h2 he
    -- what a partner tells
    have hnode : ∀ j, j < t.hashes.length →
        t.hashes.contains (some (pairCheck hash t.hashes (some c) j)) = true → ¬ c < j →
        c % 2 = 0 ∧ arrGet t.hashes j = arrGet t.hashes (c - 1) := by
      intro j hj hcont hlt
      rw [contains_entry] at hcont
      obtain ⟨q, hq, hqe⟩ := hcont
      simp only [pairCheck, hlt, if_false] at hqe
      obtain ⟨dq, h1, h2⟩ := hvalid q hq
      obtain ⟨n1, n2, n3⟩ := node_of_pair_hash hash k t hinv hok hids dq q h1 h2 _ _ (hcf j hj) hqe
      obtain ⟨dj, hdj, hdjk⟩ := hvalid j hj
      have e2 := entry_eq_of_jsStr hash k t hinv _ _ _ _ (atDepth_right dq q h1) (by omega)
        hc hd n3
      have hq2 : 2 * q + 2 < t.hashes.length := by
        have := atDepth_inner k dq q h1 n1
        omega
      have hc2 := hcu (2 * q + 2) hq2 e2
      have e1 := entry_eq_of_jsStr hash k t hinv _ _ _ _ (atDepth_left dq q h1) (by omega)
        hdj hdjk n2
      refine ⟨by omega, ?_⟩
      rw [← e1]
      congr 1
      omega
    have hne : (some c : Option Nat) ≠ some 0 := by
      intro h; simp at h; omega
    by_cases hodd : c % 2 = 1
    · -- a left child: the partner is `c + 1`
      have hs : c + 1 < t.hashes.length := by
        have := hc.2
        have h2 : 2 ^ (d + 1 + 1) ≤ 2 ^ (k + 1) := Nat.pow_le_pow_right (by norm_num) (by omega)
        rw [pow_succ (n := k)] at h2
        rw [hlen]
        have h4 : 2 ^ (d + 1 + 1) % 2 = 0 := by rw [pow_succ]; omega
        omega
      have e1 : 2 * ((c - 1) / 2) + 1 = c := by omega
      have e2 : 2 * ((c - 1) / 2) + 2 = c + 1 := by omega
      have hpc : pairCheck hash t.hashes (some c) (c + 1) =
          hash (jsStr (arrGet t.hashes c) ++ "," ++ jsStr (arrGet t.hashes (c + 1))) := by
        simp only [pairCheck, show c < c + 1 by omega, if_true]
      have hmatch : t.hashes.contains (some (pairCheck hash t.hashes (some c) (c + 1))) = true := by
        rw [contains_entry]
        refine ⟨(c - 1) / 2, by omega, ?_⟩
        rw [hparent, hpc, e1, e2]
      have hfind : (List.range t.hashes.length).find?
          (fun j => t.hashes.contains (some (pairCheck hash t.hashes (some c) j))) =
            some (c + 1) := by
        rw [List.find?_range_eq_some]
        refine ⟨hmatch, List.mem_range.2 hs, ?_⟩
        intro j hj
        by_contra hcon
        simp only [Bool.not_eq_true', Bool.not_eq_false] at hcon
        have := (hnode j (by omega) hcon (by omega)).1
        omega
      have hidx : t.hashes.indexOf (some (pairCheck hash t.hashes (some c) (c + 1))) =
          (c - 1) / 2 := by
        obtain ⟨i1, i2, _⟩ := indexOf_entry t.hashes _ hmatch
        apply hpu _ i1
        rw [i2, hparent, hpc, e1, e2]
      rw [getPathLoop]
      simp only [hne, if_false, searchStep, hfind, hidx, Nat.add_one_ne_zero]
      rw [ih (by omega) ((c - 1) / 2) f (path ++ [some (c + 1)]) hpar hlpar (by omega)]
      simp [authPath, sibling, hodd]
    · -- a right child: the partner is `c - 1`
      have hc2 : 2 ≤ c := by omega
      have e1 : 2 * ((c - 1) / 2) + 1 = c - 1 := by omega
      have e2 : 2 * ((c - 1) / 2) + 2 = c := by omega
      have hpc : pairCheck hash t.hashes (some c) (c - 1) =
          hash (jsStr (arrGet t.hashes (c - 1)) ++ "," ++ jsStr (arrGet t.hashes c)) := by
        simp only [pairCheck, show ¬ c < c - 1 by omega, if_false]
      have hmatch : t.hashes.contains (some (pairCheck hash t.hashes (some c) (c - 1))) = true := by
        rw [contains_entry]
        refine ⟨(c - 1) / 2, by omega, ?_⟩
        rw [hparent, hpc, e1, e2]
      -- the left sibling is the only node with its hash
      have hsu : ∀ q, q < t.hashes.length →
          arrGet t.hashes q = arrGet t.hashes (c - 1) → q = c - 1 := by
        intro q hq he
        obtain ⟨dq, h1, h2⟩ := hvalid q hq
        have hsd : AtDepth (d + 1) (c - 1) := by
          have := atDepth_left d _ hpar
          rw [e1] at this
          exact this
        have hls : leftSpine (k - (d + 1)) (c - 1) + 1 < 2 ^ k + xs.length := by
          have := leftSpine_mono (k - (d + 1)) (show c - 1 ≤ c by omega)
          omega
        exact huniq (k - (d + 1)) (by omega) (c - 1)
          (by rw [show k - (k - (d + 1)) = d + 1 by omega]; exact hsd) hls q dq h1 h2 he
      have hfind : (List.range t.hashes.length).find?
          (fun j => t.hashes.contains (some (pairCheck hash t.hashes (some c) j))) =
            some (c - 1) := by
        rw [List.find?_range_eq_some]
        refine ⟨hmatch, List.mem_range.2 (by omega), ?_⟩
        intro j hj
        by_contra hcon
        simp only [Bool.not_eq_true', Bool.not_eq_false] at hcon
        have := (hnode j (by omega) hcon (by omega)).2
        have := hsu j (by omega) this
        omega
      have hidx : t.hashes.indexOf (some (pairCheck hash t.hashes (some c) (c - 1))) =
          (c - 1) / 2 := by
        obtain ⟨i1, i2, _⟩ := indexOf_entry t.hashes _ hmatch
        apply hpu _ i1
        rw [i2, hparent, hpc, e1, e2]
      rw [getPathLoop]
      simp only [hne, if_false, searchStep, hfind, hidx, show c - 1 ≠ 0 by omega]
      rw [ih (by omega) ((c - 1) / 2) f (path ++ [some (c - 1)]) hpar hlpar (by omega)]
      simp [authPath, sibling, show c % 2 = 0 by omega]

theorem slot_some (t : FixedMerkleTree) (xs : List Transaction) (m : Nat)
    (hsl : t.transactions = xs.map some ++ List.replicate m none) (a : Nat) (tx : Transaction)
    (hv : t.transactions[a]? = some (some tx)) : xs[a]? = some tx := by
  rw [hsl] at hv
  by_cases ha : a < xs.length
  · rw [List.getElem?_append_left (by simpa using ha)] at hv
    simp only [List.getElem?_map] at hv
    cases h : xs[a]? with
    | none => rw [h] at hv; simp at hv
    | some y =>
      rw [h] at hv
      simp only [Option.map_some', Option.some.injEq] at hv
      rw [hv]
  · rw [List.getElem?_append_right (by simp; omega)] at hv
    rw [List.getElem?_replicate] at hv
    split_ifs at hv
    simp at hv

theorem addTxs_ready (hash : String → String) (k : Nat) : ∀ (txs : List Transaction)
    (t : FixedMerkleTree), TreeReady hash k t →
    ∃ t1, addTxs hash t txs = some t1 ∧ TreeReady hash k t1 := by
  intro txs
  induction txs with
  | nil => intro t h; exact ⟨t, rfl, h⟩
  | cons tx rest ih =>
    intro t h
    obtain ⟨t1, e1, h1, _, _⟩ := addTx_ready hash k t tx h
    obtain ⟨t2, e2, h2⟩ := ih t1 h1
    exact ⟨t2, by simp only [addTxs, e1]; exact e2, h2⟩

/-- The path by index arithmetic from an index below the root ends with 1 or 2. -/
theorem authPath_last : ∀ (d c : Nat), AtDepth (d + 1) c →
    ∃ pre last, authPath (d + 1) c = pre ++ [last] ∧ (last = 1 ∨ last = 2) := by
  intro d
  induction d with
  | zero =>
    intro c hc
    rw [atDepth_one] at hc
    refine ⟨[], sibling c, by simp [authPath], ?_⟩
    rcases hc with rfl | rfl
    · right; rfl
    · left; rfl
  | succ d ih =>
    intro c hc
    obtain ⟨pre, last, e, h⟩ := ih ((c - 1) / 2) (atDepth_parent (d + 1) c hc)
    refine ⟨sibling c :: pre, last, ?_, h⟩
    show sibling c :: authPath (d + 1) ((c - 1) / 2) = _
    rw [e]
    rfl

/-- C20, as the code has it. Let the hash function have no collisions and values
without comma, let the capacity be `n = 2 ^ k` with `k >= 1`, and let a fresh tree be
filled by `addTx` of transactions whose identities are pairwise distinct, hold no comma
and are not the filler text. Then for the transaction in slot `s`, the search of
`getPath` returns `txInd = (n - 1) + s` and the path that starts with this index and
goes on with the siblings of the index, of its parent, and so on up to the children of
the root: the authentication path by index arithmetic, which ends with 1 or 2. -/
theorem C20_getPath_is_authentication_path (hash : String → String) (hok : HashOk hash)
    (k : Nat) (hk : 1 ≤ k) (txs : List Transaction) (hdist : IdsDistinct txs)
    (t : FixedMerkleTree)
    (ht : (FixedMerkleTree.new hash (2 ^ k)).bind (fun t0 => addTxs hash t0 txs) = some t)
    (s : Nat) (tx : Transaction) (hs : t.transactions[s]? = some (some tx))
    (fuel : Nat) (hfuel : k + 1 ≤ fuel) :
    getPath hash fuel t tx =
      some { txInd := some (2 ^ k - 1 + s),
             Path := ((2 ^ k - 1 + s) :: authPath k (2 ^ k - 1 + s)).map some } ∧
    ∃ pre last, authPath k (2 ^ k - 1 + s) = pre ++ [last] ∧ (last = 1 ∨ last = 2) := by
  have hn : 1 ≤ 2 ^ k := Nat.one_le_two_pow
  obtain ⟨t0, e0, hr0, hs0⟩ := new_ready hash k
  rw [e0] at ht
  have ht2 : addTxs hash t0 txs = some t := ht
  obtain ⟨t1, e1, hinv, hsl, _⟩ := addTxs_slots hash k txs t0 [] (2 ^ k) hr0.1 (by simp)
    (by simpa using hs0)
  obtain ⟨t2, e2, hready⟩ := addTxs_ready hash k txs t0 hr0
  rw [ht2] at e1 e2
  simp only [Option.some.injEq] at e1 e2
  subst e1
  subst e2
  simp only [List.nil_append] at hsl
  -- the filled part of the slots
  have hd2 : IdsDistinct (txs.take (2 ^ k)) := by
    refine ⟨List.Nodup.sublist (List.Sublist.map _ (List.take_sublist _ _)) hdist.1, ?_⟩
    intro x hx
    exact hdist.2 x (List.mem_of_mem_take hx)
  have hids : IdsOk t := by
    intro x hx
    rw [hsl] at hx
    simp only [List.mem_append, List.mem_map, Option.some.injEq, List.mem_replicate] at hx
    rcases hx with ⟨y, hy, rfl⟩ | ⟨_, h⟩
    · exact (hd2.2 y hy).1
    · exact absurd h (by simp)
  have hxs : (txs.take (2 ^ k))[s]? = some tx := slot_some t _ _ hsl s tx hs
  have hslt : s < (txs.take (2 ^ k)).length := by
    by_contra hcon
    rw [List.getElem?_eq_none (by omega)] at hxs
    exact absurd hxs (by simp)
  obtain ⟨hsk, _⟩ := filled_leaf_entry hash k t hinv _ _ hsl s tx hxs
  -- the index that `lookup` holds for the transaction
  have hidx : mapGet t.lookup (hash tx.getid) = some (2 ^ k - 1 + s) := by
    obtain ⟨s2, _, v2, hv2, he, hm⟩ := hready.2.2 (some tx) (List.getElem?_mem hs)
    rw [leafHash_eq, leafHash_eq] at he
    have htext : leafText v2 = tx.getid := hok.1 he
    obtain ⟨tx2, rfl, h2⟩ := slot_of_leafText t _ _ hsl s2 v2 hv2
      (by rw [htext]; exact (hd2.2 tx (List.getElem?_mem hxs)).2)
    have := nodup_index _ hd2.1 _ _ _ _ h2 hxs htext
    rw [← this]
    exact hm
  have hdepth : AtDepth k (2 ^ k - 1 + s) := by
    rw [atDepth_leaf_iff]; omega
  have hloop := getPathLoop_exact hash k t hinv hok hids _ _ hsl hd2 k (le_refl _)
    (2 ^ k - 1 + s) fuel [some (2 ^ k - 1 + s)] hdepth
    (by simp only [Nat.sub_self, leftSpine]; omega) hfuel
  refine ⟨?_, ?_⟩
  · unfold getPath
    simp only [hidx, hloop]
    simp
  · obtain ⟨k2, rfl⟩ : ∃ k2, k = k2 + 1 := ⟨k - 1, by omega⟩
    exact authPath_last k2 _ hdepth

theorem sampleHash_injective : Function.Injective sampleHash := by
  intro a b h
  unfold sampleHash at h
  have := congrArg String.data h
  simp only [String.data_append] at this
  have h2 : a.data = b.data := by
    simpa using this
  exact String.ext h2

/-- C20, as stated, fails: `sampleHash` has no collisions; the tree of capacity 2 is
filled with `sampleA` and `pairTx`, whose identities `a` and `<a>,<a>` are distinct;
for `sampleA` in slot 0 the search of `getPath` returns the path `[1, 1, 1]`, not the
path `[1, 2]` of the index arithmetic: the identity of `pairTx` is the leaf hash of
`sampleA` joined to itself, so the leaf is its own partner. -/
theorem C20_search_path_differs :
    Function.Injective sampleHash ∧
    ([sampleA, pairTx].map (fun tx => tx.getid)).Nodup ∧
    (sampleTree 2 [sampleA, pairTx]).map
      (fun t => (t.transactions, getPath sampleHash 3 t sampleA)) =
      some ([some sampleA, some pairTx],
        some { txInd := some 1, Path := [some 1, some 1, some 1] }) ∧
    (2 ^ 1 - 1 + 0) :: authPath 1 (2 ^ 1 - 1 + 0) = [1, 2] :=
  ⟨sampleHash_injective, by decide, by decide, by decide⟩

/-! ## JS numbers: where the sums are exact -/

theorem excessBits_small (fuel n : Nat) (h : n < 2 ^ 53) : excessBits fuel n = 0 := by
  cases fuel with
  | zero => rfl
  | succ f =>
    unfold excessBits
    rw [if_pos h]

/-- An integer of magnitude at most `2 ^ 53` is a JS number. -/
theorem roundDouble_exact (x : Int) (hlo : -(2 ^ 53) ≤ x) (hhi : x ≤ 2 ^ 53) :
    roundDouble x = x := by
  by_cases h1 : x.natAbs < 2 ^ 53
  · unfold roundDouble
    have hm : x.natAbs % 1 = 0 := Nat.mod_one _
    simp [excessBits_small _ _ h1, hm, Int.sign_mul_abs]
  · have h2 : x = 2 ^ 53 ∨ x = -(2 ^ 53) := by omega
    rcases h2 with rfl | rfl <;> decide

/-- The rounding at some integers above `2 ^ 53`: `2 ^ 53 + 1` and `2 ^ 54 + 2` are ties
that go down to the even significand, `2 ^ 53 + 3` and `2 ^ 54 - 1` are ties that go
up. -/
theorem roundDouble_examples :
    roundDouble 9007199254740993 = 9007199254740992 ∧
    roundDouble 9007199254740995 = 9007199254740996 ∧
    roundDouble 18014398509481983 = 18014398509481984 ∧
    roundDouble 18014398509481986 = 18014398509481984 ∧
    roundDouble 18014398509481987 = 18014398509481988 ∧
    roundDouble (-9007199254740993) = -9007199254740992 ∧
    jsAdd 9007199254740992 1 = 9007199254740992 ∧
    jsSub 9007199254740992 1 = 9007199254740991 := by
  decide

theorem jsAdd_exact (a b : Int) (hlo : -(2 ^ 53) ≤ a + b) (hhi : a + b ≤ 2 ^ 53) :
    jsAdd a b = a + b :=
  roundDouble_exact _ hlo hhi

theorem jsSub_exact (a b : Int) (hlo : -(2 ^ 53) ≤ a - b) (hhi : a - b ≤ 2 ^ 53) :
    jsSub a b = a - b :=
  roundDouble_exact _ hlo hhi

theorem filter_sum_nonneg (outputs : List Output) (a : String)
    (ho : ∀ o ∈ outputs, 0 ≤ o.amount) :
    0 ≤ ((outputs.filter (fun o => o.address = a)).map (fun o => o.amount)).sum := by
  apply List.sum_nonneg
  intro x hx
  simp only [List.mem_map, List.mem_filter] at hx
  obtain ⟨o, ⟨ho1, _⟩, rfl⟩ := hx
  exact ho o ho1

/-- While every balance stays between 0 and `2 ^ 53`, the credits of JS numbers are
the exact ones. -/
theorem foldl_creditOutputNum_eq : ∀ (outputs : List Output) (bal : List (String × Int)),
    (∀ a, 0 ≤ (mapGet bal a).getD 0) → (∀ o ∈ outputs, 0 ≤ o.amount) →
    (∀ a, (mapGet bal a).getD 0 +
      ((outputs.filter (fun o => o.address = a)).map (fun o => o.amount)).sum ≤ 2 ^ 53) →
    outputs.foldl creditOutputNum bal = outputs.foldl creditOutput bal := by
  intro outputs
  induction outputs with
  | nil => intros; rfl
  | cons o rest ih =>
    intro bal hb ho hs
    have hor : ∀ o2 ∈ rest, 0 ≤ o2.amount := fun o2 h => ho o2 (List.mem_cons_of_mem _ h)
    have hamt := ho o (List.mem_cons_self _ _)
    have hso := hs o.address
    simp only [List.filter_cons, decide_True, if_true, List.map_cons, List.sum_cons] at hso
    have hrest := filter_sum_nonneg rest o.address hor
    have hbo := hb o.address
    have e : creditOutputNum bal o = creditOutput bal o := by
      unfold creditOutputNum creditOutput
      rw [jsAdd_exact _ _ (by omega) (by omega)]
    simp only [List.foldl_cons, e]
    refine ih _ ?_ hor ?_
    · intro a
      by_cases ha : o.address = a
      · subst ha
        simp only [creditOutput, mapGet_mapSet_same, Option.getD_some]
        omega
      · simp only [creditOutput, mapGet_mapSet_ne _ _ _ _ (Ne.symm ha)]
        exact hb a
    · intro a
      have hsa := hs a
      by_cases ha : o.address = a
      · subst ha
        simp only [creditOutput, mapGet_mapSet_same, Option.getD_some]
        omega
      · simp only [List.filter_cons, ha, decide_False] at hsa
        simp only [creditOutput, mapGet_mapSet_ne _ _ _ _ (Ne.symm ha)]
        simpa using hsa

/-- While the balances involved stay between 0 and `2 ^ 53`, the debit and the credits
of JS numbers are the exact ones. -/
theorem debit_credit_exact (b : Block) (tx : Transaction)
    (hb : NonNegative b.balances) (ho : ∀ o ∈ tx.outputs, 0 ≤ o.amount)
    (ht : 0 ≤ tx.totalOutput ∧ tx.totalOutput ≤ balanceOf b tx.from_)
    (hs : ∀ a, balanceOf b a +
      ((tx.outputs.filter (fun o => o.address = a)).map (fun o => o.amount)).sum ≤ 2 ^ 53) :
    tx.outputs.foldl creditOutputNum
        (mapSet b.balances tx.from_ (jsSub (balanceOf b tx.from_) tx.totalOutput)) =
      tx.outputs.foldl creditOutput
        (mapSet b.balances tx.from_ (balanceOf b tx.from_ - tx.totalOutput)) := by
  have hsf := hs tx.from_
  have hfs := filter_sum_nonneg tx.outputs tx.from_ ho
  have hbf : 0 ≤ balanceOf b tx.from_ := nonNegative_getD _ _ hb
  have e2 : jsSub (balanceOf b tx.from_) tx.totalOutput = balanceOf b tx.from_ - tx.totalOutput :=
    jsSub_exact _ _ (by omega) (by omega)
  rw [e2]
  refine foldl_creditOutputNum_eq _ _ ?_ ho ?_
  · intro a
    by_cases ha : tx.from_ = a
    · subst ha
      simp only [mapGet_mapSet_same, Option.getD_some]
      omega
    · rw [mapGet_mapSet_ne _ _ _ _ (Ne.symm ha)]
      exact nonNegative_getD _ _ hb
  · intro a
    have hsa := hs a
    by_cases ha : tx.from_ = a
    · subst ha
      simp only [mapGet_mapSet_same, Option.getD_some]
      omega
    · rw [mapGet_mapSet_ne _ _ _ _ (Ne.symm ha)]
      exact hsa

/-- When `addTransaction` returns true, the checks held and this is the block it
leaves. -/
theorem addTransactionNum_true_eq (hash : String → String)
    (sufficientFunds : Transaction → Block → Bool) (b b1 : Block) (tx : Transaction)
    (h : addTransactionNum hash sufficientFunds b tx = some (true, b1)) :
    Admissible hash sufficientFunds b tx ∧
      ∃ tree, addTx hash b.txMerkleTree tx = some tree ∧
        b1 = { b with
          nextNonce := mapSet b.nextNonce tx.from_ (jsAdd ((mapGet b.nextNonce tx.from_).getD 0) 1)
          txMerkleTree := tree
          balances := tx.outputs.foldl creditOutputNum
            (mapSet b.balances tx.from_ (jsSub (balanceOf b tx.from_) tx.totalOutput)) } := by
  unfold addTransactionNum at h
  dsimp only at h
  split_ifs at h with c1 c2 c3 c4 c5 c6 c7
  all_goals try (exact absurd h (by simp))
  cases hx : addTx hash b.txMerkleTree tx with
  | none => rw [hx] at h; exact absurd h (by simp)
  | some tree =>
    rw [hx] at h
    simp only [Option.some.injEq, Prod.mk.injEq, true_and] at h
    refine ⟨⟨by simpa using c1, c2, by simpa using c3, by simpa using c4, by simpa using c5,
      by omega⟩, tree, rfl, h.symm⟩

/-- While the nonce and the balances involved are between 0 and `2 ^ 53`,
`addTransaction` with the arithmetic of JS numbers is `addTransaction` with exact
integers. -/
theorem addTransactionNum_eq (hash : String → String)
    (sufficientFunds : Transaction → Block → Bool) (b : Block) (tx : Transaction)
    (hn : 0 ≤ (mapGet b.nextNonce tx.from_).getD 0 ∧ (mapGet b.nextNonce tx.from_).getD 0 < 2 ^ 53)
    (hb : NonNegative b.balances) (ho : ∀ o ∈ tx.outputs, 0 ≤ o.amount)
    (ht : 0 ≤ tx.totalOutput ∧ tx.totalOutput ≤ balanceOf b tx.from_)
    (hs : ∀ a, balanceOf b a +
      ((tx.outputs.filter (fun o => o.address = a)).map (fun o => o.amount)).sum ≤ 2 ^ 53) :
    addTransactionNum hash sufficientFunds b tx = addTransaction hash sufficientFunds b tx := by
  have e1 : jsAdd ((mapGet b.nextNonce tx.from_).getD 0) 1 =
      (mapGet b.nextNonce tx.from_).getD 0 + 1 :=
    jsAdd_exact _ _ (by omega) (by omega)
  have e3 := debit_credit_exact b tx hb ho ht hs
  unfold addTransactionNum addTransaction
  dsimp only
  rw [e1]
  have e3b : ∀ t1 : FixedMerkleTree,
      tx.outputs.foldl creditOutputNum (mapSet b.balances tx.from_ (jsSub (balanceOf
        { b with nextNonce := mapSet b.nextNonce tx.from_ ((mapGet b.nextNonce tx.from_).getD 0 + 1),
                 txMerkleTree := t1 } tx.from_) tx.totalOutput)) =
      tx.outputs.foldl creditOutput
        (mapSet b.balances tx.from_ (balanceOf b tx.from_ - tx.totalOutput)) := fun _ => e3
  split_ifs <;> try rfl
  cases addTx hash b.txMerkleTree tx with
  | none => rfl
  | some tree =>
    dsimp only
    rw [e3b]
    rfl

/-- C7, as the code has it. When `addTransaction(tx)` returns true, afterwards `tx`
occupies the first slot of the tree that was empty and the other slots are as before,
and no nonce but that of `tx.from` has changed. The sums are those of JS numbers:
`nextNonce[tx.from]` is the nonce that was expected plus 1 when that nonce is an
integer from 0 to below `2 ^ 53`; and when the balances, the output amounts and
`tx.totalOutput()` are not negative, `tx.totalOutput()` is at most the balance of
`tx.from`, and for every address the old balance plus the amounts of its outputs is at
most `2 ^ 53`, then for every address `a`, `balanceOf(a)` is the old `balanceOf(a)`,
less `tx.totalOutput()` when `a` is `tx.from`, plus the sum of the amounts of all
outputs of `tx` whose address is `a`. -/
theorem C7_acceptance_effects (hash : String → String)
    (sufficientFunds : Transaction → Block → Bool) (b b1 : Block) (tx : Transaction)
    (h : addTransactionNum hash sufficientFunds b tx = some (true, b1)) :
    (∃ s, b.txMerkleTree.transactions[s]? = some none ∧
      (∀ j, j < s → b.txMerkleTree.transactions[j]? ≠ some none) ∧
      b1.txMerkleTree.transactions = b.txMerkleTree.transactions.set s (some tx)) ∧
    (∀ a, a ≠ tx.from_ → mapGet b1.nextNonce a = mapGet b.nextNonce a) ∧
    mapGet b1.nextNonce tx.from_ = some (jsAdd ((mapGet b.nextNonce tx.from_).getD 0) 1) ∧
    (0 ≤ (mapGet b.nextNonce tx.from_).getD 0 → (mapGet b.nextNonce tx.from_).getD 0 < 2 ^ 53 →
      mapGet b1.nextNonce tx.from_ = some ((mapGet b.nextNonce tx.from_).getD 0 + 1)) ∧
    (NonNegative b.balances → (∀ o ∈ tx.outputs, 0 ≤ o.amount) →
      0 ≤ tx.totalOutput → tx.totalOutput ≤ balanceOf b tx.from_ →
      (∀ a, balanceOf b a +
        ((tx.outputs.filter (fun o => o.address = a)).map (fun o => o.amount)).sum ≤ 2 ^ 53) →
      ∀ a, balanceOf b1 a =
        balanceOf b a - (if a = tx.from_ then tx.totalOutput else 0) +
          ((tx.outputs.filter (fun o => o.address = a)).map (fun o => o.amount)).sum) := by
  obtain ⟨ha, tree, e, hb1⟩ := addTransactionNum_true_eq hash sufficientFunds b b1 tx h
  subst hb1
  obtain ⟨_, s, _, s2, s3, s4⟩ := addTx_effect hash b.txMerkleTree tree tx ha.2.2.2.2.1 e
  refine ⟨⟨s, s2, s3, s4⟩, ?_, ?_, ?_, ?_⟩
  · intro a hne
    exact mapGet_mapSet_ne _ _ _ _ hne
  · exact mapGet_mapSet_same _ _ _
  · intro h0 h1
    show mapGet (mapSet b.nextNonce tx.from_ (jsAdd ((mapGet b.nextNonce tx.from_).getD 0) 1))
      tx.from_ = _
    rw [jsAdd_exact _ _ (by omega) (by omega)]
    exact mapGet_mapSet_same _ _ _
  · intro hb ho ht0 ht1 hs a
    show (mapGet (tx.outputs.foldl creditOutputNum
      (mapSet b.balances tx.from_ (jsSub (balanceOf b tx.from_) tx.totalOutput))) a).getD 0 = _
    rw [debit_credit_exact b tx hb ho ⟨ht0, ht1⟩ hs, foldl_creditOutput_get]
    by_cases hfa : a = tx.from_
    · subst hfa
      simp only [mapGet_mapSet_same, Option.getD_some, if_true]
    · simp only [mapGet_mapSet_ne _ _ _ _ hfa, hfa, if_false, sub_zero]
      rfl

/-- C7, as stated, fails: in `roundingBlock` the accounts `A` and `B` own `2 ^ 53`
each; the transfer of 1 from `A` to `B` is accepted and leaves `A` with `2 ^ 53 - 1`
and `B` with `2 ^ 53`, not with the old balance plus 1, which is no JS number. -/
theorem C7_credit_is_rounded :
    (addTransactionNum sampleHash sampleFunds roundingBlock sampleA).map
      (fun r => (r.1, balanceOf r.2 "A", balanceOf r.2 "B")) =
        some (true, 9007199254740991, 9007199254740992) ∧
    balanceOf roundingBlock "B" - (if "B" = sampleA.from_ then sampleA.totalOutput else 0) +
      ((sampleA.outputs.filter (fun o => o.address = "B")).map (fun o => o.amount)).sum =
        9007199254740993 := by
  decide

/-! ## The ledger of a constructed block -/

/-- The constructor returns, and this is the block it makes. -/
theorem newNum_block_eq (hash : String → String) (stringify : BlockJSON → String)
    (rewardAddr : Option String) (prevBlock : Option Block) (target coinbaseReward : Int)
    (now : Nat) :
    ∃ tree, FixedMerkleTree.new hash MAX_BLOCK_TRANSACTIONS = some tree ∧
      Block.newNum hash stringify rewardAddr prevBlock target coinbaseReward now =
        some
          { prevBlockHash := prevBlock.map (hashVal hash stringify)
            balances := match prevBlock with
              | some p => creditWinnerNum p
              | none => []
            nextNonce := match prevBlock with
              | some p => p.nextNonce
              | none => []
            txMerkleTree := tree
            chainLength := chainLengthAfter prevBlock
            target := target >>> (chainLengthAfter prevBlock / 5)
            timestamp := now
            rewardAddr := rewardAddr
            coinbaseReward := coinbaseReward
            proof := none } := by
  obtain ⟨tree, et, _, _⟩ := new_inv hash 3
  have et8 : FixedMerkleTree.new hash MAX_BLOCK_TRANSACTIONS = some tree := et
  refine ⟨tree, et8, ?_⟩
  unfold Block.newNum
  rw [et8]
  cases prevBlock <;> rfl

theorem foldl_fee_exact : ∀ (txs : List Transaction) (acc : Int), 0 ≤ acc →
    (∀ tx ∈ txs, 0 ≤ tx.fee) → acc + (txs.map (fun tx => tx.fee)).sum ≤ 2 ^ 53 →
    txs.foldl (fun sum tx => jsAdd sum tx.fee) acc = acc + (txs.map (fun tx => tx.fee)).sum := by
  intro txs
  induction txs with
  | nil => intros; simp
  | cons t rest ih =>
    intro acc h0 hf hs
    have hr : ∀ tx ∈ rest, 0 ≤ tx.fee := fun tx h => hf tx (List.mem_cons_of_mem _ h)
    have ht := hf t (List.mem_cons_self _ _)
    have hrs : 0 ≤ (rest.map (fun tx => tx.fee)).sum := by
      apply List.sum_nonneg
      intro x hx
      simp only [List.mem_map] at hx
      obtain ⟨tx, h1, rfl⟩ := hx
      exact hr tx h1
    simp only [List.map_cons, List.sum_cons] at hs ⊢
    simp only [List.foldl_cons]
    rw [jsAdd_exact _ _ (by omega) (by omega), ih _ (by omega) hr (by omega)]
    ring

/-- While the fees and the coinbase reward are not negative and their sum is at most
`2 ^ 53`, `totalRewards` with the sums of JS numbers is the exact sum. -/
theorem totalRewardsNum_exact (P : Block) (hc : 0 ≤ P.coinbaseReward)
    (hf : ∀ tx ∈ getAllTransactions P.txMerkleTree, 0 ≤ tx.fee)
    (hs : ((getAllTransactions P.txMerkleTree).map (fun tx => tx.fee)).sum + P.coinbaseReward ≤
      2 ^ 53) :
    totalRewardsNum P = totalRewards P := by
  have hrs : 0 ≤ ((getAllTransactions P.txMerkleTree).map (fun tx => tx.fee)).sum := by
    apply List.sum_nonneg
    intro x hx
    simp only [List.mem_map] at hx
    obtain ⟨tx, h1, rfl⟩ := hx
    exact hf tx h1
  unfold totalRewardsNum totalRewards
  rw [foldl_fee_exact _ 0 (le_refl 0) hf (by omega)]
  rw [jsAdd_exact _ _ (by omega) (by omega)]
  ring

/-- C11, as the code has it. A block constructed from a predecessor `P` has the nonces
of `P`; when the reward address of `P` is set, every other address has the entry it has
in `P` and the balance of the reward address is the JS sum of `P.balanceOf` of that
address and `P.totalRewards()`, which is `P.balanceOf` of it plus the coinbase reward
of `P` plus the fees of all transactions in the tree of `P` when these numbers are not
negative and this sum is at most `2 ^ 53`; when `P` has no reward address the balances
are those of `P`; without a predecessor balances and nonces are empty. -/
theorem C11_constructor_ledger (hash : String → String) (stringify : BlockJSON → String)
    (rewardAddr : Option String) (P : Block) (target coinbaseReward : Int) (now : Nat) :
    (∃ b, Block.newNum hash stringify rewardAddr (some P) target coinbaseReward now = some b ∧
      b.nextNonce = P.nextNonce ∧
      (∀ addr, P.rewardAddr = some addr → addr ≠ "" →
        (∀ a, a ≠ addr → mapGet b.balances a = mapGet P.balances a) ∧
        balanceOf b addr = jsAdd (balanceOf P addr) (totalRewardsNum P) ∧
        (0 ≤ balanceOf P addr → 0 ≤ P.coinbaseReward →
          (∀ tx ∈ getAllTransactions P.txMerkleTree, 0 ≤ tx.fee) →
          balanceOf P addr + P.coinbaseReward +
            ((getAllTransactions P.txMerkleTree).map (fun tx => tx.fee)).sum ≤ 2 ^ 53 →
          balanceOf b addr = balanceOf P addr + P.coinbaseReward +
            ((getAllTransactions P.txMerkleTree).map (fun tx => tx.fee)).sum)) ∧
      (P.rewardAddr = none ∨ P.rewardAddr = some "" → b.balances = P.balances)) ∧
    (∃ b0, Block.newNum hash stringify rewardAddr none target coinbaseReward now = some b0 ∧
      b0.balances = [] ∧ b0.nextNonce = []) := by
  obtain ⟨tree, _, e⟩ :=
    newNum_block_eq hash stringify rewardAddr (some P) target coinbaseReward now
  obtain ⟨tree0, _, e0⟩ :=
    newNum_block_eq hash stringify rewardAddr none target coinbaseReward now
  refine ⟨⟨_, e, rfl, ?_, ?_⟩, ⟨_, e0, rfl, rfl⟩⟩
  · intro addr h1 h2
    have hbal : (mapGet (creditWinnerNum P) addr).getD 0 =
        jsAdd (balanceOf P addr) (totalRewardsNum P) := by
      unfold creditWinnerNum
      simp only [h1, h2, if_false, mapGet_mapSet_same, Option.getD_some]
    refine ⟨?_, hbal, ?_⟩
    · intro a ha
      show mapGet (creditWinnerNum P) a = _
      unfold creditWinnerNum
      simp only [h1, h2, if_false]
      exact mapGet_mapSet_ne _ _ _ _ ha
    · intro hb hc hf hs
      have hrs : 0 ≤ ((getAllTransactions P.txMerkleTree).map (fun tx => tx.fee)).sum := by
        apply List.sum_nonneg
        intro x hx
        simp only [List.mem_map] at hx
        obtain ⟨tx, h1, rfl⟩ := hx
        exact hf tx h1
      show (mapGet (creditWinnerNum P) addr).getD 0 = _
      rw [hbal, totalRewardsNum_exact P hc hf (by omega)]
      unfold totalRewards
      rw [jsAdd_exact _ _ (by omega) (by omega)]
      ring
  · intro h
    show creditWinnerNum P = _
    unfold creditWinnerNum
    rcases h with h | h
    · simp only [h]
    · simp only [h, if_true]

/-- C11, as stated, fails: the reward address `M` of `roundingWinner` owns `2 ^ 53`,
the coinbase reward is 1 and the tree holds no transactions; in the block constructed
from it `M` owns `2 ^ 53`, not the balance plus the coinbase reward plus the fees,
which is no JS number. -/
theorem C11_reward_is_rounded :
    roundingWinner.rewardAddr = some "M" ∧
    (Block.newNum sampleHash sampleStringify (some "N") (some roundingWinner) 1000 10 7).map
      (fun b => (b.nextNonce, balanceOf b "M")) =
        some (roundingWinner.nextNonce, 9007199254740992) ∧
    balanceOf roundingWinner "M" + roundingWinner.coinbaseReward +
      ((getAllTransactions roundingWinner.txMerkleTree).map (fun tx => tx.fee)).sum =
        9007199254740993 := by
  decide

/-- While the balances, the fees and the coinbase reward are not negative and the
credited balance is at most `2 ^ 53`, the ledger the constructor starts from is the
one computed with exact integers. -/
theorem creditWinnerNum_eq (P : Block) (hb : NonNegative P.balances) (hc : 0 ≤ P.coinbaseReward)
    (hf : ∀ tx ∈ getAllTransactions P.txMerkleTree, 0 ≤ tx.fee)
    (hs : ∀ addr, balanceOf P addr + totalRewards P ≤ 2 ^ 53) :
    creditWinnerNum P = creditWinner P := by
  have hrs : 0 ≤ ((getAllTransactions P.txMerkleTree).map (fun tx => tx.fee)).sum := by
    apply List.sum_nonneg
    intro x hx
    simp only [List.mem_map] at hx
    obtain ⟨tx, h1, rfl⟩ := hx
    exact hf tx h1
  unfold creditWinnerNum creditWinner
  cases P.rewardAddr with
  | none => rfl
  | some addr =>
    have h1 := hs addr
    have h2 : 0 ≤ balanceOf P addr := nonNegative_getD _ _ hb
    have h3 : totalRewards P =
        ((getAllTransactions P.txMerkleTree).map (fun tx => tx.fee)).sum + P.coinbaseReward := rfl
    dsimp only
    rw [totalRewardsNum_exact P hc hf (by omega), jsAdd_exact _ _ (by omega) (by omega)]

/-! ## Instances of the statements that have hypotheses -/

/-- C4, an instance: the tree of capacity 4 that holds only `sampleA`, asked for the path of
`sampleB`. -/
theorem C4_getPath_of_absent_transaction_witness :
    has sampleHash sampleTree4 sampleB = false ∧
    (∀ j, 1 ≤ j → j < sampleTree4.hashes.length →
      some (sampleHash (jsStr (arrGet sampleTree4.hashes j) ++ "," ++ jsStr none)) ∉
        sampleTree4.hashes) ∧
    getPath sampleHash (0 + 1) sampleTree4 sampleB = some { txInd := none, Path := [none] } :=
  ⟨by decide, by decide,
    C4_getPath_of_absent_transaction sampleHash sampleTree4 sampleB 0 (by decide) (by decide)⟩

/-- C5, an instance: `sampleT1` submitted to `sampleBlock`. -/
theorem C5_addTransaction_accepts_iff_witness :
    SlotsOk sampleBlock.txMerkleTree ∧
    ∃ r b1, addTransaction sampleHash sampleFunds sampleBlock sampleT1 = some (r, b1) ∧
      (r = true ↔
        (has sampleHash sampleBlock.txMerkleTree sampleT1 = false ∧ sampleT1.sig ≠ none ∧
          sampleT1.validSignature = true ∧ sampleFunds sampleT1 sampleBlock = true ∧
          isFull sampleBlock.txMerkleTree = false ∧
          sampleT1.nonce = (mapGet sampleBlock.nextNonce sampleT1.from_).getD 0)) :=
  ⟨⟨by decide, 3, by decide⟩,
    C5_addTransaction_accepts_iff sampleHash sampleFunds sampleBlock sampleT1
      ⟨by decide, 3, by decide⟩⟩

/-- C6, an instance: `sampleT0`, whose nonce is behind, submitted to `sampleBlock`. -/
theorem C6_rejection_changes_nothing_witness :
    addTransaction sampleHash sampleFunds sampleBlock sampleT0 = some (false, sampleBlock) ∧
    (sampleBlock.balances = sampleBlock.balances ∧ sampleBlock.nextNonce = sampleBlock.nextNonce ∧
      sampleBlock.txMerkleTree.transactions = sampleBlock.txMerkleTree.transactions ∧
      sampleBlock.txMerkleTree.hashes = sampleBlock.txMerkleTree.hashes ∧
      sampleBlock.txMerkleTree.lookup = sampleBlock.txMerkleTree.lookup ∧
      sampleBlock = sampleBlock) :=
  ⟨by decide,
    C6_rejection_changes_nothing sampleHash sampleFunds sampleBlock sampleBlock sampleT0
      (by decide)⟩

/-- C7, an instance: `sampleT1` accepted by `sampleBlock`, where `A` owns 100 and the
expected nonce is 1. -/
theorem C7_acceptance_effects_witness :
    addTransactionNum sampleHash sampleFunds sampleBlock sampleT1 = some (true, sampleAfterT1) ∧
    (NonNegative sampleBlock.balances ∧ (∀ o ∈ sampleT1.outputs, 0 ≤ o.amount) ∧
      0 ≤ sampleT1.totalOutput ∧ sampleT1.totalOutput ≤ balanceOf sampleBlock sampleT1.from_ ∧
      (∀ a, balanceOf sampleBlock a +
        ((sampleT1.outputs.filter (fun o => o.address = a)).map (fun o => o.amount)).sum ≤
          2 ^ 53)) ∧
    ((∃ s, sampleBlock.txMerkleTree.transactions[s]? = some none ∧
      (∀ j, j < s → sampleBlock.txMerkleTree.transactions[j]? ≠ some none) ∧
      sampleAfterT1.txMerkleTree.transactions =
        sampleBlock.txMerkleTree.transactions.set s (some sampleT1)) ∧
    (∀ a, a ≠ sampleT1.from_ → mapGet sampleAfterT1.nextNonce a = mapGet sampleBlock.nextNonce a) ∧
    mapGet sampleAfterT1.nextNonce sampleT1.from_ =
      some (jsAdd ((mapGet sampleBlock.nextNonce sampleT1.from_).getD 0) 1) ∧
    (0 ≤ (mapGet sampleBlock.nextNonce sampleT1.from_).getD 0 →
      (mapGet sampleBlock.nextNonce sampleT1.from_).getD 0 < 2 ^ 53 →
      mapGet sampleAfterT1.nextNonce sampleT1.from_ =
        some ((mapGet sampleBlock.nextNonce sampleT1.from_).getD 0 + 1)) ∧
    (NonNegative sampleBlock.balances → (∀ o ∈ sampleT1.outputs, 0 ≤ o.amount) →
      0 ≤ sampleT1.totalOutput → sampleT1.totalOutput ≤ balanceOf sampleBlock sampleT1.from_ →
      (∀ a, balanceOf sampleBlock a +
        ((sampleT1.outputs.filter (fun o => o.address = a)).map (fun o => o.amount)).sum ≤
          2 ^ 53) →
      ∀ a, balanceOf sampleAfterT1 a =
        balanceOf sampleBlock a - (if a = sampleT1.from_ then sampleT1.totalOutput else 0) +
          ((sampleT1.outputs.filter (fun o => o.address = a)).map (fun o => o.amount)).sum)) :=
  ⟨by decide,
    ⟨by unfold NonNegative; decide, by decide, by decide, by decide, fun a => by
      have h1 : balanceOf sampleBlock a ≤ 100 := by
        show (mapGet [("A", (100 : Int))] a).getD 0 ≤ 100
        simp only [mapGet]
        split_ifs <;> simp
      have h2 : ((sampleT1.outputs.filter (fun o => o.address = a)).map
          (fun o => o.amount)).sum ≤ 1 := by
        show (((([{ amount := 1, address := "B" }] : List Output)).filter
          (fun o => o.address = a)).map (fun o => o.amount)).sum ≤ 1
        simp only [List.filter_cons, List.filter_nil]
        split_ifs <;> simp
      omega⟩,
    C7_acceptance_effects sampleHash sampleFunds sampleBlock sampleAfterT1 sampleT1 (by decide)⟩

/-- C8, an instance: `sampleT1` submitted twice to `sampleBlock`. -/
theorem C8_second_submission_rejected_witness :
    addTransaction sampleHash sampleFunds sampleBlock sampleT1 = some (true, sampleAfterT1) ∧
    addTransaction sampleHash sampleFunds sampleAfterT1 sampleT1 = some (false, sampleAfterT1) :=
  ⟨by decide,
    C8_second_submission_rejected sampleHash sampleFunds sampleBlock sampleAfterT1 sampleT1
      (by decide)⟩

/-- C9, an instance: expected nonce 1 and the nonces 0, 1, 2 on `sampleBlock`. -/
theorem C9_nonce_order_witness :
    SlotsOk sampleBlock.txMerkleTree ∧
    (mapGet sampleBlock.nextNonce "A").getD 0 = 1 ∧
    (sampleT0.from_ = "A" ∧ sampleT1.from_ = "A" ∧ sampleT2.from_ = "A") ∧
    (sampleT0.nonce = 1 - 1 ∧ sampleT1.nonce = 1 ∧ sampleT2.nonce = 1 + 1) ∧
    (sampleT1.sig ≠ none ∧ sampleT1.validSignature = true ∧
      sampleT2.sig ≠ none ∧ sampleT2.validSignature = true) ∧
    (has sampleHash sampleBlock.txMerkleTree sampleT1 = false ∧
      sampleFunds sampleT1 sampleBlock = true ∧ isFull sampleBlock.txMerkleTree = false) ∧
    (has sampleHash sampleAfterT1.txMerkleTree sampleT2 = false ∧
      sampleFunds sampleT2 sampleAfterT1 = true ∧ isFull sampleAfterT1.txMerkleTree = false) ∧
    ((∃ b3, submitAll sampleHash sampleFunds sampleBlock [sampleT0, sampleT1, sampleT2] =
        some ([false, true, true], b3)) ∧
      (∃ b2, submitAll sampleHash sampleFunds sampleBlock [sampleT0, sampleT2, sampleT1] =
        some ([false, false, true], b2))) :=
  ⟨⟨by decide, 3, by decide⟩, by decide, by decide, by decide, by decide, by decide, by decide,
    C9_nonce_order sampleHash sampleFunds sampleBlock "A" 1 sampleT0 sampleT1 sampleT2
      ⟨by decide, 3, by decide⟩ (by decide) (by decide) (by decide) (by decide) (by decide)
      (fun b2 h => by
        have e : addTransaction sampleHash sampleFunds sampleBlock sampleT1 =
            some (true, sampleAfterT1) := by decide
        rw [e] at h
        simp only [Option.some.injEq, Prod.mk.injEq, true_and] at h
        subst h
        decide)⟩

/-- C10, an instance: the block constructed from `sampleBlock` accepts `sampleT1` and
`sampleT2` and is rerun. -/
theorem C10_rerun_reproduces_ledger_witness :
    Block.new sampleHash sampleStringify (some "N") (some sampleBlock) 1000 10 7 =
      some sampleChild ∧
    submitAll sampleHash sampleFunds sampleChild [sampleT1, sampleT2] =
      some (List.replicate [sampleT1, sampleT2].length true, sampleChildAfter) ∧
    ∃ B1, rerun sampleHash sampleFunds sampleChildAfter sampleBlock = some (true, B1) ∧
      B1.balances = sampleChildAfter.balances ∧ B1.nextNonce = sampleChildAfter.nextNonce ∧
      B1 = sampleChildAfter :=
  ⟨by decide, by decide,
    C10_rerun_reproduces_ledger sampleHash sampleStringify sampleFunds sampleBlock (some "N")
      1000 10 7 [sampleT1, sampleT2] sampleChild sampleChildAfter (by decide) (by decide)⟩


/-- C19, an instance: the block constructed from `sampleBlock` with the hash
`sampleDigest` is offered `sampleT1` and `sampleT2`. -/
theorem C19_isValid_is_contains_witness :
    HashOk sampleDigest ∧ (∀ tx ∈ [sampleT1, sampleT2], CommaFree tx.getid) ∧
    Block.new sampleDigest sampleStringify (some "N") (some sampleBlock) 1000 10 7 =
      some digestChild ∧
    submitAll sampleDigest sampleFunds digestChild [sampleT1, sampleT2] =
      some ([true, true], digestChildAfter) ∧
    4 ≤ 4 ∧
    ((∀ tx, isValid sampleDigest 4 digestChildAfter tx =
        some (contains sampleDigest digestChildAfter tx)) ∧
      (∀ i : Nat, [true, true][i]? = some true →
        ∃ tx, [sampleT1, sampleT2][i]? = some tx ∧ contains sampleDigest digestChildAfter tx = true ∧
          isValid sampleDigest 4 digestChildAfter tx = some true)) :=
  ⟨sampleDigest_ok, by decide, by decide, by decide, by decide,
    C19_isValid_is_contains sampleDigest sampleStringify sampleFunds sampleDigest_ok (some "N")
      (some sampleBlock) 1000 10 7 [sampleT1, sampleT2] (by decide) digestChild digestChildAfter
      [true, true] (by decide) (by decide) 4 (by decide)⟩

/-- C20, an instance: the tree of capacity 2 filled with `sampleA` and `sampleB`
under the hash `sampleDigest`, asked for the path of `sampleA` in slot 0. -/
theorem C20_getPath_is_authentication_path_witness :
    HashOk sampleDigest ∧ 1 ≤ 1 ∧ IdsDistinct [sampleA, sampleB] ∧
    (FixedMerkleTree.new sampleDigest (2 ^ 1)).bind
      (fun t0 => addTxs sampleDigest t0 [sampleA, sampleB]) = some digestTree2 ∧
    digestTree2.transactions[0]? = some (some sampleA) ∧ 1 + 1 ≤ 2 ∧
    (getPath sampleDigest 2 digestTree2 sampleA =
      some { txInd := some (2 ^ 1 - 1 + 0),
             Path := ((2 ^ 1 - 1 + 0) :: authPath 1 (2 ^ 1 - 1 + 0)).map some } ∧
    ∃ pre last, authPath 1 (2 ^ 1 - 1 + 0) = pre ++ [last] ∧ (last = 1 ∨ last = 2)) :=
  ⟨sampleDigest_ok, by decide, ⟨by decide, by decide⟩, by decide, by decide, by decide,
    C20_getPath_is_authentication_path sampleDigest sampleDigest_ok 1 (by decide)
      [sampleA, sampleB] ⟨by decide, by decide⟩ digestTree2 (by decide) 0 sampleA (by decide)
      2 (by decide)⟩

/-- C11, an instance: the block constructed from `sampleBlock`, whose reward address `M`
owns nothing and whose coinbase reward is 10. -/
theorem C11_constructor_ledger_witness :
    ∃ b, Block.newNum sampleHash sampleStringify (some "N") (some sampleBlock) 1000 10 7 =
        some b ∧
      b.nextNonce = sampleBlock.nextNonce ∧ mapGet b.balances "A" = some 100 ∧
      balanceOf b "M" = 10 := by
  obtain ⟨⟨b, e, h1, h2, _⟩, _⟩ :=
    C11_constructor_ledger sampleHash sampleStringify (some "N") sampleBlock 1000 10 7
  obtain ⟨h3, _, h4⟩ := h2 "M" (by decide) (by decide)
  refine ⟨b, e, h1, ?_, ?_⟩
  · rw [h3 "A" (by decide)]
    decide
  · rw [h4 (by decide) (by decide) (by decide) (by decide)]
    decide

/-- C12, an instance: the genesis block `sampleGenesisA` and a child with the reward
address `B` and the coinbase reward 25. -/
theorem C12_child_of_genesis_balance_witness :
    sampleGenesisA.balances = [("A", 100)] ∧ "A" ≠ "" ∧
    getAllTransactions sampleGenesisA.txMerkleTree = [] ∧
    ∃ b, Block.new sampleHash sampleStringify (some "B") (some sampleGenesisA) 1000 25 7 = some b ∧
      (sampleGenesisA.rewardAddr = some "A" → balanceOf b "A" = 100 + sampleGenesisA.coinbaseReward) ∧
      (sampleGenesisA.rewardAddr = some "A" → sampleGenesisA.coinbaseReward = 10 →
        balanceOf b "A" = 110) ∧
      (sampleGenesisA.rewardAddr = none → balanceOf b "A" = 100) :=
  ⟨by decide, by decide, by decide,
    C12_child_of_genesis_balance sampleHash sampleStringify sampleGenesisA "A" (some "B") 1000 25 7
      (by decide) (by decide) (by decide)⟩

/-- C16, an instance: the base target 1000 at the chain lengths 5 and 10. -/
theorem C16_target_decreases_witness :
    (0 : Int) ≤ 1000 ∧
    Block.new sampleHash sampleStringify none (some (sampleAt 4)) 1000 10 7 = some targetBlock5 ∧
    Block.new sampleHash sampleStringify none (some (sampleAt 9)) 1000 10 7 = some targetBlock10 ∧
    ((∀ k, targetBlock5.chainLength = 5 * k → targetBlock10.chainLength = 5 * (k + 1) →
        0 < targetBlock5.target → targetBlock10.target < targetBlock5.target) ∧
      (targetBlock5.chainLength ≤ targetBlock10.chainLength → targetBlock5.target = 0 →
        targetBlock10.target = 0) ∧
      (targetBlock5.chainLength ≤ targetBlock10.chainLength →
        targetBlock10.target ≤ targetBlock5.target)) :=
  ⟨by decide, by decide, by decide,
    C16_target_decreases sampleHash sampleStringify 1000 (by decide) none none
      (some (sampleAt 4)) (some (sampleAt 9)) 10 10 7 7 targetBlock5 targetBlock10
      (by decide) (by decide)⟩

/-- C17, an instance: `sampleChild` and the same block with another ledger. -/
theorem C17_hash_ignores_ledger_witness :
    isGenesisBlock sampleChild = false ∧
    sampleChild.chainLength = sampleChildOther.chainLength ∧
    sampleChild.timestamp = sampleChildOther.timestamp ∧
    sampleChild.txMerkleTree = sampleChildOther.txMerkleTree ∧
    sampleChild.prevBlockHash = sampleChildOther.prevBlockHash ∧
    sampleChild.proof = sampleChildOther.proof ∧
    sampleChild.rewardAddr = sampleChildOther.rewardAddr ∧
    sampleChild.balances ≠ sampleChildOther.balances ∧
    (serialize sampleStringify sampleChild = serialize sampleStringify sampleChildOther ∧
      hashVal sampleHash sampleStringify sampleChild =
        hashVal sampleHash sampleStringify sampleChildOther) :=
  ⟨by decide, by decide, by decide, by decide, by decide, by decide, by decide, by decide,
    C17_hash_ignores_ledger sampleHash sampleStringify sampleChild sampleChildOther
      (by decide) (by decide) (by decide) (by decide) (by decide) (by decide) (by decide)⟩

/-- C18, an instance: `sampleBlock` with the check `sampleFunds`. -/
theorem C18_balances_stay_nonnegative_witness :
    (∀ tx, sampleFunds tx sampleBlock = true → tx.totalOutput ≤ balanceOf sampleBlock tx.from_) ∧
    NonNegative sampleBlock.balances ∧ SlotsOk sampleBlock.txMerkleTree ∧
    ((∀ tx, (∀ o ∈ tx.outputs, 0 ≤ o.amount) →
      ∃ r b1, addTransaction sampleHash sampleFunds sampleBlock tx = some (r, b1) ∧
        NonNegative b1.balances) ∧
    (0 ≤ sampleBlock.coinbaseReward →
      (∀ tx ∈ getAllTransactions sampleBlock.txMerkleTree, 0 ≤ tx.fee) →
      ∀ rewardAddr target coinbaseReward now,
        ∃ b2, Block.new sampleHash sampleStringify rewardAddr (some sampleBlock) target
            coinbaseReward now = some b2 ∧
          NonNegative b2.balances)) :=
  ⟨fun tx h => by simpa [sampleFunds] using h,
    by unfold NonNegative; decide, ⟨by decide, 3, by decide⟩,
    C18_balances_stay_nonnegative sampleHash sampleStringify sampleFunds sampleBlock
      (fun tx h => by simpa [sampleFunds] using h) (by unfold NonNegative; decide)
      ⟨by decide, 3, by decide⟩⟩

/-- C21, an instance: the block `sampleReceived`, which holds `sampleT1` and `sampleT2`
and has no balances, rerun against `sampleBlock`; the result is `sampleChildAfter`. -/
theorem C21_rerun_keeps_tree_witness :
    (FixedMerkleTree.new sampleHash MAX_BLOCK_TRANSACTIONS).bind
      (fun t0 => addTxs sampleHash t0 [sampleT1, sampleT2]) = some sampleReceived.txMerkleTree ∧
    rerun sampleHash sampleFunds sampleReceived sampleBlock = some (true, sampleChildAfter) ∧
    sampleChildAfter.balances ≠ sampleReceived.balances ∧
    (sampleChildAfter.txMerkleTree.transactions = sampleReceived.txMerkleTree.transactions ∧
      sampleChildAfter.txMerkleTree.hashes = sampleReceived.txMerkleTree.hashes ∧
      getroot sampleChildAfter.txMerkleTree = getroot sampleReceived.txMerkleTree ∧
      sampleChildAfter.txMerkleTree = sampleReceived.txMerkleTree ∧
      (isGenesisBlock sampleReceived = false →
        serialize sampleStringify sampleChildAfter = serialize sampleStringify sampleReceived ∧
        hashVal sampleHash sampleStringify sampleChildAfter =
          hashVal sampleHash sampleStringify sampleReceived)) :=
  ⟨by decide, by decide, by decide,
    C21_rerun_keeps_tree sampleHash sampleStringify sampleFunds sampleReceived sampleBlock
      sampleChildAfter [sampleT1, sampleT2] (by decide) (by decide)⟩

end SpartanGold
